import Mathlib

/-!
Verification of the UIGen in-memory file system and preview pipeline.

JavaScript strings are modelled as lists of Unicode scalar values
(`List Char`), JavaScript `Map`s as insertion-ordered association lists
(`Map.set` replaces in place when the key exists and appends otherwise),
and the mutable object heap of the virtual file system as an explicit
store from numeric node ids to node records.
-/

namespace UIGen

/-- JavaScript strings, modelled as lists of Unicode scalar values. -/
abbrev Str : Type := List Char

/-- Conversion from Lean string literals, used for concrete inputs. -/
def str (s : String) : Str := s.data

/-! ## JavaScript `Map` as an insertion-ordered association list -/

/-- `Map.get`: the value stored at `k`, if any. -/
def mapGet {κ ν : Type} [DecidableEq κ] (k : κ) : List (κ × ν) → Option ν
  | [] => none
  | (k2, v) :: rest => if k2 = k then some v else mapGet k rest

/-- `Map.has`. -/
def mapHas {κ ν : Type} [DecidableEq κ] (k : κ) (m : List (κ × ν)) : Bool :=
  (mapGet k m).isSome

/-- `Map.set`: replaces the value in place when the key is present,
appends a new entry otherwise (JavaScript insertion order). -/
def mapSet {κ ν : Type} [DecidableEq κ] (k : κ) (v : ν) : List (κ × ν) → List (κ × ν)
  | [] => [(k, v)]
  | (k2, v2) :: rest => if k2 = k then (k2, v) :: rest else (k2, v2) :: mapSet k v rest

/-- `Map.delete`: removes the entry stored at `k`. -/
def mapDelete {κ ν : Type} [DecidableEq κ] (k : κ) : List (κ × ν) → List (κ × ν)
  | [] => []
  | (k2, v) :: rest => if k2 = k then rest else (k2, v) :: mapDelete k rest

theorem mapGet_set_self {κ ν : Type} [DecidableEq κ] (k : κ) (v : ν)
    (m : List (κ × ν)) : mapGet k (mapSet k v m) = some v := by
  induction m with
  | nil => simp [mapSet, mapGet]
  | cons e rest ih =>
    obtain ⟨k2, v2⟩ := e
    by_cases h : k2 = k
    · rw [mapSet, if_pos h, mapGet, if_pos h]
    · rw [mapSet, if_neg h, mapGet, if_neg h]
      exact ih

theorem mapGet_set_ne {κ ν : Type} [DecidableEq κ] {k k2 : κ} (v : ν)
    (m : List (κ × ν)) (h : k2 ≠ k) : mapGet k (mapSet k2 v m) = mapGet k m := by
  induction m with
  | nil => simp only [mapSet, mapGet, if_neg h]
  | cons e rest ih =>
    obtain ⟨k3, v3⟩ := e
    by_cases h3 : k3 = k2
    · rw [mapSet, if_pos h3, mapGet, mapGet]
      have h4 : k3 ≠ k := fun hc => h (h3 ▸ hc ▸ rfl)
      rw [if_neg h4, if_neg h4]
    · rw [mapSet, if_neg h3, mapGet, mapGet]
      by_cases h4 : k3 = k
      · rw [if_pos h4, if_pos h4]
      · rw [if_neg h4, if_neg h4]
        exact ih

theorem mapGet_eq_none_of_not_mem {κ ν : Type} [DecidableEq κ] {k : κ}
    {m : List (κ × ν)} (h : ∀ e ∈ m, e.1 ≠ k) : mapGet k m = none := by
  induction m with
  | nil => rfl
  | cons e rest ih =>
    obtain ⟨k2, v2⟩ := e
    rw [mapGet, if_neg (h (k2, v2) (List.mem_cons_self _ _))]
    exact ih (fun e2 he2 => h e2 (List.mem_cons_of_mem _ he2))

theorem mapGet_delete_self {κ ν : Type} [DecidableEq κ] (k : κ)
    (m : List (κ × ν)) (hnd : (m.map Prod.fst).Nodup) :
    mapGet k (mapDelete k m) = none := by
  induction m with
  | nil => rfl
  | cons e rest ih =>
    obtain ⟨k2, v2⟩ := e
    simp only [List.map_cons, List.nodup_cons] at hnd
    by_cases h : k2 = k
    · subst h
      rw [mapDelete, if_pos rfl]
      refine mapGet_eq_none_of_not_mem ?_
      intro e2 he2 hk
      exact hnd.1 (hk ▸ List.mem_map_of_mem Prod.fst he2)
    · rw [mapDelete, if_neg h, mapGet, if_neg h]
      exact ih hnd.2

theorem mapGet_delete_ne {κ ν : Type} [DecidableEq κ] {k k2 : κ}
    (m : List (κ × ν)) (h : k2 ≠ k) : mapGet k (mapDelete k2 m) = mapGet k m := by
  induction m with
  | nil => rfl
  | cons e rest ih =>
    obtain ⟨k3, v3⟩ := e
    by_cases h3 : k3 = k2
    · rw [mapDelete, if_pos h3, mapGet]
      have h4 : k3 ≠ k := fun hc => h (h3 ▸ hc ▸ rfl)
      rw [if_neg h4]
    · rw [mapDelete, if_neg h3, mapGet, mapGet]
      by_cases h4 : k3 = k
      · rw [if_pos h4, if_pos h4]
      · rw [if_neg h4, if_neg h4]
        exact ih

/-! ## `src/lib/path-utils.ts` -/

/-- The final `path.replace(/\/+/g, "/")` of `normalizePath`: collapses
every maximal run of separators to a single separator. -/
def collapseSlashes : Str → Str
  | [] => []
  | [c] => [c]
  | c :: d :: rest =>
    if c = '/' ∧ d = '/' then collapseSlashes (d :: rest)
    else c :: collapseSlashes (d :: rest)

/-- First step of `normalizePath`: ensure a leading separator. -/
def ensureLeadingSep (path : Str) : Str :=
  if path.head? = some '/' then path else '/' :: path

/-- Second step of `normalizePath`: strip one trailing separator,
except for the root. -/
def stripTrailingSep (p : Str) : Str :=
  if p ≠ ['/'] ∧ p.getLast? = some '/' then p.dropLast else p

/-- `normalizePath` from `path-utils.ts`: ensures a leading separator,
strips one trailing separator (except for the root), then collapses
repeated separators — in exactly that order. -/
def normalizePath (path : Str) : Str :=
  collapseSlashes (stripTrailingSep (ensureLeadingSep path))

/-- `getParentPath` from `path-utils.ts`. -/
def getParentPath (path : Str) : Str :=
  let normalized := normalizePath path
  if normalized = ['/'] then ['/']
  else
    let parts := (normalized.splitOn '/').dropLast
    if parts.length = 1 then ['/'] else List.intercalate ['/'] parts

/-- `getFileName` from `path-utils.ts`. -/
def getFileName (path : Str) : Str :=
  let normalized := normalizePath path
  if normalized = ['/'] then ['/']
  else ((normalized.splitOn '/').getLast?).getD []

/-- The loop body of `createDirectoryPath`: successive ancestor paths
`acc + "/" + part` for all but the last part. -/
def dirChainAux (acc : Str) : List Str → List Str
  | [] => []
  | [_] => []
  | p :: q :: rest => (acc ++ '/' :: p) :: dirChainAux (acc ++ '/' :: p) (q :: rest)

/-- `createDirectoryPath` from `path-utils.ts`: the ordered list of
proper ancestor directory paths of the target. -/
def createDirectoryPath (targetPath : Str) : List Str :=
  dirChainAux [] (((normalizePath targetPath).splitOn '/').filter (fun s => !s.isEmpty))

/-- `resolveRelativePath` from `path-utils.ts`. -/
def resolveRelativePath (fromDir relativePath : Str) : Str :=
  let parts := (fromDir.splitOn '/').filter (fun s => !s.isEmpty)
  let final := (relativePath.splitOn '/').foldl
    (fun acc part =>
      if part = ['.', '.'] then acc.dropLast
      else if part ≠ ['.'] then acc ++ [part]
      else acc)
    parts
  '/' :: List.intercalate ['/'] final

/-- `isValidPath` from `path-utils.ts`: non-empty and free of NUL. -/
def isValidPath (path : Str) : Bool :=
  !path.isEmpty && !path.any (fun c => c = Char.ofNat 0)

/-! ### Properties of `normalizePath` (claim C7) -/

/-- No two adjacent separators. -/
def noDoubleSep : Str → Bool
  | [] => true
  | [_] => true
  | a :: b :: rest => !(a = '/' && b = '/') && noDoubleSep (b :: rest)

theorem collapseSlashes_head : ∀ l : Str, (collapseSlashes l).head? = l.head? := by
  intro l
  induction l with
  | nil => rfl
  | cons c t ih =>
    match t with
    | [] => rfl
    | d :: rest =>
      rw [collapseSlashes]
      by_cases h : c = '/' ∧ d = '/'
      · rw [if_pos h, ih]
        simp [h.1, h.2]
      · rw [if_neg h]
        rfl

theorem collapseSlashes_ne_nil : ∀ {l : Str}, l ≠ [] → collapseSlashes l ≠ [] := by
  intro l h
  have := collapseSlashes_head l
  intro hc
  rw [hc] at this
  match l, h with
  | c :: t, _ => exact Option.noConfusion this

theorem getLast?_cons_ne {α : Type} {a : α} {l : List α} (h : l ≠ []) :
    (a :: l).getLast? = l.getLast? := by
  match l, h with
  | b :: t, _ => rw [List.getLast?_cons_cons]

theorem collapseSlashes_getLast? : ∀ l : Str,
    (collapseSlashes l).getLast? = l.getLast? := by
  intro l
  induction l with
  | nil => rfl
  | cons c t ih =>
    match t with
    | [] => rfl
    | d :: rest =>
      rw [collapseSlashes]
      by_cases h : c = '/' ∧ d = '/'
      · rw [if_pos h, ih, List.getLast?_cons_cons]
      · rw [if_neg h, getLast?_cons_ne (collapseSlashes_ne_nil (List.cons_ne_nil d rest)), ih,
          List.getLast?_cons_cons]

theorem noDoubleSep_cons {a : Char} {t : Str} (hhead : t.head? ≠ some '/' ∨ a ≠ '/')
    (ht : noDoubleSep t = true) : noDoubleSep (a :: t) = true := by
  match t with
  | [] => rfl
  | b :: t2 =>
    rw [noDoubleSep]
    simp only [Bool.and_eq_true, Bool.not_eq_true', decide_eq_true_eq]
    refine ⟨?_, ht⟩
    simp only [Bool.and_eq_false_iff, decide_eq_false_iff_not]
    rcases hhead with h | h
    · simp only [List.head?_cons, ne_eq, Option.some.injEq] at h
      exact Or.inr h
    · exact Or.inl h

theorem noDoubleSep_collapseSlashes : ∀ l : Str,
    noDoubleSep (collapseSlashes l) = true := by
  intro l
  induction l with
  | nil => rfl
  | cons c t ih =>
    match t with
    | [] => rfl
    | d :: rest =>
      rw [collapseSlashes]
      by_cases h : c = '/' ∧ d = '/'
      · rw [if_pos h]
        exact ih
      · rw [if_neg h]
        refine noDoubleSep_cons ?_ ih
        rw [collapseSlashes_head]
        by_cases hc : c = '/'
        · left
          simp only [List.head?_cons, ne_eq, Option.some.injEq]
          intro hd
          exact h ⟨hc, hd⟩
        · exact Or.inr hc

theorem collapseSlashes_of_noDoubleSep : ∀ {l : Str},
    noDoubleSep l = true → collapseSlashes l = l := by
  intro l
  induction l with
  | nil => intro _; rfl
  | cons c t ih =>
    intro h
    match t with
    | [] => rfl
    | d :: rest =>
      rw [noDoubleSep] at h
      simp only [Bool.and_eq_true, Bool.not_eq_true', Bool.and_eq_false_iff,
        decide_eq_false_iff_not] at h
      rw [collapseSlashes, if_neg (by
        intro hc
        rcases h.1 with h1 | h1
        · exact h1 hc.1
        · exact h1 hc.2)]
      rw [ih h.2]

/-- `normalizePath` is the identity on strings that are already in
canonical form: leading separator, no repeated separator, and no
trailing separator except for the root itself. -/
theorem normalizePath_fixed {q : Str} (hhead : q.head? = some '/')
    (hdd : noDoubleSep q = true) (hlast : q = ['/'] ∨ q.getLast? ≠ some '/') :
    normalizePath q = q := by
  rw [normalizePath, ensureLeadingSep, if_pos hhead, stripTrailingSep]
  rcases hlast with h | h
  · subst h; rfl
  · rw [if_neg (fun hc => h hc.2)]
    exact collapseSlashes_of_noDoubleSep hdd

theorem ensureLeadingSep_head (p : Str) : (ensureLeadingSep p).head? = some '/' := by
  rw [ensureLeadingSep]
  by_cases h : p.head? = some '/'
  · rw [if_pos h]; exact h
  · rw [if_neg h]; rfl

theorem ensureLeadingSep_ne_nil (p : Str) : ensureLeadingSep p ≠ [] := by
  intro h
  have := ensureLeadingSep_head p
  rw [h] at this
  exact Option.noConfusion this

theorem stripTrailingSep_head {p : Str} (hne : p ≠ [])
    (h : p.head? = some '/') :
    (stripTrailingSep p).head? = some '/' := by
  rw [stripTrailingSep]
  by_cases h2 : p ≠ ['/'] ∧ p.getLast? = some '/'
  · rw [if_pos h2]
    match p, hne with
    | [c], _ =>
      exact absurd (by simpa using h) (by simpa using h2.1)
    | c :: d :: rest, _ =>
      rw [List.dropLast_cons₂]
      simpa using h
  · rw [if_neg h2]
    exact h

theorem normalizePath_head (p : Str) : (normalizePath p).head? = some '/' := by
  rw [normalizePath, collapseSlashes_head]
  exact stripTrailingSep_head (ensureLeadingSep_ne_nil p) (ensureLeadingSep_head p)

theorem normalizePath_ne_nil (p : Str) : normalizePath p ≠ [] := by
  intro h
  have := normalizePath_head p
  rw [h] at this
  exact Option.noConfusion this

/-- If a list ends with a separator and its `dropLast` also ends with a
separator, then the list ends with two separators. -/
theorem endsDouble_of_dropLast {l : Str} (h1 : l.getLast? = some '/')
    (h2 : l.dropLast.getLast? = some '/') : ['/', '/'] <:+ l := by
  have hne : l ≠ [] := by intro h; rw [h] at h1; exact Option.noConfusion h1
  have hdne : l.dropLast ≠ [] := by
    intro h; rw [h] at h2; exact Option.noConfusion h2
  have hlast : l.getLast hne = '/' := by
    have := List.getLast?_eq_getLast l hne
    rw [this] at h1
    exact Option.some.inj h1
  have hdlast : l.dropLast.getLast hdne = '/' := by
    have := List.getLast?_eq_getLast l.dropLast hdne
    rw [this] at h2
    exact Option.some.inj h2
  refine ⟨l.dropLast.dropLast, ?_⟩
  have hl : l.dropLast ++ [l.getLast hne] = l := List.dropLast_append_getLast hne
  have hd : l.dropLast.dropLast ++ [l.dropLast.getLast hdne] = l.dropLast :=
    List.dropLast_append_getLast hdne
  have hl2 : l.dropLast ++ ['/'] = l := by rw [← hlast]; exact hl
  have hd2 : l.dropLast.dropLast ++ ['/'] = l.dropLast := by rw [← hdlast]; exact hd
  calc l.dropLast.dropLast ++ ['/', '/']
      = (l.dropLast.dropLast ++ ['/']) ++ ['/'] := by
        rw [List.append_assoc]
        rfl
    _ = l.dropLast ++ ['/'] := by rw [hd2]
    _ = l := hl2

theorem suffix2_cons {a : Char} {t : Str} (h : ['/', '/'] <:+ (a :: t)) :
    ['/', '/'] <:+ t ∨ (a :: t) = ['/', '/'] := by
  obtain ⟨pre, hpre⟩ := h
  match pre with
  | [] => exact Or.inr hpre.symm
  | b :: pre2 =>
    left
    refine ⟨pre2, ?_⟩
    rw [List.cons_append] at hpre
    exact (List.cons.injEq _ _ _ _ ▸ hpre).2

/-- Unless the input ends with a repeated separator, the output of
`normalizePath` never retains a trailing separator (except the root). -/
theorem normalizePath_getLast {p : Str} (h : ¬ (['/', '/'] <:+ p)) :
    normalizePath p = ['/'] ∨ (normalizePath p).getLast? ≠ some '/' := by
  rw [normalizePath]
  have hp1ne : ensureLeadingSep p ≠ [] := ensureLeadingSep_ne_nil p
  have hsuf : ¬ (['/', '/'] <:+ ensureLeadingSep p) ∨ ensureLeadingSep p = ['/', '/'] := by
    rw [ensureLeadingSep]
    by_cases hh : p.head? = some '/'
    · rw [if_pos hh]; exact Or.inl h
    · rw [if_neg hh]
      by_cases hs : ['/', '/'] <:+ ('/' :: p)
      · rcases suffix2_cons hs with hs2 | hs2
        · exact absurd hs2 h
        · exact Or.inr hs2
      · exact Or.inl hs
  rw [stripTrailingSep]
  by_cases h2 : ensureLeadingSep p ≠ ['/'] ∧ (ensureLeadingSep p).getLast? = some '/'
  · rw [if_pos h2]
    rcases hsuf with hsuf | hsuf
    · by_cases hdl : (ensureLeadingSep p).dropLast.getLast? = some '/'
      · exact absurd (endsDouble_of_dropLast h2.2 hdl) hsuf
      · right
        rw [collapseSlashes_getLast?]
        exact hdl
    · rw [hsuf]
      left
      rfl
  · by_cases hq : ensureLeadingSep p = ['/']
    · rw [if_neg h2, hq]
      left
      rfl
    · rw [if_neg h2]
      right
      rw [collapseSlashes_getLast?]
      intro hlast
      exact h2 ⟨hq, hlast⟩

/-- **C7, counterexample.** `normalizePath` is not idempotent: on
`"a//"` the trailing separator is stripped before repeated separators
are collapsed, yielding `"/a/"`, and a second application yields `"/a"`. -/
theorem normalizePath_not_idempotent_on_trailing_doubleslash :
    normalizePath (str "a//") = str "/a/" ∧
      normalizePath (normalizePath (str "a//")) = str "/a" ∧
      normalizePath (normalizePath (str "a//")) ≠ normalizePath (str "a//") := by
  refine ⟨by decide, by decide, by decide⟩

/-- **C7 (amended).** `normalizePath` is idempotent on every input that
does not end with two consecutive separators; only inputs ending in a
repeated separator (such as `"a//"`) can violate idempotence. -/
theorem normalizePath_idempotent_of_no_trailing_doubleslash
    (p : Str) (h : ¬ (['/', '/'] <:+ p)) :
    normalizePath (normalizePath p) = normalizePath p := by
  refine normalizePath_fixed (normalizePath_head p) ?_ ?_
  · rw [normalizePath]
    exact noDoubleSep_collapseSlashes _
  · exact normalizePath_getLast h

/-- Witness for the amended C7 at the concrete input `"abc"`. -/
theorem normalizePath_idempotent_witness :
    ¬ (['/', '/'] <:+ str "abc") ∧
      normalizePath (normalizePath (str "abc")) = normalizePath (str "abc") :=
  ⟨by decide, normalizePath_idempotent_of_no_trailing_doubleslash (str "abc") (by decide)⟩

end UIGen

namespace UIGen

/-! ## `src/lib/constants.ts` -/

/-- `FILE_SYSTEM_LIMITS.MAX_FILE_SIZE`. -/
def MAX_FILE_SIZE : Nat := 10 * 1024 * 1024

/-- `FILE_SYSTEM_LIMITS.MAX_PATH_LENGTH`. -/
def MAX_PATH_LENGTH : Nat := 4096

/-! ## The virtual file system (`VirtualFileSystem`)

Mutable `FileNode` objects are modelled as records stored in an explicit
heap keyed by numeric node ids; the `files` index maps paths to node
ids, and `children` maps child names to node ids, so object aliasing in
the JavaScript original corresponds to shared ids. -/

inductive NodeType
  | file
  | directory
deriving DecidableEq, Repr

structure FileNode where
  type : NodeType
  name : Str
  path : Str
  content : Str := []
  children : List (Str × Nat) := []
deriving DecidableEq, Repr

/-- Placeholder result of a heap lookup at an unallocated id; never
reached on states produced by the operations. -/
def dummyNode : FileNode := { type := NodeType.file, name := [], path := [] }

structure VFS where
  heap : List (Nat × FileNode)
  files : List (Str × Nat)
  root : Nat
  nextId : Nat
deriving DecidableEq, Repr

def rootNode : FileNode := { type := NodeType.directory, name := ['/'], path := ['/'] }

/-- The state built by the `VirtualFileSystem` constructor. -/
def freshVFS : VFS := { heap := [(0, rootNode)], files := [(['/'], 0)], root := 0, nextId := 1 }

/-- Errors thrown by the validation helpers. -/
inductive VfsErr
  | invalidPath
  | pathTooLong (len : Nat)
  | fileTooLarge (len : Nat)
deriving DecidableEq, Repr

/-- Outcome of a (possibly throwing, possibly non-terminating)
operation: a value, a thrown error, or divergence of the underlying
recursion (out of fuel at every depth bound). -/
inductive Res (α : Type)
  | ok (a : α)
  | err (e : VfsErr)
  | oom
deriving DecidableEq, Repr

def Res.bind {α β : Type} : Res α → (α → Res β) → Res β
  | .ok a, f => f a
  | .err e, _ => .err e
  | .oom, _ => .oom

instance : Monad Res where
  pure := Res.ok
  bind := Res.bind

/-- `validatePath`: throws on invalid or overlong paths. -/
def validatePath (path : Str) : Res Unit :=
  if ¬ isValidPath path then .err .invalidPath
  else if path.length > MAX_PATH_LENGTH then .err (.pathTooLong path.length)
  else .ok ()

/-- `validateContent`: throws on oversized content. -/
def validateContent (content : Str) : Res Unit :=
  if content.length > MAX_FILE_SIZE then .err (.fileTooLarge content.length)
  else .ok ()

/-- Heap lookup (the dereference of a JavaScript object reference). -/
def VFS.node (s : VFS) (id : Nat) : FileNode := (mapGet id s.heap).getD dummyNode

/-- In-place mutation of the object stored at `id`. -/
def VFS.setNode (s : VFS) (id : Nat) (n : FileNode) : VFS :=
  { s with heap := mapSet id n s.heap }

/-- `getParentNode`: `this.files.get(getParentPath(path)) || null`. -/
def VFS.getParentNode (s : VFS) (path : Str) : Option Nat :=
  mapGet (getParentPath path) s.files

/-- `exists`: no validation throw — invalid paths simply report `false`,
and no length check is performed. -/
def VFS.existsPath (s : VFS) (path : Str) : Bool :=
  if ¬ isValidPath path then false
  else mapHas (normalizePath path) s.files

/-- `getNode`: returns `null` (never throws) on invalid paths. -/
def VFS.getNodeAt (s : VFS) (path : Str) : Option FileNode :=
  if ¬ isValidPath path then none
  else match mapGet (normalizePath path) s.files with
    | none => none
    | some id => some (s.node id)

/-- `listDirectory`: returns `null` (never throws) on invalid paths and
on non-directories. -/
def VFS.listDirectory (s : VFS) (path : Str) : Option (List FileNode) :=
  if ¬ isValidPath path then none
  else match mapGet (normalizePath path) s.files with
    | none => none
    | some id =>
      if (s.node id).type ≠ NodeType.directory then none
      else some ((s.node id).children.map (fun e => s.node e.2))

/-- `createDirectory`. Returns the new node id, or `none` on the
expected failures (path already present, parent missing or not a
directory). -/
def VFS.createDirectory (s : VFS) (path : Str) : Res (Option Nat × VFS) := do
  let _ ← validatePath path
  let normalized := normalizePath path
  if mapHas normalized s.files then
    return (none, s)
  else
    match s.getParentNode normalized with
    | none => return (none, s)
    | some pid =>
      if (s.node pid).type ≠ NodeType.directory then
        return (none, s)
      else
        let dirName := getFileName normalized
        let directory : FileNode :=
          { type := NodeType.directory, name := dirName, path := normalized, children := [] }
        let id := s.nextId
        let s2 : VFS := { heap := mapSet id directory s.heap,
                          files := mapSet normalized id s.files,
                          root := s.root, nextId := id + 1 }
        let parent := s2.node pid
        let s3 := s2.setNode pid { parent with children := mapSet dirName id parent.children }
        return (some id, s3)

/-- The loop of `ensureParentDirectories` over an ancestor chain. -/
def VFS.ensureParentAux (s : VFS) : List Str → Res VFS
  | [] => .ok s
  | dirPath :: rest =>
    if s.existsPath dirPath then s.ensureParentAux rest
    else do
      let (_, s2) ← s.createDirectory dirPath
      s2.ensureParentAux rest

/-- `ensureParentDirectories`. -/
def VFS.ensureParentDirectories (s : VFS) (path : Str) : Res VFS :=
  s.ensureParentAux (createDirectoryPath path)

/-- `createFile`. -/
def VFS.createFile (s : VFS) (path : Str) (content : Str) : Res (Option Nat × VFS) := do
  let _ ← validatePath path
  let _ ← validateContent content
  let normalized := normalizePath path
  if mapHas normalized s.files then
    return (none, s)
  else do
    let s1 ← s.ensureParentDirectories normalized
    match s1.getParentNode normalized with
    | none => return (none, s1)
    | some pid =>
      if (s1.node pid).type ≠ NodeType.directory then
        return (none, s1)
      else
        let fileName := getFileName normalized
        let file : FileNode :=
          { type := NodeType.file, name := fileName, path := normalized, content := content }
        let id := s1.nextId
        let s2 : VFS := { heap := mapSet id file s1.heap,
                          files := mapSet normalized id s1.files,
                          root := s1.root, nextId := id + 1 }
        let parent := s2.node pid
        let s3 := s2.setNode pid { parent with children := mapSet fileName id parent.children }
        return (some id, s3)

/-- `readFile`. -/
def VFS.readFile (s : VFS) (path : Str) : Res (Option Str) := do
  let _ ← validatePath path
  let normalized := normalizePath path
  match mapGet normalized s.files with
  | none => return none
  | some id =>
    if (s.node id).type ≠ NodeType.file then return none
    else return some (s.node id).content

/-- `updateFile`. -/
def VFS.updateFile (s : VFS) (path content : Str) : Res (Bool × VFS) := do
  let _ ← validatePath path
  let _ ← validateContent content
  let normalized := normalizePath path
  match mapGet normalized s.files with
  | none => return (false, s)
  | some id =>
    if (s.node id).type ≠ NodeType.file then return (false, s)
    else return (true, s.setNode id { s.node id with content := content })

/-- The `for (const [_, child] of node.children)` loop of
`deleteRecursively`, parameterised by the recursive call. -/
def deleteRecChildrenGo (recur : VFS → Nat → Res VFS) (s : VFS) :
    List (Str × Nat) → Res VFS
  | [] => .ok s
  | (_, cid) :: rest => do
    let s2 ← recur s cid
    let s3 : VFS := { s2 with files := mapDelete (s2.node cid).path s2.files }
    deleteRecChildrenGo recur s3 rest

/-- One unfolding of `deleteRecursively`. -/
def VFS.deleteRecursivelyF (recur : VFS → Nat → Res VFS) (s : VFS) (id : Nat) : Res VFS :=
  if (s.node id).type = NodeType.directory then
    deleteRecChildrenGo recur s (s.node id).children
  else .ok s

/-- `deleteRecursively`: removes every tree descendant of `id` from the
path index. The fuel argument bounds the recursion depth; `oom` at
every fuel models non-termination of the JavaScript recursion. -/
def VFS.deleteRecursively : Nat → VFS → Nat → Res VFS
  | 0 => fun _ _ => .oom
  | fuel + 1 => VFS.deleteRecursivelyF (VFS.deleteRecursively fuel)

/-- `deleteFile`. -/
def VFS.deleteFile (fuel : Nat) (s : VFS) (path : Str) : Res (Bool × VFS) := do
  let _ ← validatePath path
  let normalized := normalizePath path
  match mapGet normalized s.files with
  | none => return (false, s)
  | some id =>
    if normalized = ['/'] then return (false, s)
    else
      match s.getParentNode normalized with
      | none => return (false, s)
      | some pid =>
        if (s.node pid).type ≠ NodeType.directory then return (false, s)
        else do
          let s2 ← VFS.deleteRecursively fuel s id
          let fileName := (s2.node id).name
          let parent := s2.node pid
          let s3 := s2.setNode pid { parent with children := mapDelete fileName parent.children }
          let s4 : VFS := { s3 with files := mapDelete normalized s3.files }
          return (true, s4)

/-- The `for (const [_, child] of node.children)` loop of
`updateChildrenPaths`, parameterised by the recursive call. -/
def updateChildrenLoopGo (recur : VFS → Nat → Res VFS) (s : VFS) (id : Nat) :
    List (Str × Nat) → Res VFS
  | [] => .ok s
  | (_, cid) :: rest => do
    let child := s.node cid
    let oldChildPath := child.path
    let newChildPath := (s.node id).path ++ '/' :: child.name
    let s2 := s.setNode cid { child with path := newChildPath }
    let s3 : VFS := { s2 with files := mapSet newChildPath cid (mapDelete oldChildPath s2.files) }
    let s4 ← if (s3.node cid).type = NodeType.directory
      then recur s3 cid
      else .ok s3
    updateChildrenLoopGo recur s4 id rest

/-- One unfolding of `updateChildrenPaths`. -/
def VFS.updateChildrenPathsF (recur : VFS → Nat → Res VFS) (s : VFS) (id : Nat) : Res VFS :=
  if (s.node id).type = NodeType.directory then
    updateChildrenLoopGo recur s id (s.node id).children
  else .ok s

/-- `updateChildrenPaths`: rewrites each child's `path` to
`node.path + "/" + child.name` (reading `node.path` live), updates the
path index, and recurses into directory children. The fuel bounds the
recursion depth, so `oom` at every fuel models the stack overflow the
JavaScript code runs into on cyclic structures. -/
def VFS.updateChildrenPaths : Nat → VFS → Nat → Res VFS
  | 0 => fun _ _ => .oom
  | fuel + 1 => VFS.updateChildrenPathsF (VFS.updateChildrenPaths fuel)

/-- `rename`. -/
def VFS.rename (fuel : Nat) (s : VFS) (oldPath newPath : Str) : Res (Bool × VFS) := do
  let _ ← validatePath oldPath
  let _ ← validatePath newPath
  let normalizedOld := normalizePath oldPath
  let normalizedNew := normalizePath newPath
  if normalizedOld = ['/'] ∨ normalizedNew = ['/'] then
    return (false, s)
  else
    match mapGet normalizedOld s.files with
    | none => return (false, s)
    | some sid =>
      if mapHas normalizedNew s.files then return (false, s)
      else
        match s.getParentNode normalizedOld with
        | none => return (false, s)
        | some oldPid =>
          if (s.node oldPid).type ≠ NodeType.directory then return (false, s)
          else do
            let s1 ← s.ensureParentDirectories normalizedNew
            match s1.getParentNode normalizedNew with
            | none => return (false, s1)
            | some newPid =>
              if (s1.node newPid).type ≠ NodeType.directory then return (false, s1)
              else do
                let srcName := (s1.node sid).name
                let op := s1.node oldPid
                let s2 := s1.setNode oldPid { op with children := mapDelete srcName op.children }
                let newName := getFileName normalizedNew
                let src := s2.node sid
                let s3 := s2.setNode sid { src with name := newName, path := normalizedNew }
                let np := s3.node newPid
                let s4 := s3.setNode newPid { np with children := mapSet newName sid np.children }
                let s5 : VFS := { s4 with files := mapSet normalizedNew sid (mapDelete normalizedOld s4.files) }
                let s6 ← if (s5.node sid).type = NodeType.directory
                  then VFS.updateChildrenPaths fuel s5 sid
                  else .ok s5
                return (true, s6)

/-- `getAllFiles`: the path-to-content mapping of all file nodes. -/
def VFS.getAllFiles (s : VFS) : List (Str × Str) :=
  (s.files.filter (fun e => decide ((s.node e.2).type = NodeType.file))).map
    (fun e => (e.1, (s.node e.2).content))

/-- `reset`: a brand new root object, an index holding only the root. -/
def VFS.reset (s : VFS) : VFS :=
  let id := s.nextId
  { heap := mapSet id rootNode s.heap, files := [(['/'], id)], root := id, nextId := id + 1 }

/-! ### `serialize` / `deserialize` -/

/-- The lightweight node descriptor emitted by `serialize` (a shallow
copy without the `children` map; `content` only for file nodes). -/
structure SerNode where
  type : NodeType
  name : Str
  path : Str
  content : Option Str
deriving DecidableEq, Repr

/-- `serialize`. -/
def VFS.serialize (s : VFS) : List (Str × SerNode) :=
  s.files.map (fun e =>
    let n := s.node e.2
    (e.1,
      if n.type = NodeType.directory then
        { type := n.type, name := n.name, path := n.path, content := none }
      else
        { type := n.type, name := n.name, path := n.path, content := some n.content }))

/-- JavaScript's default string comparison: lexicographic on code
units. -/
def strLe : Str → Str → Bool
  | [], _ => true
  | _ :: _, [] => false
  | a :: as, b :: bs => if a = b then strLe as bs else decide (a < b)

def insertSorted (x : Str) : List Str → List Str
  | [] => [x]
  | y :: rest => if strLe x y then x :: y :: rest else y :: insertSorted x rest

/-- `Object.keys(data).sort()`: default JavaScript sort (lexicographic
on code-unit sequences), modelled as an insertion sort. -/
def sortStr (l : List Str) : List Str :=
  l.foldr insertSorted []

/-- The body of the `deserializeFromNodes` loop for one path: create
missing ancestor directories along the path's part chain, then create
the file or directory itself. -/
def VFS.deserializeStep (s : VFS) (data : List (Str × SerNode)) (path : Str) : Res VFS := do
  if path = ['/'] then return s
  else
    match mapGet path data with
    | none => return s
    | some nd => do
      let parts := (path.splitOn '/').filter (fun x => !x.isEmpty)
      let s1 ← s.ensureParentAux (dirChainAux [] parts)
      match nd.type with
      | NodeType.file => do
        let (_, s2) ← s1.createFile path (nd.content.getD [])
        return s2
      | NodeType.directory => do
        let (_, s2) ← s1.createDirectory path
        return s2

def VFS.deserializeFold (s : VFS) (data : List (Str × SerNode)) : List Str → Res VFS
  | [] => .ok s
  | p :: rest => do
    let s2 ← s.deserializeStep data p
    VFS.deserializeFold s2 data rest

/-- `deserializeFromNodes`: clears the index down to the (retained) root
object, clears the root's children, then recreates every entry of
`data` in sorted path order. -/
def VFS.deserializeFromNodes (s : VFS) (data : List (Str × SerNode)) : Res VFS := do
  let rn := s.node s.root
  let s0 : VFS := { heap := mapSet s.root { rn with children := [] } s.heap,
                    files := [(['/'], s.root)], root := s.root, nextId := s.nextId }
  VFS.deserializeFold s0 data (sortStr (data.map Prod.fst))

/-- One step of `deserialize` (the `Record<string, string>` variant):
ancestor creation followed by `createFile`. -/
def VFS.deserializeStepData (s : VFS) (data : List (Str × Str)) (path : Str) : Res VFS := do
  let parts := (path.splitOn '/').filter (fun x => !x.isEmpty)
  let s1 ← s.ensureParentAux (dirChainAux [] parts)
  let (_, s2) ← s1.createFile path ((mapGet path data).getD [])
  return s2

def VFS.deserializeDataFold (s : VFS) (data : List (Str × Str)) : List Str → Res VFS
  | [] => .ok s
  | p :: rest => do
    let s2 ← s.deserializeStepData data p
    VFS.deserializeDataFold s2 data rest

/-- `deserialize` (flat path-to-content mapping). -/
def VFS.deserialize (s : VFS) (data : List (Str × Str)) : Res VFS := do
  let rn := s.node s.root
  let s0 : VFS := { heap := mapSet s.root { rn with children := [] } s.heap,
                    files := [(['/'], s.root)], root := s.root, nextId := s.nextId }
  VFS.deserializeDataFold s0 data (sortStr (data.map Prod.fst))

/-! ### Operation sequences -/

/-- One invocation of a mutating operation of the public contract. -/
inductive VfsOp
  | createFile (path content : Str)
  | createDirectory (path : Str)
  | updateFile (path content : Str)
  | deleteFile (path : Str)
  | rename (oldPath newPath : Str)
  | reset
deriving DecidableEq, Repr

def VFS.applyOp (fuel : Nat) (s : VFS) : VfsOp → Res VFS
  | .createFile p c => do let (_, s2) ← s.createFile p c; return s2
  | .createDirectory p => do let (_, s2) ← s.createDirectory p; return s2
  | .updateFile p c => do let (_, s2) ← s.updateFile p c; return s2
  | .deleteFile p => do let (_, s2) ← VFS.deleteFile fuel s p; return s2
  | .rename p q => do let (_, s2) ← VFS.rename fuel s p q; return s2
  | .reset => .ok s.reset

def VFS.runOps (fuel : Nat) (s : VFS) : List VfsOp → Res VFS
  | [] => .ok s
  | op :: rest => do
    let s2 ← s.applyOp fuel op
    VFS.runOps fuel s2 rest

end UIGen

namespace UIGen

@[simp] theorem Res.ok_bind {α β : Type} (a : α) (f : α → Res β) :
    (Res.ok a >>= f) = f a := rfl

@[simp] theorem Res.err_bind {α β : Type} (e : VfsErr) (f : α → Res β) :
    (Res.err e >>= f) = Res.err e := rfl

@[simp] theorem Res.oom_bind {α β : Type} (f : α → Res β) :
    (Res.oom >>= f) = Res.oom := rfl

@[simp] theorem Res.pure_eq_ok {α : Type} (a : α) : (pure a : Res α) = Res.ok a := rfl

/-- Convenience projections used to name the concrete states appearing
in counterexamples. -/
def resVFS (r : Res VFS) : VFS :=
  match r with
  | .ok s => s
  | _ => freshVFS

def resCreate (r : Res (Option Nat × VFS)) : Option Nat × VFS :=
  match r with
  | .ok p => p
  | _ => (none, freshVFS)

/-! ### Claim C10: validation behaviour of the public operations -/

/-- **C10, counterexample.** `exists`, `getNode` and `listDirectory` do
not raise on validation violations: on the empty path — which the claim
says must raise an `InvalidPath` error — they simply return
`false`/`null` (their return types are not even fallible; they also
perform no length validation, see `validation_contract`). -/
theorem lookup_ops_do_not_validate :
    freshVFS.existsPath (str "") = false ∧
      freshVFS.getNodeAt (str "") = none ∧
      freshVFS.listDirectory (str "") = none := by
  refine ⟨by decide, by decide, by decide⟩

/-- **C10 (amended).** The mutating and reading operations
(`createFile`, `createDirectory`, `readFile`, `updateFile`,
`deleteFile`, `rename`) raise `InvalidPath` on empty or NUL-containing
paths and `PathTooLong` on over-long paths, and `createFile`/
`updateFile` raise `ContentTooLarge` on oversized content; but the
lookup operations `exists`, `getNode`, `listDirectory` never raise:
they return `false`/`null` on invalid paths and perform no length
validation at all. -/
theorem validation_contract (fuel : Nat) (s : VFS) (p q c : Str) :
    (isValidPath p = false →
      s.createFile p c = Res.err VfsErr.invalidPath ∧
      s.createDirectory p = Res.err VfsErr.invalidPath ∧
      s.readFile p = Res.err VfsErr.invalidPath ∧
      s.updateFile p c = Res.err VfsErr.invalidPath ∧
      VFS.deleteFile fuel s p = Res.err VfsErr.invalidPath ∧
      VFS.rename fuel s p q = Res.err VfsErr.invalidPath ∧
      s.existsPath p = false ∧ s.getNodeAt p = none ∧ s.listDirectory p = none) ∧
    (isValidPath p = true → p.length > MAX_PATH_LENGTH →
      s.createFile p c = Res.err (VfsErr.pathTooLong p.length) ∧
      s.createDirectory p = Res.err (VfsErr.pathTooLong p.length) ∧
      s.readFile p = Res.err (VfsErr.pathTooLong p.length) ∧
      s.updateFile p c = Res.err (VfsErr.pathTooLong p.length) ∧
      VFS.deleteFile fuel s p = Res.err (VfsErr.pathTooLong p.length) ∧
      VFS.rename fuel s p q = Res.err (VfsErr.pathTooLong p.length) ∧
      s.existsPath p = mapHas (normalizePath p) s.files) ∧
    (isValidPath p = true → p.length ≤ MAX_PATH_LENGTH →
      isValidPath q = false →
      VFS.rename fuel s p q = Res.err VfsErr.invalidPath) ∧
    (isValidPath p = true → p.length ≤ MAX_PATH_LENGTH →
      c.length > MAX_FILE_SIZE →
      s.createFile p c = Res.err (VfsErr.fileTooLarge c.length) ∧
      s.updateFile p c = Res.err (VfsErr.fileTooLarge c.length)) := by
  have hval : ∀ (h : isValidPath p = false), validatePath p = Res.err VfsErr.invalidPath := by
    intro h
    rw [validatePath, if_pos (by simp [h])]
  have hlong : ∀ (_ : isValidPath p = true) (_ : p.length > MAX_PATH_LENGTH),
      validatePath p = Res.err (VfsErr.pathTooLong p.length) := by
    intro h1 h2
    rw [validatePath, if_neg (by simp [h1]), if_pos h2]
  have hok : ∀ (_ : isValidPath p = true) (_ : p.length ≤ MAX_PATH_LENGTH),
      validatePath p = Res.ok () := by
    intro h1 h2
    rw [validatePath, if_neg (by simp [h1]), if_neg (by omega)]
  refine ⟨?_, ?_, ?_, ?_⟩
  · intro h
    refine ⟨?_, ?_, ?_, ?_, ?_, ?_, ?_, ?_, ?_⟩
    · rw [VFS.createFile, hval h]; rfl
    · rw [VFS.createDirectory, hval h]; rfl
    · rw [VFS.readFile, hval h]; rfl
    · rw [VFS.updateFile, hval h]; rfl
    · rw [VFS.deleteFile, hval h]; rfl
    · rw [VFS.rename, hval h]; rfl
    · rw [VFS.existsPath, if_pos (by simp [h])]
    · rw [VFS.getNodeAt, if_pos (by simp [h])]
    · rw [VFS.listDirectory, if_pos (by simp [h])]
  · intro h1 h2
    refine ⟨?_, ?_, ?_, ?_, ?_, ?_, ?_⟩
    · rw [VFS.createFile, hlong h1 h2]; rfl
    · rw [VFS.createDirectory, hlong h1 h2]; rfl
    · rw [VFS.readFile, hlong h1 h2]; rfl
    · rw [VFS.updateFile, hlong h1 h2]; rfl
    · rw [VFS.deleteFile, hlong h1 h2]; rfl
    · rw [VFS.rename, hlong h1 h2]; rfl
    · rw [VFS.existsPath, if_neg (by simp [h1])]
  · intro h1 h2 h3
    rw [VFS.rename, hok h1 h2]
    have : validatePath q = Res.err VfsErr.invalidPath := by
      rw [validatePath, if_pos (by simp [h3])]
    rw [Res.ok_bind, this]
    rfl
  · intro h1 h2 h3
    have hcontent : validateContent c = Res.err (VfsErr.fileTooLarge c.length) := by
      rw [validateContent, if_pos h3]
    constructor
    · rw [VFS.createFile, hok h1 h2, Res.ok_bind, hcontent]; rfl
    · rw [VFS.updateFile, hok h1 h2, Res.ok_bind, hcontent]; rfl

/-- Witness for the amended C10 at concrete inputs: the empty path is
rejected with `InvalidPath` by `createFile` but merely reported absent
by `exists`. -/
theorem validation_contract_witness :
    isValidPath (str "") = false ∧
      freshVFS.createFile (str "") [] = Res.err VfsErr.invalidPath ∧
      freshVFS.existsPath (str "") = false :=
  ⟨by decide,
    ((validation_contract 5 freshVFS (str "") (str "/a") []).1 (by decide)).1,
    (((validation_contract 5 freshVFS (str "") (str "/a") []).1 (by decide)).2.2.2.2.2.2).1⟩

/-! ### Claim C8: failure signalling and state preservation -/

/-- The operation sequence of the C8 counterexample: a file at `/x/y`,
a second file created through the non-canonical path `/x/y//` (which
steals the parent's child edge), and deletion of `/x` (which removes
only the tree-linked child, leaving `/x/y` in the index orphaned). -/
def cEightOps : List VfsOp :=
  [VfsOp.createFile (str "/x/y") [],
   VfsOp.createFile (str "/x/y//") [],
   VfsOp.deleteFile (str "/x")]

def cEightS3 : VFS := resVFS (VFS.runOps 10 freshVFS cEightOps)

def cEightS4 : VFS := (resCreate (cEightS3.createFile (str "/x/y/z") (str "c"))).2

/-- **C8, counterexample.** A failing `createFile` can mutate the
observable state: in the reachable state `cEightS3` (where `/x/y` is an
index entry whose ancestor `/x` no longer exists), the call
`createFile("/x/y/z")` returns `null` — an expected operational
failure — yet auto-creates the directory `/x` as a side effect, so the
set of paths reported by `exists` changes. -/
theorem createFile_failure_mutates_state :
    VFS.runOps 10 freshVFS cEightOps = Res.ok cEightS3 ∧
      cEightS3.existsPath (str "/x") = false ∧
      cEightS3.existsPath (str "/x/y") = true ∧
      cEightS3.createFile (str "/x/y/z") (str "c") = Res.ok (none, cEightS4) ∧
      cEightS4.existsPath (str "/x") = true := by
  refine ⟨by decide, by decide, by decide, by decide, by decide⟩

end UIGen

namespace UIGen

/-! ### Path algebra: lengths and characters of ancestor chains -/

theorem intercalate_nil_seps : List.intercalate (α := Char) ['/'] [] = [] := by
  simp [List.intercalate]

theorem intercalate_single (x : Str) : List.intercalate ['/'] [x] = x := by
  simp [List.intercalate]

theorem intercalate_cons2 (x y : Str) (rest : List Str) :
    List.intercalate ['/'] (x :: y :: rest) =
      x ++ '/' :: List.intercalate ['/'] (y :: rest) := by
  simp [List.intercalate]

theorem intercalate_cons_split (x : Str) (t : List Str) :
    List.intercalate ['/'] (x :: t) =
      x ++ (if t = [] then [] else '/' :: List.intercalate ['/'] t) := by
  match t with
  | [] => simp [intercalate_single]
  | y :: rest => rw [intercalate_cons2, if_neg (List.cons_ne_nil y rest)]

theorem length_intercalate_filter_le (xs : List Str) :
    (List.intercalate ['/'] (xs.filter (fun s => !s.isEmpty))).length ≤
      (List.intercalate ['/'] xs).length := by
  induction xs with
  | nil => simp
  | cons x rest ih =>
    rw [intercalate_cons_split]
    by_cases hx : x.isEmpty
    · have hx2 : x = [] := by
        cases x with
        | nil => rfl
        | cons a t => exact absurd hx (by simp [List.isEmpty])
      rw [List.filter_cons_of_neg (by simp [hx])]
      refine le_trans ih ?_
      subst hx2
      by_cases hr : rest = []
      · subst hr; simp [List.intercalate]
      · rw [if_neg hr]
        simp
    · rw [List.filter_cons_of_pos (by simp [hx]), intercalate_cons_split]
      by_cases hfr : rest.filter (fun s => !s.isEmpty) = []
      · rw [hfr, if_pos rfl]
        by_cases hr : rest = []
        · rw [if_pos hr]
        · rw [if_neg hr]
          simp only [List.append_nil, List.length_append]
          omega
      · rw [if_neg hfr]
        have hr : rest ≠ [] := by
          intro h
          rw [h] at hfr
          exact hfr rfl
        rw [if_neg hr]
        have := ih
        simp only [List.length_append, List.length_cons]
        omega

theorem mem_intercalate_imp {c : Char} : ∀ {xs : List Str},
    c ∈ List.intercalate ['/'] xs → c = '/' ∨ ∃ x ∈ xs, c ∈ x := by
  intro xs
  induction xs with
  | nil => intro h; rw [intercalate_nil_seps] at h; cases h
  | cons x rest ih =>
    intro h
    rw [intercalate_cons_split] at h
    rcases List.mem_append.mp h with h2 | h2
    · exact Or.inr ⟨x, List.mem_cons_self _ _, h2⟩
    · by_cases hr : rest = []
      · rw [if_pos hr] at h2; cases h2
      · rw [if_neg hr] at h2
        rcases List.mem_cons.mp h2 with h3 | h3
        · exact Or.inl h3
        · rcases ih h3 with h4 | ⟨y, hy, hcy⟩
          · exact Or.inl h4
          · exact Or.inr ⟨y, List.mem_cons_of_mem _ hy, hcy⟩

theorem mem_intercalate_of_mem {c : Char} : ∀ {xs : List Str} {x : Str},
    x ∈ xs → c ∈ x → c ∈ List.intercalate ['/'] xs := by
  intro xs
  induction xs with
  | nil => intro x hx _; cases hx
  | cons y rest ih =>
    intro x hx hc
    rw [intercalate_cons_split]
    rcases List.mem_cons.mp hx with h | h
    · subst h
      exact List.mem_append.mpr (Or.inl hc)
    · have hr : rest ≠ [] := by
        intro h2
        rw [h2] at h
        cases h
      refine List.mem_append.mpr (Or.inr ?_)
      rw [if_neg hr]
      exact List.mem_cons_of_mem _ (ih h hc)

theorem mem_of_mem_splitOn {c : Char} {x : Str} {l : Str}
    (hx : x ∈ l.splitOn '/') (hc : c ∈ x) : c ∈ l := by
  have hrt : List.intercalate ['/'] (l.splitOn '/') = l := List.intercalate_splitOn l '/'
  have h2 := mem_intercalate_of_mem hx hc
  rw [hrt] at h2
  exact h2

theorem collapseSlashes_sublist : ∀ l : Str, List.Sublist (collapseSlashes l) l := by
  intro l
  induction l with
  | nil => exact List.Sublist.refl []
  | cons c t ih =>
    match t with
    | [] => exact List.Sublist.refl [c]
    | d :: rest =>
      rw [collapseSlashes]
      by_cases h : c = '/' ∧ d = '/'
      · rw [if_pos h]
        exact List.Sublist.cons c ih
      · rw [if_neg h]
        exact List.Sublist.cons₂ c ih

theorem mem_normalizePath {c : Char} {p : Str} (h : c ∈ normalizePath p) :
    c = '/' ∨ c ∈ p := by
  rw [normalizePath] at h
  have h2 : c ∈ stripTrailingSep (ensureLeadingSep p) :=
    List.Sublist.mem h (collapseSlashes_sublist _)
  have h3 : c ∈ ensureLeadingSep p := by
    rw [stripTrailingSep] at h2
    by_cases hif : ensureLeadingSep p ≠ ['/'] ∧ (ensureLeadingSep p).getLast? = some '/'
    · rw [if_pos hif] at h2
      exact List.Sublist.mem h2 (List.dropLast_sublist _)
    · rw [if_neg hif] at h2
      exact h2
  rw [ensureLeadingSep] at h3
  by_cases hh : p.head? = some '/'
  · rw [if_pos hh] at h3; exact Or.inr h3
  · rw [if_neg hh] at h3
    rcases List.mem_cons.mp h3 with h4 | h4
    · exact Or.inl h4
    · exact Or.inr h4

theorem stripTrailingSep_length_le (l : Str) :
    (stripTrailingSep l).length ≤ l.length := by
  rw [stripTrailingSep]
  by_cases hif : l ≠ ['/'] ∧ l.getLast? = some '/'
  · rw [if_pos hif]
    exact (List.dropLast_sublist _).length_le
  · rw [if_neg hif]

theorem normalizePath_length_le (p : Str) :
    (normalizePath p).length ≤ p.length + 1 := by
  have h0 : (normalizePath p).length ≤ (stripTrailingSep (ensureLeadingSep p)).length :=
    (collapseSlashes_sublist _).length_le
  have h1 := stripTrailingSep_length_le (ensureLeadingSep p)
  have h2 : (ensureLeadingSep p).length ≤ p.length + 1 := by
    rw [ensureLeadingSep]
    by_cases hh : p.head? = some '/'
    · rw [if_pos hh]; omega
    · rw [if_neg hh]; simp
  omega

theorem normalizePath_length_le_of_head {p : Str} (h : p.head? = some '/') :
    (normalizePath p).length ≤ p.length := by
  have h0 : (normalizePath p).length ≤ (stripTrailingSep (ensureLeadingSep p)).length :=
    (collapseSlashes_sublist _).length_le
  have h1 := stripTrailingSep_length_le (ensureLeadingSep p)
  have h2 : ensureLeadingSep p = p := by
    rw [ensureLeadingSep, if_pos h]
  rw [h2] at h0 h1
  omega

theorem dirChainAux_shape : ∀ (parts : List Str) (acc q : Str),
    q ∈ dirChainAux acc parts → ∃ a x, q = a ++ '/' :: x := by
  intro parts
  induction parts with
  | nil => intro acc q h; cases h
  | cons p1 rest ih =>
    intro acc q h
    match rest with
    | [] => cases h
    | p2 :: rest2 =>
      rw [dirChainAux] at h
      rcases List.mem_cons.mp h with h2 | h2
      · exact ⟨acc, p1, h2⟩
      · exact ih _ _ h2

theorem dirChainAux_chars : ∀ (parts : List Str) (acc q : Str),
    q ∈ dirChainAux acc parts → ∀ c ∈ q, c ∈ acc ∨ c = '/' ∨ ∃ x ∈ parts, c ∈ x := by
  intro parts
  induction parts with
  | nil => intro acc q h; cases h
  | cons p1 rest ih =>
    intro acc q h c hc
    match rest with
    | [] => cases h
    | p2 :: rest2 =>
      rw [dirChainAux] at h
      rcases List.mem_cons.mp h with h2 | h2
      · subst h2
        rcases List.mem_append.mp hc with h3 | h3
        · exact Or.inl h3
        · rcases List.mem_cons.mp h3 with h4 | h4
          · exact Or.inr (Or.inl h4)
          · exact Or.inr (Or.inr ⟨p1, List.mem_cons_self _ _, h4⟩)
      · rcases ih _ _ h2 c hc with h3 | h3 | ⟨x, hx, hcx⟩
        · rcases List.mem_append.mp h3 with h4 | h4
          · exact Or.inl h4
          · rcases List.mem_cons.mp h4 with h5 | h5
            · exact Or.inr (Or.inl h5)
            · exact Or.inr (Or.inr ⟨p1, List.mem_cons_self _ _, h5⟩)
        · exact Or.inr (Or.inl h3)
        · exact Or.inr (Or.inr ⟨x, List.mem_cons_of_mem _ hx, hcx⟩)

theorem dirChainAux_length : ∀ (parts : List Str) (acc q : Str),
    (∀ x ∈ parts, x ≠ []) → q ∈ dirChainAux acc parts →
    q.length + 2 ≤ acc.length + 1 + (List.intercalate ['/'] parts).length := by
  intro parts
  induction parts with
  | nil => intro acc q _ h; cases h
  | cons p1 rest ih =>
    intro acc q hne h
    match rest with
    | [] => cases h
    | p2 :: rest2 =>
      rw [dirChainAux] at h
      rw [intercalate_cons2]
      have hp2 : 1 ≤ (List.intercalate ['/'] (p2 :: rest2)).length := by
        rw [intercalate_cons_split]
        have : p2 ≠ [] := hne p2 (List.mem_cons_of_mem _ (List.mem_cons_self _ _))
        have : 1 ≤ p2.length := by
          cases p2 with
          | nil => exact absurd rfl this
          | cons a t => simp
        simp only [List.length_append]
        omega
      rcases List.mem_cons.mp h with h2 | h2
      · subst h2
        simp only [List.length_append, List.length_cons]
        omega
      · have := ih (acc ++ '/' :: p1) q
          (fun x hx => hne x (List.mem_cons_of_mem _ hx)) h2
        simp only [List.length_append, List.length_cons] at this ⊢
        omega

/-- The length identity behind `intercalate_splitOn`: joining the split
back yields the original, so the filtered join is no longer than the
original string. -/
theorem intercalate_filter_splitOn_length_le (l : Str) :
    (List.intercalate ['/'] ((l.splitOn '/').filter (fun s => !s.isEmpty))).length ≤
      l.length := by
  have h1 := length_intercalate_filter_le (l.splitOn '/')
  have h2 : List.intercalate ['/'] (l.splitOn '/') = l := List.intercalate_splitOn l '/'
  rw [h2] at h1
  exact h1

/-- Every path in the ancestor chain computed by `createDirectoryPath`
passes `validatePath` whenever the original path does: chain entries
are non-empty, contain no characters beyond the original path's
characters and the separator, and are strictly shorter than the
original. -/
theorem chain_valid {p : Str} (hv : isValidPath p = true)
    (hlen : p.length ≤ MAX_PATH_LENGTH) :
    ∀ q ∈ createDirectoryPath (normalizePath p), validatePath q = Res.ok () := by
  intro q hq
  rw [createDirectoryPath] at hq
  set parts := ((normalizePath (normalizePath p)).splitOn '/').filter (fun s => !s.isEmpty)
    with hparts
  have hshape := dirChainAux_shape parts [] q hq
  have hqne : q ≠ [] := by
    obtain ⟨a, x, hax⟩ := hshape
    subst hax
    simp
  have hchars : ∀ c ∈ q, c = '/' ∨ c ∈ p := by
    intro c hc
    rcases dirChainAux_chars parts [] q hq c hc with h | h | ⟨x, hx, hcx⟩
    · cases h
    · exact Or.inl h
    · have hxs : x ∈ (normalizePath (normalizePath p)).splitOn '/' := by
        rw [hparts] at hx
        exact List.mem_of_mem_filter hx
      have h2 := mem_of_mem_splitOn hxs hcx
      rcases mem_normalizePath h2 with h3 | h3
      · exact Or.inl h3
      · rcases mem_normalizePath h3 with h4 | h4
        · exact Or.inl h4
        · exact Or.inr h4
  have hqlen : q.length ≤ p.length := by
    have h1 := dirChainAux_length parts [] q
      (by
        intro x hx
        rw [hparts] at hx
        have := List.of_mem_filter hx
        intro hx2
        rw [hx2] at this
        simp [List.isEmpty] at this)
      hq
    have h2 : (List.intercalate ['/'] parts).length ≤ (normalizePath (normalizePath p)).length := by
      rw [hparts]
      exact intercalate_filter_splitOn_length_le _
    have h3 : (normalizePath (normalizePath p)).length ≤ (normalizePath p).length :=
      normalizePath_length_le_of_head (normalizePath_head p)
    have h4 : (normalizePath p).length ≤ p.length + 1 := normalizePath_length_le p
    simp only [List.length_nil] at h1
    omega
  have hnul : ∀ c ∈ q, ¬ c = Char.ofNat 0 := by
    intro c hc hcz
    rcases hchars c hc with h | h
    · rw [hcz] at h
      exact absurd h (by decide)
    · rw [isValidPath] at hv
      simp only [Bool.and_eq_true, Bool.not_eq_true'] at hv
      have h5 := hv.2
      rw [List.any_eq_false] at h5
      have h6 := h5 c h
      rw [hcz] at h6
      exact h6 (by decide)
  have hvq : isValidPath q = true := by
    rw [isValidPath]
    simp only [Bool.and_eq_true, Bool.not_eq_true']
    constructor
    · cases q with
      | nil => exact absurd rfl hqne
      | cons a t => rfl
    · rw [List.any_eq_false]
      intro c hc hdec
      exact hnul c hc (of_decide_eq_true hdec)
  rw [validatePath, if_neg (by simp [hvq]), if_neg (by rw [MAX_PATH_LENGTH] at hlen ⊢; omega)]

end UIGen

namespace UIGen

/-! ### Heap and index bookkeeping -/

theorem mapGet_mem {κ ν : Type} [DecidableEq κ] {k : κ} {v : ν} :
    ∀ {m : List (κ × ν)}, mapGet k m = some v → (k, v) ∈ m := by
  intro m
  induction m with
  | nil => intro h; exact Option.noConfusion h
  | cons e rest ih =>
    obtain ⟨k2, v2⟩ := e
    intro h
    rw [mapGet] at h
    by_cases h2 : k2 = k
    · rw [if_pos h2] at h
      subst h2
      rw [Option.some.injEq] at h
      subst h
      exact List.mem_cons_self _ _
    · rw [if_neg h2] at h
      exact List.mem_cons_of_mem _ (ih h)

theorem mem_mapSet {κ ν : Type} [DecidableEq κ] {e : κ × ν} {k : κ} {v : ν} :
    ∀ {m : List (κ × ν)}, e ∈ mapSet k v m → e ∈ m ∨ e = (k, v) := by
  intro m
  induction m with
  | nil =>
    intro h
    rw [mapSet] at h
    rcases List.mem_cons.mp h with h2 | h2
    · exact Or.inr h2
    · cases h2
  | cons e2 rest ih =>
    obtain ⟨k2, v2⟩ := e2
    intro h
    rw [mapSet] at h
    by_cases h2 : k2 = k
    · rw [if_pos h2] at h
      rcases List.mem_cons.mp h with h3 | h3
      · subst h3
        subst h2
        exact Or.inr rfl
      · exact Or.inl (List.mem_cons_of_mem _ h3)
    · rw [if_neg h2] at h
      rcases List.mem_cons.mp h with h3 | h3
      · exact Or.inl (h3 ▸ List.mem_cons_self _ _)
      · rcases ih h3 with h4 | h4
        · exact Or.inl (List.mem_cons_of_mem _ h4)
        · exact Or.inr h4

theorem node_setNode (s : VFS) (pid j : Nat) (n : FileNode) :
    (s.setNode pid n).node j = if pid = j then n else s.node j := by
  rw [VFS.setNode, VFS.node]
  by_cases h : pid = j
  · subst h
    rw [if_pos rfl]
    simp [mapGet_set_self]
  · rw [if_neg h, VFS.node]
    rw [mapGet_set_ne _ _ h]

/-- All node ids tracked by the index and the heap are below `nextId`,
so freshly allocated ids never collide with live objects. -/
def VFS.freshIds (s : VFS) : Prop :=
  (∀ e ∈ s.files, e.2 < s.nextId) ∧ (∀ e ∈ s.heap, e.1 < s.nextId)

instance (s : VFS) : Decidable s.freshIds := by
  rw [VFS.freshIds]
  infer_instance

/-- The observable content of the file system at an index key: the kind
stored there and (for files) the content. -/
def VFS.obs (s : VFS) (k : Str) : Option (NodeType × Str) :=
  (mapGet k s.files).map (fun id => ((s.node id).type, (s.node id).content))

/-- `s2` observably extends `s` by (at most) some fresh empty
directories. -/
def obsExtendsDirs (s s2 : VFS) : Prop :=
  ∀ k, s2.obs k = s.obs k ∨ (s.obs k = none ∧ s2.obs k = some (NodeType.directory, []))

theorem obsExtendsDirs_refl (s : VFS) : obsExtendsDirs s s :=
  fun _ => Or.inl rfl

theorem obsExtendsDirs_trans {s1 s2 s3 : VFS} (h1 : obsExtendsDirs s1 s2)
    (h2 : obsExtendsDirs s2 s3) : obsExtendsDirs s1 s3 := by
  intro k
  rcases h2 k with h3 | ⟨h3, h4⟩
  · rcases h1 k with h5 | ⟨h5, h6⟩
    · exact Or.inl (h3.trans h5)
    · exact Or.inr ⟨h5, h3.trans h6⟩
  · rcases h1 k with h5 | ⟨h5, h6⟩
    · exact Or.inr ⟨h5 ▸ h3, h4⟩
    · rw [h6] at h3
      exact Option.noConfusion h3

/-- Effect of `createDirectory`: under fresh ids it either fails and
returns the state unchanged, or adds exactly one empty directory at the
normalized path without touching the kind or content of any other key. -/
theorem createDirectory_effect {s : VFS} {p : Str} {r : Option Nat} {s2 : VFS}
    (hf : s.freshIds) (h : s.createDirectory p = Res.ok (r, s2)) :
    s2.freshIds ∧
      ((r = none ∧ s2 = s) ∨
        (mapGet (normalizePath p) s.files = none ∧
          (∀ k, k ≠ normalizePath p → s2.obs k = s.obs k) ∧
          s2.obs (normalizePath p) = some (NodeType.directory, []))) := by
  rcases hval : validatePath p with u | e | u
  rotate_left
  · rw [VFS.createDirectory, hval] at h
    exact absurd h (by simp [Res.bind])
  · rw [VFS.createDirectory, hval] at h
    exact absurd h (by simp [Res.bind])
  rw [VFS.createDirectory, hval] at h
  simp only [Res.ok_bind, Res.pure_eq_ok] at h
  split at h
  next hh =>
    rw [Res.ok.injEq, Prod.mk.injEq] at h
    exact ⟨h.2 ▸ hf, Or.inl ⟨h.1.symm, h.2.symm⟩⟩
  next hh =>
    split at h
    next hpn =>
      rw [Res.ok.injEq, Prod.mk.injEq] at h
      exact ⟨h.2 ▸ hf, Or.inl ⟨h.1.symm, h.2.symm⟩⟩
    next pid hpn =>
      split at h
      next htype =>
        rw [Res.ok.injEq, Prod.mk.injEq] at h
        exact ⟨h.2 ▸ hf, Or.inl ⟨h.1.symm, h.2.symm⟩⟩
      next htype =>
        rw [Res.ok.injEq, Prod.mk.injEq] at h
        obtain ⟨hr, hs2⟩ := h
        have hpidmem : (getParentPath (normalizePath p), pid) ∈ s.files :=
          mapGet_mem hpn
        have hpidlt : pid < s.nextId := hf.1 _ hpidmem
        have hgetnone : mapGet (normalizePath p) s.files = none := by
          rw [mapHas] at hh
          cases hget : mapGet (normalizePath p) s.files with
          | none => rfl
          | some v => rw [hget] at hh; simp at hh
        subst hs2
        constructor
        · constructor
          · intro e2 he2
            rcases mem_mapSet he2 with h2 | h2
            · exact Nat.lt_succ_of_lt (hf.1 _ h2)
            · rw [h2]
              exact Nat.lt_succ_self _
          · intro e2 he2
            simp only [VFS.setNode] at he2
            rcases mem_mapSet he2 with h2 | h2
            · rcases mem_mapSet h2 with h3 | h3
              · exact Nat.lt_succ_of_lt (hf.2 _ h3)
              · rw [h3]
                exact Nat.lt_succ_self _
            · rw [h2]
              exact Nat.lt_succ_of_lt hpidlt
        · refine Or.inr ⟨hgetnone, ?_, ?_⟩
          · intro k hk
            rw [VFS.obs, VFS.obs]
            simp only [VFS.setNode]
            have hfk : mapGet k (mapSet (normalizePath p) s.nextId s.files) =
                mapGet k s.files := mapGet_set_ne _ _ (fun h2 => hk h2.symm)
            rw [hfk]
            cases hget : mapGet k s.files with
            | none => rfl
            | some id2 =>
              have hid2 : id2 < s.nextId := hf.1 _ (mapGet_mem hget)
              simp only [Option.map_some']
              have hne : id2 ≠ s.nextId := Nat.ne_of_lt hid2
              by_cases hpid2 : id2 = pid
              · subst hpid2
                rw [VFS.node, VFS.node]
                rw [mapGet_set_self]
                simp only [Option.getD_some]
                rw [VFS.node, mapGet_set_ne _ _ (Ne.symm hne)]
              · rw [VFS.node, VFS.node]
                rw [mapGet_set_ne _ _ (fun h2 => hpid2 h2.symm),
                  mapGet_set_ne _ _ (Ne.symm hne)]
                rfl
          · rw [VFS.obs]
            simp only [VFS.setNode]
            rw [mapGet_set_self]
            simp only [Option.map_some']
            have hpidne : pid ≠ s.nextId := Nat.ne_of_lt hpidlt
            rw [VFS.node, mapGet_set_ne _ _ hpidne, mapGet_set_self]
            rfl

theorem createDirectory_extends {s : VFS} {p : Str} {r : Option Nat} {s2 : VFS}
    (hf : s.freshIds) (h : s.createDirectory p = Res.ok (r, s2)) :
    s2.freshIds ∧ obsExtendsDirs s s2 := by
  obtain ⟨hfr, hcase⟩ := createDirectory_effect hf h
  refine ⟨hfr, ?_⟩
  rcases hcase with ⟨_, h2⟩ | ⟨hnone, hother, hnew⟩
  · exact h2 ▸ obsExtendsDirs_refl s
  · intro k
    by_cases hk : k = normalizePath p
    · subst hk
      refine Or.inr ⟨?_, hnew⟩
      rw [VFS.obs, hnone]
      rfl
    · exact Or.inl (hother k hk)

theorem ensureParentAux_extends : ∀ {L : List Str} {s s2 : VFS},
    s.freshIds → s.ensureParentAux L = Res.ok s2 →
    s2.freshIds ∧ obsExtendsDirs s s2 := by
  intro L
  induction L with
  | nil =>
    intro s s2 hf h
    rw [VFS.ensureParentAux, Res.ok.injEq] at h
    exact ⟨h ▸ hf, h ▸ obsExtendsDirs_refl s⟩
  | cons dirPath rest ih =>
    intro s s2 hf h
    rw [VFS.ensureParentAux] at h
    by_cases hex : s.existsPath dirPath
    · rw [if_pos hex] at h
      exact ih hf h
    · rw [if_neg hex] at h
      rcases hcd : s.createDirectory dirPath with v | e | u
      rotate_left
      · rw [hcd] at h
        exact absurd h (by simp [Res.bind, Bind.bind])
      · rw [hcd] at h
        exact absurd h (by simp [Res.bind, Bind.bind])
      obtain ⟨r, s1⟩ := v
      rw [hcd] at h
      simp only [Res.ok_bind] at h
      obtain ⟨hf1, hext1⟩ := createDirectory_extends hf hcd
      obtain ⟨hf2, hext2⟩ := ih hf1 h
      exact ⟨hf2, obsExtendsDirs_trans hext1 hext2⟩

end UIGen

namespace UIGen

/-! ### Expected failures never throw -/

theorem createDirectory_isOk {s : VFS} {p : Str} (hp : validatePath p = Res.ok ()) :
    ∃ r, s.createDirectory p = Res.ok r := by
  rw [VFS.createDirectory, hp]
  simp only [Res.ok_bind, Res.pure_eq_ok]
  split
  · exact ⟨_, rfl⟩
  · split
    · exact ⟨_, rfl⟩
    · split
      · exact ⟨_, rfl⟩
      · exact ⟨_, rfl⟩

theorem ensureParentAux_isOk : ∀ {L : List Str} {s : VFS},
    (∀ q ∈ L, validatePath q = Res.ok ()) →
    ∃ s2, s.ensureParentAux L = Res.ok s2 := by
  intro L
  induction L with
  | nil => intro s _; exact ⟨s, rfl⟩
  | cons d rest ih =>
    intro s hall
    rw [VFS.ensureParentAux]
    by_cases hex : s.existsPath d
    · rw [if_pos hex]
      exact ih (fun q hq => hall q (List.mem_cons_of_mem _ hq))
    · rw [if_neg hex]
      obtain ⟨⟨r, s1⟩, hcd⟩ := @createDirectory_isOk s d (hall d (List.mem_cons_self _ _))
      rw [hcd]
      simp only [Res.ok_bind]
      exact ih (fun q hq => hall q (List.mem_cons_of_mem _ hq))

theorem validatePath_ok {p : Str} (hv : isValidPath p = true)
    (hlen : p.length ≤ MAX_PATH_LENGTH) : validatePath p = Res.ok () := by
  rw [validatePath, if_neg (by simp [hv]), if_neg (by omega)]

theorem ensureParents_isOk {s : VFS} {p : Str} (hv : isValidPath p = true)
    (hlen : p.length ≤ MAX_PATH_LENGTH) :
    ∃ s2, s.ensureParentDirectories (normalizePath p) = Res.ok s2 := by
  rw [VFS.ensureParentDirectories]
  exact ensureParentAux_isOk (chain_valid hv hlen)

theorem createFile_isOk {s : VFS} {p c : Str} (hv : isValidPath p = true)
    (hlen : p.length ≤ MAX_PATH_LENGTH) (hc : validateContent c = Res.ok ()) :
    ∃ r, s.createFile p c = Res.ok r := by
  rw [VFS.createFile, validatePath_ok hv hlen, hc]
  simp only [Res.ok_bind, Res.pure_eq_ok]
  split
  · exact ⟨_, rfl⟩
  · obtain ⟨s1, hens⟩ := @ensureParents_isOk s _ hv hlen
    rw [hens]
    simp only [Res.ok_bind]
    split
    · exact ⟨_, rfl⟩
    · split
      · exact ⟨_, rfl⟩
      · exact ⟨_, rfl⟩

theorem updateChildrenLoopGo_ne_err {recur : VFS → Nat → Res VFS}
    (hrec : ∀ s id e, recur s id ≠ Res.err e) :
    ∀ (entries : List (Str × Nat)) (s : VFS) (id : Nat) (e : VfsErr),
      updateChildrenLoopGo recur s id entries ≠ Res.err e := by
  intro entries
  induction entries with
  | nil => intro s id e h; exact Res.noConfusion h
  | cons ec rest ih =>
    obtain ⟨n, cid⟩ := ec
    intro s id e h
    rw [updateChildrenLoopGo] at h
    simp only [Res.pure_eq_ok] at h
    set s3 : VFS := { s.setNode cid { s.node cid with path := (s.node id).path ++ '/' :: (s.node cid).name } with
      files := mapSet ((s.node id).path ++ '/' :: (s.node cid).name) cid
        (mapDelete (s.node cid).path (s.setNode cid { s.node cid with path := (s.node id).path ++ '/' :: (s.node cid).name }).files) } with hs3
    by_cases hd : (s3.node cid).type = NodeType.directory
    · rw [if_pos hd] at h
      cases hrc : recur s3 cid with
      | ok s4 =>
        rw [hrc] at h
        simp only [Res.ok_bind] at h
        exact ih _ _ _ h
      | err e2 => exact hrec _ _ _ hrc
      | oom =>
        rw [hrc] at h
        exact Res.noConfusion h
    · rw [if_neg hd] at h
      simp only [Res.ok_bind] at h
      exact ih _ _ _ h

theorem updateChildrenPaths_ne_err : ∀ (fuel : Nat) (s : VFS) (id : Nat) (e : VfsErr),
    VFS.updateChildrenPaths fuel s id ≠ Res.err e := by
  intro fuel
  induction fuel with
  | zero => intro s id e h; exact Res.noConfusion h
  | succ fuel ih =>
    intro s id e h
    rw [VFS.updateChildrenPaths, VFS.updateChildrenPathsF] at h
    split at h
    · exact updateChildrenLoopGo_ne_err (fun s2 id2 e2 => ih s2 id2 e2) _ _ _ _ h
    · exact Res.noConfusion h

theorem deleteRecChildrenGo_ne_err {recur : VFS → Nat → Res VFS}
    (hrec : ∀ s id e, recur s id ≠ Res.err e) :
    ∀ (entries : List (Str × Nat)) (s : VFS) (e : VfsErr),
      deleteRecChildrenGo recur s entries ≠ Res.err e := by
  intro entries
  induction entries with
  | nil => intro s e h; exact Res.noConfusion h
  | cons ec rest ih =>
    obtain ⟨n, cid⟩ := ec
    intro s e h
    rw [deleteRecChildrenGo] at h
    cases hrc : recur s cid with
    | ok s2 =>
      rw [hrc] at h
      simp only [Res.ok_bind] at h
      exact ih _ _ h
    | err e2 => exact hrec _ _ _ hrc
    | oom =>
      rw [hrc] at h
      exact Res.noConfusion h

theorem deleteRecursively_ne_err : ∀ (fuel : Nat) (s : VFS) (id : Nat) (e : VfsErr),
    VFS.deleteRecursively fuel s id ≠ Res.err e := by
  intro fuel
  induction fuel with
  | zero => intro s id e h; exact Res.noConfusion h
  | succ fuel ih =>
    intro s id e h
    rw [VFS.deleteRecursively, VFS.deleteRecursivelyF] at h
    split at h
    · exact deleteRecChildrenGo_ne_err (fun s2 id2 e2 => ih s2 id2 e2) _ _ _ h
    · exact Res.noConfusion h

theorem deleteFile_ne_err {fuel : Nat} {s : VFS} {p : Str} {e : VfsErr}
    (hv : isValidPath p = true) (hlen : p.length ≤ MAX_PATH_LENGTH) :
    VFS.deleteFile fuel s p ≠ Res.err e := by
  intro h
  rw [VFS.deleteFile, validatePath_ok hv hlen] at h
  simp only [Res.ok_bind, Res.pure_eq_ok] at h
  split at h
  · exact Res.noConfusion h
  · split at h
    · exact Res.noConfusion h
    · split at h
      · exact Res.noConfusion h
      · split at h
        · exact Res.noConfusion h
        · cases hdr : VFS.deleteRecursively fuel s _ with
          | ok s2 =>
            rw [hdr] at h
            simp only [Res.ok_bind] at h
            exact Res.noConfusion h
          | err e2 => exact deleteRecursively_ne_err _ _ _ _ hdr
          | oom =>
            rw [hdr] at h
            exact Res.noConfusion h

theorem rename_ne_err {fuel : Nat} {s : VFS} {p q : Str} {e : VfsErr}
    (hvp : isValidPath p = true) (hlp : p.length ≤ MAX_PATH_LENGTH)
    (hvq : isValidPath q = true) (hlq : q.length ≤ MAX_PATH_LENGTH) :
    VFS.rename fuel s p q ≠ Res.err e := by
  intro h
  rw [VFS.rename, validatePath_ok hvp hlp, validatePath_ok hvq hlq] at h
  simp only [Res.ok_bind, Res.pure_eq_ok] at h
  split at h
  · exact Res.noConfusion h
  · split at h
    · exact Res.noConfusion h
    · split at h
      · exact Res.noConfusion h
      · split at h
        · exact Res.noConfusion h
        · split at h
          · exact Res.noConfusion h
          · obtain ⟨s1, hens⟩ := @ensureParents_isOk s _ hvq hlq
            rw [hens] at h
            simp only [Res.ok_bind] at h
            split at h
            · exact Res.noConfusion h
            · split at h
              · exact Res.noConfusion h
              · split at h
                · cases hu : VFS.updateChildrenPaths fuel _ _ with
                  | ok s6 =>
                    rw [hu] at h
                    simp only [Res.ok_bind] at h
                    exact Res.noConfusion h
                  | err e2 => exact updateChildrenPaths_ne_err _ _ _ _ hu
                  | oom =>
                    rw [hu] at h
                    exact Res.noConfusion h
                · exact Res.noConfusion h

end UIGen

namespace UIGen

/-! ### Failure effects of the mutating operations -/

theorem createDirectory_fail_eq {s : VFS} {p : Str} {s2 : VFS}
    (h : s.createDirectory p = Res.ok (none, s2)) : s2 = s := by
  cases hval : validatePath p with
  | ok u =>
    obtain ⟨⟩ := u
    rw [VFS.createDirectory, hval] at h
    simp only [Res.ok_bind, Res.pure_eq_ok] at h
    split at h
    · rw [Res.ok.injEq, Prod.mk.injEq] at h; exact h.2.symm
    · split at h
      · rw [Res.ok.injEq, Prod.mk.injEq] at h; exact h.2.symm
      · split at h
        · rw [Res.ok.injEq, Prod.mk.injEq] at h; exact h.2.symm
        · rw [Res.ok.injEq, Prod.mk.injEq] at h
          exact Option.noConfusion h.1
  | err e => rw [VFS.createDirectory, hval] at h; exact Res.noConfusion h
  | oom => rw [VFS.createDirectory, hval] at h; exact Res.noConfusion h

theorem updateFile_fail_eq {s : VFS} {p c : Str} {s2 : VFS}
    (h : s.updateFile p c = Res.ok (false, s2)) : s2 = s := by
  cases hval : validatePath p with
  | ok u =>
    obtain ⟨⟩ := u
    cases hvc : validateContent c with
    | ok u2 =>
      obtain ⟨⟩ := u2
      rw [VFS.updateFile, hval, hvc] at h
      simp only [Res.ok_bind, Res.pure_eq_ok] at h
      split at h
      · rw [Res.ok.injEq, Prod.mk.injEq] at h; exact h.2.symm
      · split at h
        · rw [Res.ok.injEq, Prod.mk.injEq] at h; exact h.2.symm
        · rw [Res.ok.injEq, Prod.mk.injEq] at h
          exact Bool.noConfusion h.1
    | err e => rw [VFS.updateFile, hval, hvc] at h; exact Res.noConfusion h
    | oom => rw [VFS.updateFile, hval, hvc] at h; exact Res.noConfusion h
  | err e => rw [VFS.updateFile, hval] at h; exact Res.noConfusion h
  | oom => rw [VFS.updateFile, hval] at h; exact Res.noConfusion h

theorem deleteFile_fail_eq {fuel : Nat} {s : VFS} {p : Str} {s2 : VFS}
    (h : VFS.deleteFile fuel s p = Res.ok (false, s2)) : s2 = s := by
  cases hval : validatePath p with
  | ok u =>
    obtain ⟨⟩ := u
    rw [VFS.deleteFile, hval] at h
    simp only [Res.ok_bind, Res.pure_eq_ok] at h
    split at h
    · rw [Res.ok.injEq, Prod.mk.injEq] at h; exact h.2.symm
    · split at h
      · rw [Res.ok.injEq, Prod.mk.injEq] at h; exact h.2.symm
      · split at h
        · rw [Res.ok.injEq, Prod.mk.injEq] at h; exact h.2.symm
        · split at h
          · rw [Res.ok.injEq, Prod.mk.injEq] at h; exact h.2.symm
          · cases hdr : VFS.deleteRecursively fuel s _ with
            | ok s3 =>
              rw [hdr] at h
              simp only [Res.ok_bind] at h
              rw [Res.ok.injEq, Prod.mk.injEq] at h
              exact Bool.noConfusion h.1
            | err e => rw [hdr] at h; exact Res.noConfusion h
            | oom => rw [hdr] at h; exact Res.noConfusion h
  | err e => rw [VFS.deleteFile, hval] at h; exact Res.noConfusion h
  | oom => rw [VFS.deleteFile, hval] at h; exact Res.noConfusion h

theorem createFile_fail_extends {s : VFS} {p c : Str} {s2 : VFS}
    (hf : s.freshIds) (h : s.createFile p c = Res.ok (none, s2)) :
    s2.freshIds ∧ obsExtendsDirs s s2 := by
  cases hval : validatePath p with
  | ok u =>
    obtain ⟨⟩ := u
    cases hvc : validateContent c with
    | ok u2 =>
      obtain ⟨⟩ := u2
      rw [VFS.createFile, hval, hvc] at h
      simp only [Res.ok_bind, Res.pure_eq_ok] at h
      split at h
      · rw [Res.ok.injEq, Prod.mk.injEq] at h
        obtain ⟨h1x, h2x⟩ := h
        subst h2x
        exact ⟨hf, obsExtendsDirs_refl _⟩
      · cases hens : s.ensureParentDirectories (normalizePath p) with
        | ok s1 =>
          rw [hens] at h
          simp only [Res.ok_bind] at h
          rw [VFS.ensureParentDirectories] at hens
          obtain ⟨hf1, hext⟩ := ensureParentAux_extends hf hens
          split at h
          · rw [Res.ok.injEq, Prod.mk.injEq] at h
            obtain ⟨h1x, h2x⟩ := h
            subst h2x
            exact ⟨hf1, hext⟩
          · split at h
            · rw [Res.ok.injEq, Prod.mk.injEq] at h
              obtain ⟨h1x, h2x⟩ := h
              subst h2x
              exact ⟨hf1, hext⟩
            · rw [Res.ok.injEq, Prod.mk.injEq] at h
              exact Option.noConfusion h.1
        | err e => rw [hens] at h; exact Res.noConfusion h
        | oom => rw [hens] at h; exact Res.noConfusion h
    | err e => rw [VFS.createFile, hval, hvc] at h; exact Res.noConfusion h
    | oom => rw [VFS.createFile, hval, hvc] at h; exact Res.noConfusion h
  | err e => rw [VFS.createFile, hval] at h; exact Res.noConfusion h
  | oom => rw [VFS.createFile, hval] at h; exact Res.noConfusion h

theorem rename_fail_extends {fuel : Nat} {s : VFS} {p q : Str} {s2 : VFS}
    (hf : s.freshIds) (h : VFS.rename fuel s p q = Res.ok (false, s2)) :
    s2.freshIds ∧ obsExtendsDirs s s2 := by
  cases hvp : validatePath p with
  | ok u =>
    obtain ⟨⟩ := u
    cases hvq : validatePath q with
    | ok u2 =>
      obtain ⟨⟩ := u2
      rw [VFS.rename, hvp, hvq] at h
      simp only [Res.ok_bind, Res.pure_eq_ok] at h
      split at h
      · rw [Res.ok.injEq, Prod.mk.injEq] at h
        obtain ⟨h1x, h2x⟩ := h
        subst h2x
        exact ⟨hf, obsExtendsDirs_refl _⟩
      · split at h
        · rw [Res.ok.injEq, Prod.mk.injEq] at h
          obtain ⟨h1x, h2x⟩ := h
          subst h2x
          exact ⟨hf, obsExtendsDirs_refl _⟩
        · split at h
          · rw [Res.ok.injEq, Prod.mk.injEq] at h
            obtain ⟨h1x, h2x⟩ := h
            subst h2x
            exact ⟨hf, obsExtendsDirs_refl _⟩
          · split at h
            · rw [Res.ok.injEq, Prod.mk.injEq] at h
              obtain ⟨h1x, h2x⟩ := h
              subst h2x
              exact ⟨hf, obsExtendsDirs_refl _⟩
            · split at h
              · rw [Res.ok.injEq, Prod.mk.injEq] at h
                obtain ⟨h1x, h2x⟩ := h
                subst h2x
                exact ⟨hf, obsExtendsDirs_refl _⟩
              · cases hens : s.ensureParentDirectories (normalizePath q) with
                | ok s1 =>
                  rw [hens] at h
                  simp only [Res.ok_bind] at h
                  rw [VFS.ensureParentDirectories] at hens
                  obtain ⟨hf1, hext⟩ := ensureParentAux_extends hf hens
                  split at h
                  · rw [Res.ok.injEq, Prod.mk.injEq] at h
                    obtain ⟨h1x, h2x⟩ := h
                    subst h2x
                    exact ⟨hf1, hext⟩
                  · split at h
                    · rw [Res.ok.injEq, Prod.mk.injEq] at h
                      obtain ⟨h1x, h2x⟩ := h
                      subst h2x
                      exact ⟨hf1, hext⟩
                    · split at h
                      · cases hu : VFS.updateChildrenPaths fuel _ _ with
                        | ok s6 =>
                          rw [hu] at h
                          simp only [Res.ok_bind] at h
                          rw [Res.ok.injEq, Prod.mk.injEq] at h
                          exact Bool.noConfusion h.1
                        | err e => rw [hu] at h; exact Res.noConfusion h
                        | oom => rw [hu] at h; exact Res.noConfusion h
                      · rw [Res.ok.injEq, Prod.mk.injEq] at h
                        exact Bool.noConfusion h.1
                | err e => rw [hens] at h; exact Res.noConfusion h
                | oom => rw [hens] at h; exact Res.noConfusion h
    | err e => rw [VFS.rename, hvp, hvq] at h; exact Res.noConfusion h
    | oom => rw [VFS.rename, hvp, hvq] at h; exact Res.noConfusion h
  | err e => rw [VFS.rename, hvp] at h; exact Res.noConfusion h
  | oom => rw [VFS.rename, hvp] at h; exact Res.noConfusion h

end UIGen

namespace UIGen

/-- Post-state of a successful `createFile`: the normalized path is
indexed and holds a file node carrying exactly the given content. -/
theorem createFile_success_read {s : VFS} {p c : Str} {id : Nat} {s1 : VFS}
    (hf : s.freshIds) (h : s.createFile p c = Res.ok (some id, s1)) :
    validatePath p = Res.ok () ∧ validateContent c = Res.ok () ∧
      mapGet (normalizePath p) s1.files = some id ∧
      (s1.node id).type = NodeType.file ∧ (s1.node id).content = c := by
  cases hval : validatePath p with
  | ok u =>
    obtain ⟨⟩ := u
    cases hvc : validateContent c with
    | ok u2 =>
      obtain ⟨⟩ := u2
      refine ⟨rfl, rfl, ?_⟩
      rw [VFS.createFile, hval, hvc] at h
      simp only [Res.ok_bind, Res.pure_eq_ok] at h
      split at h
      · rw [Res.ok.injEq, Prod.mk.injEq] at h
        exact Option.noConfusion h.1
      · cases hens : s.ensureParentDirectories (normalizePath p) with
        | ok sE =>
          rw [hens] at h
          simp only [Res.ok_bind] at h
          rw [VFS.ensureParentDirectories] at hens
          obtain ⟨hfE, _⟩ := ensureParentAux_extends hf hens
          split at h
          · rw [Res.ok.injEq, Prod.mk.injEq] at h
            exact Option.noConfusion h.1
          next pid hpn =>
            split at h
            · rw [Res.ok.injEq, Prod.mk.injEq] at h
              exact Option.noConfusion h.1
            · rw [Res.ok.injEq, Prod.mk.injEq] at h
              obtain ⟨hid, hs1⟩ := h
              rw [Option.some.injEq] at hid
              have hpidlt : pid < sE.nextId := hfE.1 _ (mapGet_mem hpn)
              have hpidne : pid ≠ sE.nextId := Nat.ne_of_lt hpidlt
              subst hs1
              subst hid
              refine ⟨?_, ?_, ?_⟩
              · simp only [VFS.setNode]
                rw [mapGet_set_self]
              · simp only [VFS.setNode, VFS.node]
                rw [mapGet_set_ne _ _ hpidne, mapGet_set_self]
                rfl
              · simp only [VFS.setNode, VFS.node]
                rw [mapGet_set_ne _ _ hpidne, mapGet_set_self]
                rfl
        | err e => rw [hens] at h; exact Res.noConfusion h
        | oom => rw [hens] at h; exact Res.noConfusion h
    | err e => rw [VFS.createFile, hval, hvc] at h; exact Res.noConfusion h
    | oom => rw [VFS.createFile, hval, hvc] at h; exact Res.noConfusion h
  | err e => rw [VFS.createFile, hval] at h; exact Res.noConfusion h
  | oom => rw [VFS.createFile, hval] at h; exact Res.noConfusion h

/-- The no-duplicate-create property: after a successful
`createFile(p, c)`, a second `createFile(p, c2)` returns `null` and
changes nothing, and `readFile(p)` still reports `c`. -/
theorem createFile_duplicate {s : VFS} {p c c2 : Str} {id : Nat} {s1 : VFS}
    (hf : s.freshIds) (h : s.createFile p c = Res.ok (some id, s1))
    (hc2 : validateContent c2 = Res.ok ()) :
    s1.createFile p c2 = Res.ok (none, s1) ∧ s1.readFile p = Res.ok (some c) := by
  obtain ⟨hval, _, hget, htype, hcontent⟩ := createFile_success_read hf h
  constructor
  · rw [VFS.createFile, hval, hc2]
    simp only [Res.ok_bind, Res.pure_eq_ok]
    rw [if_pos (by rw [mapHas, hget]; rfl)]
  · rw [VFS.readFile, hval]
    simp only [Res.ok_bind, Res.pure_eq_ok]
    simp [hget, htype, hcontent]

/-- **C8 (amended).** With valid arguments, every expected operational
failure of the virtual file system is signalled by a `null`/`false`
return and never by a thrown error; a failing `createDirectory`,
`updateFile` or `deleteFile` leaves the state exactly unchanged; a
failing `createFile` or `rename` leaves the kind and content of every
existing path unchanged but may leave behind empty ancestor directories
that were auto-created before the failure was detected (see
`createFile_failure_mutates_state` — the unqualified claim is false);
and `createFile(p, c)` followed by `createFile(p, c2)` returns `null`,
changes nothing, and leaves the content of `p` at `c`. -/
theorem expected_failures_contract (fuel : Nat) (s : VFS) (p q c c2 : Str)
    (hf : s.freshIds)
    (hvp : isValidPath p = true) (hlp : p.length ≤ MAX_PATH_LENGTH)
    (hvq : isValidPath q = true) (hlq : q.length ≤ MAX_PATH_LENGTH)
    (hc : validateContent c = Res.ok ()) (hc2 : validateContent c2 = Res.ok ()) :
    (∀ e : VfsErr,
      s.createFile p c ≠ Res.err e ∧ s.createDirectory p ≠ Res.err e ∧
      s.readFile p ≠ Res.err e ∧ s.updateFile p c ≠ Res.err e ∧
      VFS.deleteFile fuel s p ≠ Res.err e ∧ VFS.rename fuel s p q ≠ Res.err e) ∧
    (∀ s2, s.createDirectory p = Res.ok (none, s2) → s2 = s) ∧
    (∀ s2, s.updateFile p c = Res.ok (false, s2) → s2 = s) ∧
    (∀ s2, VFS.deleteFile fuel s p = Res.ok (false, s2) → s2 = s) ∧
    (∀ s2, s.createFile p c = Res.ok (none, s2) → obsExtendsDirs s s2) ∧
    (∀ s2, VFS.rename fuel s p q = Res.ok (false, s2) → obsExtendsDirs s s2) ∧
    (∀ id s1, s.createFile p c = Res.ok (some id, s1) →
      s1.createFile p c2 = Res.ok (none, s1) ∧ s1.readFile p = Res.ok (some c)) := by
  have hp : validatePath p = Res.ok () := validatePath_ok hvp hlp
  refine ⟨?_, ?_, ?_, ?_, ?_, ?_, ?_⟩
  · intro e
    refine ⟨?_, ?_, ?_, ?_, ?_, ?_⟩
    · obtain ⟨r, hr⟩ := @createFile_isOk s _ _ hvp hlp hc
      rw [hr]
      exact fun hcontra => Res.noConfusion hcontra
    · obtain ⟨r, hr⟩ := @createDirectory_isOk s p hp
      rw [hr]
      exact fun hcontra => Res.noConfusion hcontra
    · rw [VFS.readFile, hp]
      simp only [Res.ok_bind, Res.pure_eq_ok]
      split
      · exact fun hcontra => Res.noConfusion hcontra
      · split
        · exact fun hcontra => Res.noConfusion hcontra
        · exact fun hcontra => Res.noConfusion hcontra
    · rw [VFS.updateFile, hp, hc]
      simp only [Res.ok_bind, Res.pure_eq_ok]
      split
      · exact fun hcontra => Res.noConfusion hcontra
      · split
        · exact fun hcontra => Res.noConfusion hcontra
        · exact fun hcontra => Res.noConfusion hcontra
    · exact deleteFile_ne_err hvp hlp
    · exact rename_ne_err hvp hlp hvq hlq
  · exact fun s2 h => createDirectory_fail_eq h
  · exact fun s2 h => updateFile_fail_eq h
  · exact fun s2 h => deleteFile_fail_eq h
  · exact fun s2 h => (createFile_fail_extends hf h).2
  · exact fun s2 h => (rename_fail_extends hf h).2
  · exact fun id s1 h => createFile_duplicate hf h hc2

def cDupS1 : VFS := (resCreate (freshVFS.createFile (str "/a") (str "x"))).2

def cDupId : Nat := (resCreate (freshVFS.createFile (str "/a") (str "x"))).1.getD 0

/-- Witness for the amended C8 at concrete inputs: the no-duplicate
clause instantiated on a fresh file system. -/
theorem expected_failures_contract_witness :
    cDupS1.createFile (str "/a") (str "y") = Res.ok (none, cDupS1) ∧
      cDupS1.readFile (str "/a") = Res.ok (some (str "x")) :=
  (expected_failures_contract 5 freshVFS (str "/a") (str "/b") (str "x") (str "y")
      (by decide) (by decide) (by decide) (by decide) (by decide) (by decide)
      (by decide)).2.2.2.2.2.2 cDupId cDupS1 (by decide)

end UIGen

namespace UIGen

/-! ### Claim C1: rename into the renamed directory's own subtree -/

/-- A live child edge in the heap: `parent` is a directory holding
`child` among its children. -/
def childEdge (s : VFS) (parent child : Nat) : Prop :=
  (s.node parent).type = NodeType.directory ∧ ∃ n, (n, child) ∈ (s.node parent).children

/-- A node from which a cycle of child edges is reachable. -/
def cycleReach (s : VFS) (id : Nat) : Prop :=
  ∃ j, Relation.ReflTransGen (childEdge s) id j ∧ Relation.TransGen (childEdge s) j j

/-- Two states with the same children structure and node kinds
(`updateChildrenPaths` only ever rewrites `path` fields and the index). -/
def sameShape (s s2 : VFS) : Prop :=
  ∀ j, (s2.node j).children = (s.node j).children ∧ (s2.node j).type = (s.node j).type

theorem sameShape_refl (s : VFS) : sameShape s s := fun _ => ⟨rfl, rfl⟩

theorem sameShape_trans {s1 s2 s3 : VFS} (h1 : sameShape s1 s2)
    (h2 : sameShape s2 s3) : sameShape s1 s3 :=
  fun j => ⟨(h2 j).1.trans (h1 j).1, (h2 j).2.trans (h1 j).2⟩

theorem childEdge_of_sameShape {s s2 : VFS} (h : sameShape s s2) {a b : Nat}
    (he : childEdge s a b) : childEdge s2 a b := by
  obtain ⟨hd, n, hmem⟩ := he
  exact ⟨(h a).2.trans hd, n, (h a).1.symm ▸ hmem⟩

theorem cycleReach_of_sameShape {s s2 : VFS} (h : sameShape s s2) {id : Nat}
    (hc : cycleReach s id) : cycleReach s2 id := by
  obtain ⟨j, hstar, hplus⟩ := hc
  exact ⟨j,
    Relation.ReflTransGen.mono (fun a b => childEdge_of_sameShape h) hstar,
    Relation.TransGen.mono (fun a b => childEdge_of_sameShape h) hplus⟩

/-- The state mutation of one `updateChildrenPaths` loop step only
touches a node's `path` and the index, never the shape. -/
theorem sameShape_pathUpdate (s : VFS) (cid : Nat) (np : Str) (F : List (Str × Nat)) :
    sameShape s { s.setNode cid { s.node cid with path := np } with files := F } := by
  intro j
  have : ({ s.setNode cid { s.node cid with path := np } with files := F } : VFS).node j =
      (s.setNode cid { s.node cid with path := np }).node j := rfl
  rw [this, node_setNode]
  by_cases h : cid = j
  · subst h
    rw [if_pos rfl]
    exact ⟨rfl, rfl⟩
  · rw [if_neg h]
    exact ⟨rfl, rfl⟩

theorem updateChildrenLoopGo_sameShape {recur : VFS → Nat → Res VFS}
    (hrec : ∀ s id s2, recur s id = Res.ok s2 → sameShape s s2) :
    ∀ (entries : List (Str × Nat)) (s : VFS) (id : Nat) (s2 : VFS),
      updateChildrenLoopGo recur s id entries = Res.ok s2 → sameShape s s2 := by
  intro entries
  induction entries with
  | nil =>
    intro s id s2 h
    rw [updateChildrenLoopGo, Res.ok.injEq] at h
    exact h ▸ sameShape_refl s
  | cons ec rest ih =>
    obtain ⟨n, cid⟩ := ec
    intro s id s2 h
    rw [updateChildrenLoopGo] at h
    set s3 : VFS := { s.setNode cid { s.node cid with path := (s.node id).path ++ '/' :: (s.node cid).name } with
      files := mapSet ((s.node id).path ++ '/' :: (s.node cid).name) cid
        (mapDelete (s.node cid).path (s.setNode cid { s.node cid with path := (s.node id).path ++ '/' :: (s.node cid).name }).files) } with hs3
    have hshape3 : sameShape s s3 := by
      rw [hs3]
      exact sameShape_pathUpdate s cid _ _
    by_cases hd : (s3.node cid).type = NodeType.directory
    · rw [if_pos hd] at h
      cases hrc : recur s3 cid with
      | ok s4 =>
        rw [hrc] at h
        simp only [Res.ok_bind] at h
        exact sameShape_trans (sameShape_trans hshape3 (hrec _ _ _ hrc)) (ih _ _ _ h)
      | err e => rw [hrc] at h; exact Res.noConfusion h
      | oom => rw [hrc] at h; exact Res.noConfusion h
    · rw [if_neg hd] at h
      simp only [Res.ok_bind] at h
      exact sameShape_trans hshape3 (ih _ _ _ h)

theorem updateChildrenPaths_sameShape : ∀ (fuel : Nat) (s : VFS) (id : Nat) (s2 : VFS),
    VFS.updateChildrenPaths fuel s id = Res.ok s2 → sameShape s s2 := by
  intro fuel
  induction fuel with
  | zero => intro s id s2 h; exact Res.noConfusion h
  | succ fuel ih =>
    intro s id s2 h
    rw [VFS.updateChildrenPaths, VFS.updateChildrenPathsF] at h
    split at h
    · exact updateChildrenLoopGo_sameShape (fun sa ida s2a => ih sa ida s2a) _ _ _ _ h
    · rw [Res.ok.injEq] at h
      exact h ▸ sameShape_refl s

theorem cycleReach_dir {s : VFS} {c : Nat} (h : cycleReach s c) :
    (s.node c).type = NodeType.directory := by
  obtain ⟨j, hstar, hplus⟩ := h
  rcases Relation.ReflTransGen.cases_head hstar with heq | ⟨d, hd, _⟩
  · subst heq
    rcases (Relation.TransGen.head'_iff.mp hplus) with ⟨d, hd, _⟩
    exact hd.1
  · exact hd.1

theorem cycleReach_step {s : VFS} {id : Nat} (h : cycleReach s id) :
    ∃ n c, (n, c) ∈ (s.node id).children ∧ cycleReach s c := by
  obtain ⟨j, hstar, hplus⟩ := h
  rcases Relation.ReflTransGen.cases_head hstar with heq | ⟨c, hc, hstar2⟩
  · subst heq
    rcases (Relation.TransGen.head'_iff.mp hplus) with ⟨c, hc, hstar2⟩
    obtain ⟨_, n, hmem⟩ := hc
    exact ⟨n, c, hmem, ⟨id, hstar2, hplus⟩⟩
  · obtain ⟨_, n, hmem⟩ := hc
    exact ⟨n, c, hmem, ⟨j, hstar2, hplus⟩⟩

theorem updateChildrenLoopGo_oom {fuel : Nat}
    (ih : ∀ s id, cycleReach s id → VFS.updateChildrenPaths fuel s id = Res.oom) :
    ∀ (entries : List (Str × Nat)) (s : VFS) (pid : Nat) (n : Str) (c : Nat),
      (n, c) ∈ entries → cycleReach s c →
      updateChildrenLoopGo (VFS.updateChildrenPaths fuel) s pid entries = Res.oom := by
  intro entries
  induction entries with
  | nil => intro s pid n c hmem _; cases hmem
  | cons ec rest ihe =>
    obtain ⟨n1, c1⟩ := ec
    intro s pid n c hmem hcr
    rw [updateChildrenLoopGo]
    set s3 : VFS := { s.setNode c1 { s.node c1 with path := (s.node pid).path ++ '/' :: (s.node c1).name } with
      files := mapSet ((s.node pid).path ++ '/' :: (s.node c1).name) c1
        (mapDelete (s.node c1).path (s.setNode c1 { s.node c1 with path := (s.node pid).path ++ '/' :: (s.node c1).name }).files) } with hs3
    have hshape3 : sameShape s s3 := by
      rw [hs3]
      exact sameShape_pathUpdate s c1 _ _
    rcases List.mem_cons.mp hmem with hhead | htail
    · rw [Prod.mk.injEq] at hhead
      obtain ⟨_, hc1⟩ := hhead
      subst hc1
      have hcr3 := cycleReach_of_sameShape hshape3 hcr
      rw [if_pos ((hshape3 c).2.trans (cycleReach_dir hcr))]
      rw [ih s3 c hcr3]
      rfl
    · by_cases hd : (s3.node c1).type = NodeType.directory
      · rw [if_pos hd]
        cases hu : VFS.updateChildrenPaths fuel s3 c1 with
        | ok s4 =>
          simp only [Res.ok_bind]
          have hshape4 := updateChildrenPaths_sameShape fuel s3 c1 s4 hu
          exact ihe s4 pid n c htail
            (cycleReach_of_sameShape (sameShape_trans hshape3 hshape4) hcr)
        | err e => exact absurd hu (updateChildrenPaths_ne_err _ _ _ _)
        | oom => rfl
      · rw [if_neg hd]
        simp only [Res.ok_bind]
        exact ihe s3 pid n c htail (cycleReach_of_sameShape hshape3 hcr)

/-- `updateChildrenPaths` runs out of every depth bound — i.e. the
JavaScript recursion never terminates — whenever a cycle of child edges
is reachable from the starting node. -/
theorem updateChildrenPaths_oom : ∀ (fuel : Nat) (s : VFS) (id : Nat),
    cycleReach s id → VFS.updateChildrenPaths fuel s id = Res.oom := by
  intro fuel
  induction fuel with
  | zero => intro s id _; rfl
  | succ fuel ih =>
    intro s id h
    rw [VFS.updateChildrenPaths, VFS.updateChildrenPathsF, if_pos (cycleReach_dir h)]
    obtain ⟨n, c, hmem, hcr⟩ := cycleReach_step h
    exact updateChildrenLoopGo_oom ih (s.node id).children s id n c hmem hcr

end UIGen

namespace UIGen

/-- The state produced by `createDirectory("/a")` on a fresh VFS. -/
def cOneS1 : VFS := resVFS (VFS.applyOp 0 freshVFS (VfsOp.createDirectory (str "/a")))

/-- The state `rename("/a", "/a/b")` reaches right before calling
`updateChildrenPaths`: `ensureParentDirectories("/a/b")` succeeds because
`"/a"` still exists, the node is repointed to `"/a/b"`, and it is
inserted into the children of its *own* parent directory — which is the
node itself, producing a self-cycle in the children graph. -/
def cOneS5 : VFS :=
  { heap := [(0, { type := NodeType.directory, name := ['/'], path := ['/'] }),
             (1, { type := NodeType.directory, name := ['b'], path := str "/a/b",
                   children := [(['b'], 1)] })],
    files := [(['/'], 0), (str "/a/b", 1)],
    root := 0, nextId := 2 }

theorem cOneS5_cycle : cycleReach cOneS5 1 :=
  ⟨1, Relation.ReflTransGen.refl,
    Relation.TransGen.single ⟨by decide, ['b'], by decide⟩⟩

theorem runOps_c1_bridge (fuel : Nat) :
    VFS.runOps fuel freshVFS
        [VfsOp.createDirectory (str "/a"), VfsOp.rename (str "/a") (str "/a/b")]
      = Res.bind (Res.bind (Res.bind (VFS.updateChildrenPaths fuel cOneS5 1)
          (fun s6 => Res.ok (true, s6)))
          (fun x => Res.ok x.2))
          (fun s2 => Res.ok s2) := rfl

/-- **C1.** `rename` moved into the target's own subtree: the spec says a
rename "into its own subtree" fails gracefully returning `false`; in the
code `ensureParentDirectories` runs before the new-parent lookup, so
renaming `/a` to `/a/b` makes the node a child of itself and
`updateChildrenPaths` recurses forever (a stack overflow), at every
recursion-depth bound. -/
theorem rename_into_own_subtree_diverges (fuel : Nat) :
    VFS.runOps fuel freshVFS
        [VfsOp.createDirectory (str "/a"), VfsOp.rename (str "/a") (str "/a/b")]
      = Res.oom := by
  rw [runOps_c1_bridge fuel, updateChildrenPaths_oom fuel cOneS5 1 cOneS5_cycle]
  rfl

end UIGen

namespace UIGen

/-! ### Claim C5: serialize / deserialize round trip -/

/-- A valid operation sequence producing a state whose index holds the
non-canonical keys `"/b/c/"` and `"/b/c//x.txt"`: `rename` normalizes
`"/b/c//"` only to `"/b/c/"` (one trailing separator survives, claim C7)
and `updateChildrenPaths` then concatenates `node.path + "/" + name`
blindly. -/
def cFiveOps : List VfsOp :=
  [VfsOp.createFile (str "/d/x.txt") (str "hi"),
   VfsOp.rename (str "/d") (str "/b/c//")]

def cFiveS : VFS :=
  { heap := [(0, { type := NodeType.directory, name := ['/'], path := ['/'],
                   children := [(['b'], 3)] }),
             (1, { type := NodeType.directory, name := ['c'], path := str "/b/c/",
                   children := [(str "x.txt", 2)] }),
             (2, { type := NodeType.file, name := str "x.txt", path := str "/b/c//x.txt",
                   content := str "hi" }),
             (3, { type := NodeType.directory, name := ['b'], path := str "/b",
                   children := [(['c'], 1)] })],
    files := [(['/'], 0), (str "/b", 3), (str "/b/c/", 1), (str "/b/c//x.txt", 2)],
    root := 0, nextId := 4 }

def cFiveT : VFS :=
  { heap := [(0, { type := NodeType.directory, name := ['/'], path := ['/'],
                   children := [(['b'], 4)] }),
             (1, { type := NodeType.directory, name := ['c'], path := str "/b/c/",
                   children := [(str "x.txt", 2)] }),
             (2, { type := NodeType.file, name := str "x.txt", path := str "/b/c//x.txt",
                   content := str "hi" }),
             (3, { type := NodeType.directory, name := ['b'], path := str "/b",
                   children := [(['c'], 1)] }),
             (4, { type := NodeType.directory, name := ['b'], path := str "/b",
                   children := [(['c'], 5)] }),
             (5, { type := NodeType.directory, name := ['c'], path := str "/b/c",
                   children := [(str "x.txt", 6)] }),
             (6, { type := NodeType.file, name := str "x.txt", path := str "/b/c/x.txt",
                   content := str "hi" })],
    files := [(['/'], 0), (str "/b", 4), (str "/b/c", 5), (str "/b/c/x.txt", 6)],
    root := 0, nextId := 7 }

/-- The state after the first operation (`createFile("/d/x.txt")`). -/
def cFiveS1 : VFS :=
  { heap := [(0, { type := NodeType.directory, name := ['/'], path := ['/'],
                   children := [(['d'], 1)] }),
             (1, { type := NodeType.directory, name := ['d'], path := str "/d",
                   children := [(str "x.txt", 2)] }),
             (2, { type := NodeType.file, name := str "x.txt", path := str "/d/x.txt",
                   content := str "hi" })],
    files := [(['/'], 0), (str "/d", 1), (str "/d/x.txt", 2)],
    root := 0, nextId := 3 }

/-- The state `rename("/d", "/b/c//")` reaches right before
`updateChildrenPaths`: the moved node carries the non-canonical path
`"/b/c/"`. -/
def cFiveS5 : VFS :=
  { heap := [(0, { type := NodeType.directory, name := ['/'], path := ['/'],
                   children := [(['b'], 3)] }),
             (1, { type := NodeType.directory, name := ['c'], path := str "/b/c/",
                   children := [(str "x.txt", 2)] }),
             (2, { type := NodeType.file, name := str "x.txt", path := str "/d/x.txt",
                   content := str "hi" }),
             (3, { type := NodeType.directory, name := ['b'], path := str "/b",
                   children := [(['c'], 1)] })],
    files := [(['/'], 0), (str "/d/x.txt", 2), (str "/b", 3), (str "/b/c/", 1)],
    root := 0, nextId := 4 }

theorem cFive_step1 :
    VFS.applyOp 10 freshVFS (VfsOp.createFile (str "/d/x.txt") (str "hi"))
      = Res.ok cFiveS1 := by decide

theorem cFive_renameBridge (f : Nat) :
    VFS.rename f cFiveS1 (str "/d") (str "/b/c//")
      = (VFS.updateChildrenPaths f cFiveS5 1 >>= fun s6 => Res.ok (true, s6)) := rfl

theorem cFive_ucp : VFS.updateChildrenPaths 10 cFiveS5 1 = Res.ok cFiveS := by decide

theorem cFive_run : VFS.runOps 10 freshVFS cFiveOps = Res.ok cFiveS := by
  rw [cFiveOps]
  simp only [VFS.runOps]
  rw [cFive_step1]
  simp only [Res.ok_bind, VFS.applyOp]
  rw [cFive_renameBridge 10, cFive_ucp]
  rfl

/-- **C5, counterexample.** The round trip does not preserve the path
set: the reachable state `cFiveS` holds its file under the key
`"/b/c//x.txt"` (and a directory under `"/b/c/"`), but deserializing its
own serialization re-normalizes those keys, producing `"/b/c/x.txt"`
and `"/b/c"` instead — the sets of paths differ. -/
theorem serialize_roundtrip_counterexample :
    VFS.runOps 10 freshVFS cFiveOps = Res.ok cFiveS ∧
    cFiveS.deserializeFromNodes cFiveS.serialize = Res.ok cFiveT ∧
    mapHas (str "/b/c//x.txt") cFiveS.files = true ∧
    mapHas (str "/b/c//x.txt") cFiveT.files = false ∧
    mapHas (str "/b/c/x.txt") cFiveT.files = true ∧
    mapHas (str "/b/c/") cFiveS.files = true ∧
    mapHas (str "/b/c/") cFiveT.files = false :=
  ⟨cFive_run, by decide, by decide, by decide, by decide, by decide, by decide⟩

end UIGen

namespace UIGen

/-! ### Claim C5 (amended): canonical keys and path components -/

/-- The kind (file/directory) recorded at an index key. -/
def VFS.kindAt (s : VFS) (p : Str) : Option NodeType :=
  (mapGet p s.files).map (fun id => (s.node id).type)

/-- The content recorded at an index key, for file nodes only. -/
def VFS.fileAt (s : VFS) (p : Str) : Option Str :=
  match mapGet p s.files with
  | none => none
  | some id => if (s.node id).type = NodeType.file then some (s.node id).content else none

/-- A good path component: non-empty and separator-free. -/
def goodPart (p : Str) : Bool :=
  !p.isEmpty && p.all (fun c => decide (c ≠ '/'))

/-- A canonical non-root index key: a leading separator followed by
non-empty separator-free components. -/
def canonicalKey (k : Str) : Bool :=
  match k.splitOn '/' with
  | [] :: ps => !ps.isEmpty && ps.all goodPart
  | _ => false

/-- Joining components back into an absolute path. -/
def joinParts (ps : List Str) : Str :=
  List.intercalate ['/'] ([] :: ps)

theorem goodPart_ne_nil {p : Str} (h : goodPart p = true) : p ≠ [] := by
  rw [goodPart, Bool.and_eq_true] at h
  intro hn
  rw [hn] at h
  exact absurd h.1 (by decide)

theorem goodPart_no_slash {p : Str} (h : goodPart p = true) : ∀ c ∈ p, c ≠ '/' := by
  rw [goodPart, Bool.and_eq_true, List.all_eq_true] at h
  intro c hc
  exact of_decide_eq_true (h.2 c hc)

theorem joinParts_nil : joinParts [] = [] := by
  rw [joinParts]
  exact intercalate_single []

theorem joinParts_cons (p : Str) (l : List Str) :
    joinParts (p :: l) = '/' :: (p ++ joinParts l) := by
  cases l with
  | nil =>
    rw [joinParts, joinParts_nil, intercalate_cons2, intercalate_single]
    simp
  | cons q l2 =>
    rw [joinParts, joinParts]
    simp [intercalate_cons2]

theorem joinParts_concat (l : List Str) (p : Str) :
    joinParts (l ++ [p]) = joinParts l ++ '/' :: p := by
  induction l with
  | nil =>
    rw [List.nil_append, joinParts_cons, joinParts_nil]
    simp
  | cons a l2 ih =>
    rw [List.cons_append, joinParts_cons, ih, joinParts_cons]
    simp

theorem canonicalKey_spec {k : Str} (h : canonicalKey k = true) :
    ∃ ps, k.splitOn '/' = [] :: ps ∧ ps ≠ [] ∧ (∀ p ∈ ps, goodPart p = true) ∧
      k = joinParts ps := by
  rw [canonicalKey] at h
  split at h
  next ps heq =>
    rw [Bool.and_eq_true, List.all_eq_true] at h
    refine ⟨ps, heq, ?_, h.2, ?_⟩
    · intro hn
      rw [hn] at h
      exact absurd h.1 (by decide)
    · have h2 := List.intercalate_splitOn k '/'
      rw [heq] at h2
      rw [joinParts, h2]
  next => exact absurd h (by decide)

theorem splitOn_joinParts {ps : List Str} (hps : ∀ p ∈ ps, goodPart p = true) :
    (joinParts ps).splitOn '/' = [] :: ps := by
  rw [joinParts]
  refine List.splitOn_intercalate ([] :: ps) '/' ?_ (by simp)
  intro l hl
  rcases List.mem_cons.mp hl with h | h
  · rw [h]; exact List.not_mem_nil '/'
  · intro hc
    exact goodPart_no_slash (hps l h) '/' hc rfl

theorem joinParts_head {p : Str} {l : List Str} :
    (joinParts (p :: l)).head? = some '/' := by
  rw [joinParts_cons]
  rfl

theorem joinParts_ne_nil {ps : List Str} (hne : ps ≠ []) : joinParts ps ≠ [] := by
  cases ps with
  | nil => exact absurd rfl hne
  | cons p l => rw [joinParts_cons]; simp

theorem noDoubleSep_slashfree_append {p rest : Str}
    (hp : ∀ c ∈ p, c ≠ '/') (hrest : noDoubleSep rest = true) :
    noDoubleSep (p ++ rest) = true := by
  induction p with
  | nil => exact hrest
  | cons a p2 ih =>
    rw [List.cons_append]
    refine noDoubleSep_cons (Or.inr (hp a (List.mem_cons_self _ _))) ?_
    exact ih (fun c hc => hp c (List.mem_cons_of_mem _ hc))

theorem noDoubleSep_joinParts : ∀ {ps : List Str},
    (∀ p ∈ ps, goodPart p = true) → noDoubleSep (joinParts ps) = true := by
  intro ps
  induction ps with
  | nil => intro _; rw [joinParts_nil]; rfl
  | cons p l ih =>
    intro hgood
    rw [joinParts_cons]
    have hp := hgood p (List.mem_cons_self _ _)
    refine noDoubleSep_cons ?_ ?_
    · left
      cases hpc : p with
      | nil => exact absurd hpc (goodPart_ne_nil hp)
      | cons a p2 =>
        rw [List.cons_append, List.head?_cons]
        intro hc
        rw [Option.some.injEq] at hc
        exact goodPart_no_slash hp a (hpc ▸ List.mem_cons_self _ _) hc
    · exact noDoubleSep_slashfree_append (goodPart_no_slash hp)
        (ih (fun q hq => hgood q (List.mem_cons_of_mem _ hq)))

theorem joinParts_getLast {ps : List Str} (hne : ps ≠ [])
    (hgood : ∀ p ∈ ps, goodPart p = true) :
    ∃ c, (joinParts ps).getLast? = some c ∧ c ≠ '/' := by
  obtain ⟨l, p, hlp⟩ : ∃ l p, ps = l ++ [p] := by
    cases hc : ps.reverse with
    | nil => exact absurd (by rw [← List.reverse_reverse ps, hc]; rfl) hne
    | cons a t =>
      exact ⟨t.reverse, a, by rw [← List.reverse_reverse ps, hc]; simp⟩
  subst hlp
  have hp := hgood p (by simp)
  rw [joinParts_concat]
  cases hpc : p with
  | nil => exact absurd hpc (goodPart_ne_nil hp)
  | cons a p2 =>
    have : (joinParts l ++ '/' :: (a :: p2)).getLast? = (a :: p2).getLast? := by
      rw [List.getLast?_append]
      have h2 : ('/' :: (a :: p2)).getLast? = (a :: p2).getLast? :=
        getLast?_cons_ne (by simp)
      rw [h2]
      cases hg : (a :: p2).getLast? with
      | none => exact absurd hg (by simp)
      | some c => rfl
    rw [this]
    cases hg : (a :: p2).getLast? with
    | none => exact absurd hg (by simp)
    | some c =>
      refine ⟨c, rfl, ?_⟩
      exact goodPart_no_slash hp c
        (hpc ▸ List.mem_of_mem_getLast? (Option.mem_def.mpr hg))

theorem normalizePath_joinParts {ps : List Str} (hne : ps ≠ [])
    (hgood : ∀ p ∈ ps, goodPart p = true) :
    normalizePath (joinParts ps) = joinParts ps := by
  cases hps : ps with
  | nil => exact absurd hps hne
  | cons p l =>
    refine normalizePath_fixed joinParts_head (hps ▸ noDoubleSep_joinParts hgood) ?_
    right
    obtain ⟨c, hc, hcne⟩ := joinParts_getLast hne hgood
    rw [hps] at hc
    rw [hc]
    intro h2
    rw [Option.some.injEq] at h2
    exact hcne h2

end UIGen

namespace UIGen

theorem joinParts_ne_root {ps : List Str} (hne : ps ≠ [])
    (hgood : ∀ p ∈ ps, goodPart p = true) : joinParts ps ≠ ['/'] := by
  cases ps with
  | nil => exact absurd rfl hne
  | cons p l =>
    rw [joinParts_cons]
    intro h
    rw [List.cons.injEq] at h
    exact goodPart_ne_nil (hgood p (List.mem_cons_self _ _))
      (List.append_eq_nil.mp h.2).1

theorem getParentPath_joinParts {ps : List Str} {p : Str}
    (hgood : ∀ q ∈ ps ++ [p], goodPart q = true) :
    getParentPath (joinParts (ps ++ [p])) = if ps = [] then ['/'] else joinParts ps := by
  have hne : ps ++ [p] ≠ [] := by simp
  have hnorm := normalizePath_joinParts hne hgood
  have hroot := joinParts_ne_root hne hgood
  have hsplit := splitOn_joinParts hgood
  rw [getParentPath]
  simp only [hnorm, if_neg hroot, hsplit]
  have hdrop : (([] : Str) :: (ps ++ [p])).dropLast = [] :: ps := by
    rw [show (([] : Str) :: (ps ++ [p])) = ([] :: ps) ++ [p] by simp, List.dropLast_concat]
  rw [hdrop]
  cases hps : ps with
  | nil => simp
  | cons a l =>
    rw [if_neg (by simp), if_neg (by simp)]
    rfl

/-- A serializable state: fresh ids, the root indexed at `'/'`, and
every other index key canonical, valid, with its parent indexed as a
directory, and (for files) content within bounds. -/
def VfsWF (s : VFS) : Prop :=
  s.freshIds ∧
  mapGet ['/'] s.files = some s.root ∧
  (s.node s.root).type = NodeType.directory ∧
  ∀ e ∈ s.files, e.1 ≠ ['/'] →
    (isValidPath e.1 = true ∧ e.1.length ≤ MAX_PATH_LENGTH ∧
     canonicalKey e.1 = true ∧
     s.kindAt (getParentPath e.1) = some NodeType.directory ∧
     ((s.node e.2).type = NodeType.file → (s.node e.2).content.length ≤ MAX_FILE_SIZE))

instance (s : VFS) : Decidable (VfsWF s) := by
  rw [VfsWF]
  infer_instance

/-- The descriptor `serialize` emits for the node with a given id. -/
def serNodeOf (s : VFS) (id : Nat) : SerNode :=
  let n := s.node id
  if n.type = NodeType.directory then
    { type := n.type, name := n.name, path := n.path, content := none }
  else
    { type := n.type, name := n.name, path := n.path, content := some n.content }

theorem mapGet_serialize (s : VFS) (k : Str) :
    mapGet k s.serialize = (mapGet k s.files).map (serNodeOf s) := by
  rw [VFS.serialize]
  generalize s.files = m
  induction m with
  | nil => rfl
  | cons e rest ih =>
    obtain ⟨k2, id⟩ := e
    simp only [List.map_cons, mapGet]
    by_cases h : k2 = k
    · rw [if_pos h, if_pos h]
      rfl
    · rw [if_neg h, if_neg h]
      exact ih

theorem mapGet_isSome_of_mem_keys {κ ν : Type} [DecidableEq κ] {k : κ} :
    ∀ {m : List (κ × ν)}, k ∈ m.map Prod.fst → ∃ v, mapGet k m = some v := by
  intro m
  induction m with
  | nil => intro h; cases h
  | cons e rest ih =>
    obtain ⟨k2, v2⟩ := e
    intro h
    rw [mapGet]
    by_cases h2 : k2 = k
    · rw [if_pos h2]
      exact ⟨v2, rfl⟩
    · rw [if_neg h2]
      rcases List.mem_cons.mp h with h3 | h3
      · exact absurd h3.symm h2
      · exact ih h3

theorem mem_insertSorted {x p : Str} : ∀ {L : List Str},
    p ∈ insertSorted x L → p = x ∨ p ∈ L := by
  intro L
  induction L with
  | nil =>
    intro h
    rw [insertSorted] at h
    rcases List.mem_cons.mp h with h2 | h2
    · exact Or.inl h2
    · cases h2
  | cons y rest ih =>
    intro h
    rw [insertSorted] at h
    by_cases h2 : strLe x y
    · rw [if_pos h2] at h
      rcases List.mem_cons.mp h with h3 | h3
      · exact Or.inl h3
      · exact Or.inr h3
    · rw [if_neg h2] at h
      rcases List.mem_cons.mp h with h3 | h3
      · exact Or.inr (h3 ▸ List.mem_cons_self _ _)
      · rcases ih h3 with h4 | h4
        · exact Or.inl h4
        · exact Or.inr (List.mem_cons_of_mem _ h4)

theorem mem_sortStr {p : Str} : ∀ {l : List Str}, p ∈ sortStr l → p ∈ l := by
  intro l
  induction l with
  | nil => intro h; cases h
  | cons x rest ih =>
    intro h
    rcases mem_insertSorted h with h2 | h2
    · exact h2 ▸ List.mem_cons_self _ _
    · exact List.mem_cons_of_mem _ (ih h2)

/-- `t2` retains every key of `t` with an unchanged observation. -/
def obsExtends (t t2 : VFS) : Prop :=
  ∀ p, t2.obs p = t.obs p ∨ t.obs p = none

theorem obsExtends_refl (t : VFS) : obsExtends t t := fun _ => Or.inl rfl

theorem obsExtends_trans {t1 t2 t3 : VFS} (h1 : obsExtends t1 t2)
    (h2 : obsExtends t2 t3) : obsExtends t1 t3 := by
  intro p
  rcases h2 p with h3 | h3
  · rcases h1 p with h4 | h4
    · exact Or.inl (h3.trans h4)
    · exact Or.inr h4
  · rcases h1 p with h4 | h4
    · exact Or.inr (h4 ▸ h3)
    · exact Or.inr h4

theorem obsExtendsDirs_to_obsExtends {t t2 : VFS} (h : obsExtendsDirs t t2) :
    obsExtends t t2 := by
  intro p
  rcases h p with h2 | ⟨h2, _⟩
  · exact Or.inl h2
  · exact Or.inr h2

/-- Invariant maintained while deserializing into `t` a serialization of
`s`: fresh ids, the root present as a directory, and every present key
agreeing with `s` in kind (and content, for files). -/
def DesPre (s t : VFS) : Prop :=
  t.freshIds ∧
  (∃ v, t.obs ['/'] = some v ∧ v.1 = NodeType.directory) ∧
  ∀ p v, t.obs p = some v → ∃ v2, s.obs p = some v2 ∧ v.1 = v2.1 ∧
    (v.1 = NodeType.file → v.2 = v2.2)

theorem kindAt_obs (s : VFS) (p : Str) : s.kindAt p = (s.obs p).map Prod.fst := by
  rw [VFS.kindAt, VFS.obs]
  cases mapGet p s.files <;> rfl

theorem fileAt_obs (s : VFS) (p : Str) :
    s.fileAt p = match s.obs p with
      | some (NodeType.file, c) => some c
      | _ => none := by
  rw [VFS.fileAt, VFS.obs]
  cases mapGet p s.files with
  | none => rfl
  | some id =>
    simp only [Option.map_some']
    cases (s.node id).type <;> rfl

end UIGen

namespace UIGen

theorem createDirectory_success_effect {t : VFS} {k : Str}
    (hf : t.freshIds)
    (hval : validatePath k = Res.ok ())
    (hnorm : normalizePath k = k)
    (habs : mapGet k t.files = none) {pid : Nat}
    (hpid : mapGet (getParentPath k) t.files = some pid)
    (hdir : (t.node pid).type = NodeType.directory) :
    ∃ t2, t.createDirectory k = Res.ok (some t.nextId, t2) ∧ t2.freshIds ∧
      t2.obs k = some (NodeType.directory, []) ∧
      ∀ p, p ≠ k → t2.obs p = t.obs p := by
  have hrun : ∃ t2, t.createDirectory k = Res.ok (some t.nextId, t2) := by
    rw [VFS.createDirectory, hval]
    simp only [Res.ok_bind, Res.pure_eq_ok, hnorm]
    rw [mapHas, habs]
    rw [if_neg (by simp)]
    rw [VFS.getParentNode, hpid]
    dsimp only
    rw [if_neg (fun hc => hc hdir)]
    exact ⟨_, rfl⟩
  obtain ⟨t2, hrun⟩ := hrun
  obtain ⟨hf2, hcase⟩ := createDirectory_effect hf hrun
  rcases hcase with ⟨hr, _⟩ | ⟨_, hother, hnew⟩
  · exact absurd hr (by simp)
  · exact ⟨t2, hrun, hf2, hnorm ▸ hnew,
      fun p hp => hother p (by rw [hnorm]; exact hp)⟩

theorem ensureParentAux_id : ∀ {L : List Str} {t : VFS},
    (∀ q ∈ L, t.existsPath q = true) → t.ensureParentAux L = Res.ok t := by
  intro L
  induction L with
  | nil => intro t _; rfl
  | cons d rest ih =>
    intro t hall
    rw [VFS.ensureParentAux, if_pos (hall d (List.mem_cons_self _ _))]
    exact ih (fun q hq => hall q (List.mem_cons_of_mem _ hq))

theorem createFile_success_effect {t : VFS} {k c : Str}
    (hf : t.freshIds)
    (hval : validatePath k = Res.ok ())
    (hcont : validateContent c = Res.ok ())
    (hnorm : normalizePath k = k)
    (habs : mapGet k t.files = none)
    (hens : t.ensureParentDirectories k = Res.ok t) {pid : Nat}
    (hpid : mapGet (getParentPath k) t.files = some pid)
    (hdir : (t.node pid).type = NodeType.directory) :
    ∃ t2, t.createFile k c = Res.ok (some t.nextId, t2) ∧ t2.freshIds ∧
      t2.obs k = some (NodeType.file, c) ∧
      ∀ p, p ≠ k → t2.obs p = t.obs p := by
  have hpidlt : pid < t.nextId := hf.1 _ (mapGet_mem hpid)
  rw [VFS.createFile, hval, hcont]
  simp only [Res.ok_bind, Res.pure_eq_ok, hnorm]
  rw [mapHas, habs]
  rw [if_neg (by simp)]
  rw [hens]
  simp only [Res.ok_bind]
  rw [VFS.getParentNode, hpid]
  dsimp only
  rw [if_neg (fun hc => hc hdir)]
  refine ⟨_, rfl, ?_, ?_, ?_⟩
  · constructor
    · intro e2 he2
      rcases mem_mapSet he2 with h2 | h2
      · exact Nat.lt_succ_of_lt (hf.1 _ h2)
      · rw [h2]
        exact Nat.lt_succ_self _
    · intro e2 he2
      simp only [VFS.setNode] at he2
      rcases mem_mapSet he2 with h2 | h2
      · rcases mem_mapSet h2 with h3 | h3
        · exact Nat.lt_succ_of_lt (hf.2 _ h3)
        · rw [h3]
          exact Nat.lt_succ_self _
      · rw [h2]
        exact Nat.lt_succ_of_lt hpidlt
  · rw [VFS.obs]
    simp only [VFS.setNode]
    rw [mapGet_set_self]
    simp only [Option.map_some']
    have hpidne : pid ≠ t.nextId := Nat.ne_of_lt hpidlt
    rw [VFS.node, mapGet_set_ne _ _ hpidne, mapGet_set_self]
    rfl
  · intro p hp
    rw [VFS.obs, VFS.obs]
    simp only [VFS.setNode]
    have hfk : mapGet p (mapSet k t.nextId t.files) = mapGet p t.files :=
      mapGet_set_ne _ _ (fun h2 => hp h2.symm)
    rw [hfk]
    cases hget : mapGet p t.files with
    | none => rfl
    | some id2 =>
      have hid2 : id2 < t.nextId := hf.1 _ (mapGet_mem hget)
      simp only [Option.map_some']
      have hne : id2 ≠ t.nextId := Nat.ne_of_lt hid2
      by_cases hpid2 : id2 = pid
      · subst hpid2
        rw [VFS.node, VFS.node]
        rw [mapGet_set_self]
        simp only [Option.getD_some]
        rw [VFS.node, mapGet_set_ne _ _ (Ne.symm hne)]
      · rw [VFS.node, VFS.node]
        rw [mapGet_set_ne _ _ (fun h2 => hpid2 h2.symm),
          mapGet_set_ne _ _ (Ne.symm hne)]
        rfl

theorem dirChain_shape : ∀ (ps2 ps1 : List Str) (q : Str),
    q ∈ dirChainAux (joinParts ps1) ps2 →
    ∃ j, 1 ≤ j ∧ j < ps2.length ∧ q = joinParts (ps1 ++ ps2.take j) := by
  intro ps2
  induction ps2 with
  | nil => intro ps1 q h; cases h
  | cons p rest ih =>
    intro ps1 q h
    match rest, h with
    | [], h => cases h
    | p2 :: rest2, h =>
      rw [dirChainAux] at h
      rcases List.mem_cons.mp h with h2 | h2
      · refine ⟨1, le_refl 1, by simp, ?_⟩
        rw [h2, List.take_succ_cons, List.take_zero, joinParts_concat]
      · rw [← joinParts_concat] at h2
        obtain ⟨j, hj1, hj2, hq⟩ := ih (ps1 ++ [p]) q h2
        refine ⟨j + 1, by omega, ?_, ?_⟩
        · simp only [List.length_cons] at hj2 ⊢
          omega
        · rw [hq, List.take_succ_cons]
          congr 1
          simp

theorem dirChain_mem : ∀ (ps2 ps1 : List Str) (j : Nat), 1 ≤ j → j < ps2.length →
    joinParts (ps1 ++ ps2.take j) ∈ dirChainAux (joinParts ps1) ps2 := by
  intro ps2
  induction ps2 with
  | nil =>
    intro ps1 j h1 h2
    simp only [List.length_nil] at h2
    omega
  | cons p rest ih =>
    intro ps1 j h1 h2
    match rest with
    | [] =>
      simp only [List.length_cons, List.length_nil] at h2
      omega
    | p2 :: rest2 =>
      rw [dirChainAux]
      cases j with
      | zero => omega
      | succ j2 =>
        cases j2 with
        | zero =>
          rw [List.take_succ_cons, List.take_zero, joinParts_concat]
          exact List.mem_cons_self _ _
        | succ j3 =>
          apply List.mem_cons_of_mem
          have hmem := ih (ps1 ++ [p]) (j3 + 1) (by omega)
            (by simp only [List.length_cons] at h2 ⊢; omega)
          rw [List.take_succ_cons]
          rw [show ps1 ++ p :: (p2 :: rest2).take (j3 + 1)
              = (ps1 ++ [p]) ++ (p2 :: rest2).take (j3 + 1) by simp]
          rw [← joinParts_concat]
          exact hmem

end UIGen

namespace UIGen

theorem exists_concat_of_ne_nil {α : Type} {ps : List α} (h : ps ≠ []) :
    ∃ l p, ps = l ++ [p] := by
  cases hc : ps.reverse with
  | nil => exact absurd (by rw [← List.reverse_reverse ps, hc]; rfl) h
  | cons a t => exact ⟨t.reverse, a, by rw [← List.reverse_reverse ps, hc]; simp⟩

theorem validatePath_valid {p : Str} (h : validatePath p = Res.ok ()) :
    isValidPath p = true := by
  by_contra hv
  rw [validatePath, if_pos hv] at h
  exact Res.noConfusion h

theorem obs_some_elim {t : VFS} {p : Str} {v : NodeType × Str}
    (h : t.obs p = some v) :
    ∃ id, mapGet p t.files = some id ∧ (t.node id).type = v.1 ∧
      (t.node id).content = v.2 := by
  rw [VFS.obs] at h
  obtain ⟨id, hid, hv⟩ := Option.map_eq_some'.mp h
  exact ⟨id, hid, by rw [← hv], by rw [← hv]⟩

theorem kindAt_some_elim {t : VFS} {p : Str} {ty : NodeType}
    (h : t.kindAt p = some ty) :
    ∃ id, mapGet p t.files = some id ∧ (t.node id).type = ty := by
  rw [VFS.kindAt] at h
  obtain ⟨id, hid, hv⟩ := Option.map_eq_some'.mp h
  exact ⟨id, hid, hv⟩

/-- By the parent-closure clause of `VfsWF`, every proper ancestor of an
indexed canonical key is itself indexed as a directory. -/
theorem ancestors_dir_keys {s : VFS} (hWF : VfsWF s) :
    ∀ (n : Nat) (ps : List Str), ps.length ≤ n → (∀ p ∈ ps, goodPart p = true) →
    (∃ id, mapGet (joinParts ps) s.files = some id) →
    ∀ j, 1 ≤ j → j < ps.length →
      s.kindAt (joinParts (ps.take j)) = some NodeType.directory := by
  intro n
  induction n with
  | zero =>
    intro ps hlen _ _ j hj1 hj2
    omega
  | succ n ih =>
    intro ps hlen hgood hkey j hj1 hj2
    have hne : ps ≠ [] := by
      intro hc
      rw [hc] at hj2
      simp only [List.length_nil] at hj2
      omega
    obtain ⟨l, p, rfl⟩ := exists_concat_of_ne_nil hne
    obtain ⟨id, hid⟩ := hkey
    have hmem := mapGet_mem hid
    have hne_root : joinParts (l ++ [p]) ≠ ['/'] := joinParts_ne_root (by simp) hgood
    obtain ⟨hv, hlen2, hcanon, hparent, hcont⟩ := hWF.2.2.2 _ hmem hne_root
    rw [getParentPath_joinParts hgood] at hparent
    by_cases hl : l = []
    · subst hl
      simp only [List.nil_append, List.length_cons, List.length_nil] at hj2
      omega
    · rw [if_neg hl] at hparent
      rcases Nat.lt_or_ge j l.length with hjlt | hjge
      · have htake : (l ++ [p]).take j = l.take j :=
          List.take_append_of_le_length (le_of_lt hjlt)
        rw [htake]
        have hkey2 : ∃ id2, mapGet (joinParts l) s.files = some id2 := by
          obtain ⟨id2, hid2, _⟩ := kindAt_some_elim hparent
          exact ⟨id2, hid2⟩
        have hlen3 : l.length ≤ n := by
          simp only [List.length_append, List.length_cons, List.length_nil] at hlen
          omega
        exact ih l hlen3 (fun q hq => hgood q (by simp [hq])) hkey2 j hj1 hjlt
      · have hj : j = l.length := by
          simp only [List.length_append, List.length_cons, List.length_nil] at hj2
          omega
        rw [hj, List.take_left]
        exact hparent


theorem agree_kind {s t : VFS} (hpre : DesPre s t) {pk : Str} {w : NodeType × Str}
    (hobs : t.obs pk = some w) (hkind : s.kindAt pk = some NodeType.directory) :
    w.1 = NodeType.directory := by
  obtain ⟨v2, hv2, hv21, _⟩ := hpre.2.2 _ _ hobs
  rw [kindAt_obs, hv2, Option.map_some', Option.some.injEq] at hkind
  rw [hv21, hkind]

/-- Walking the ancestor chain with `ensureParentDirectories` from any
invariant-preserving intermediate state: the walk succeeds, every chain
entry ends up present as a directory, and nothing changes beyond fresh
empty directories appearing at chain entries. -/
theorem ensureChain {s : VFS} :
    ∀ (ps2 ps1 : List Str) (t : VFS),
      DesPre s t →
      (∀ p ∈ ps1 ++ ps2, goodPart p = true) →
      (ps1 = [] ∨ ∃ v, t.obs (joinParts ps1) = some v ∧ v.1 = NodeType.directory) →
      (∀ q ∈ dirChainAux (joinParts ps1) ps2,
        s.kindAt q = some NodeType.directory ∧ validatePath q = Res.ok ()) →
      ∃ t1, t.ensureParentAux (dirChainAux (joinParts ps1) ps2) = Res.ok t1 ∧
        DesPre s t1 ∧ obsExtends t t1 ∧
        ∀ q ∈ dirChainAux (joinParts ps1) ps2,
          ∃ v, t1.obs q = some v ∧ v.1 = NodeType.directory := by
  intro ps2
  induction ps2 with
  | nil =>
    intro ps1 t hpre _ _ _
    exact ⟨t, rfl, hpre, obsExtends_refl t, fun q hq => absurd hq (List.not_mem_nil q)⟩
  | cons p rest ih =>
    intro ps1 t hpre hgood hacc hkeys
    match rest with
    | [] =>
      exact ⟨t, rfl, hpre, obsExtends_refl t, fun q hq => absurd hq (List.not_mem_nil q)⟩
    | p2 :: rest2 =>
      rw [dirChainAux, ← joinParts_concat] at hkeys ⊢
      have hgood1 : ∀ q ∈ ps1 ++ [p], goodPart q = true := by
        intro q hq
        refine hgood q ?_
        simp only [List.mem_append, List.mem_singleton, List.mem_cons] at hq ⊢
        tauto
      have hgood2 : ∀ q ∈ (ps1 ++ [p]) ++ p2 :: rest2, goodPart q = true := by
        intro q hq
        refine hgood q ?_
        simp only [List.mem_append, List.mem_singleton, List.mem_cons] at hq ⊢
        tauto
      have hkey_e := (hkeys _ (List.mem_cons_self _ _)).1
      have hval_e := (hkeys _ (List.mem_cons_self _ _)).2
      have hnorm_e : normalizePath (joinParts (ps1 ++ [p])) = joinParts (ps1 ++ [p]) :=
        normalizePath_joinParts (by simp) hgood1
      have hne_root_e : joinParts (ps1 ++ [p]) ≠ ['/'] := joinParts_ne_root (by simp) hgood1
      have hkeys2 : ∀ q ∈ dirChainAux (joinParts (ps1 ++ [p])) (p2 :: rest2),
          s.kindAt q = some NodeType.directory ∧ validatePath q = Res.ok () :=
        fun q hq => hkeys q (List.mem_cons_of_mem _ hq)
      have hparent_dir : ∃ pid,
          mapGet (getParentPath (joinParts (ps1 ++ [p]))) t.files = some pid ∧
          (t.node pid).type = NodeType.directory := by
        rw [getParentPath_joinParts hgood1]
        by_cases hps1 : ps1 = []
        · rw [if_pos hps1]
          obtain ⟨v, hobs, hv1⟩ := hpre.2.1
          obtain ⟨id, hid, hty, _⟩ := obs_some_elim hobs
          exact ⟨id, hid, by rw [hty, hv1]⟩
        · rw [if_neg hps1]
          obtain ⟨v, hobs, hv1⟩ := hacc.resolve_left hps1
          obtain ⟨id, hid, hty, _⟩ := obs_some_elim hobs
          exact ⟨id, hid, by rw [hty, hv1]⟩
      obtain ⟨pid, hpid, hpiddir⟩ := hparent_dir
      rw [VFS.ensureParentAux]
      by_cases hex : t.existsPath (joinParts (ps1 ++ [p])) = true
      · rw [if_pos hex]
        rw [VFS.existsPath,
          if_neg (by rw [validatePath_valid hval_e]; simp), hnorm_e, mapHas] at hex
        obtain ⟨id, hid⟩ := Option.isSome_iff_exists.mp hex
        have hobs : t.obs (joinParts (ps1 ++ [p]))
            = some ((t.node id).type, (t.node id).content) := by
          rw [VFS.obs, hid, Option.map_some']
        have hw1 := agree_kind hpre hobs hkey_e
        obtain ⟨t1, hrun, hpre1, hext1, hall⟩ :=
          ih (ps1 ++ [p]) t hpre hgood2 (Or.inr ⟨_, hobs, hw1⟩) hkeys2
        refine ⟨t1, hrun, hpre1, hext1, ?_⟩
        intro q hq
        rcases List.mem_cons.mp hq with h2 | h2
        · subst h2
          rcases hext1 (joinParts (ps1 ++ [p])) with h3 | h3
          · exact ⟨_, by rw [h3, hobs], hw1⟩
          · rw [hobs] at h3
            exact Option.noConfusion h3
        · exact hall q h2
      · rw [if_neg hex]
        rw [VFS.existsPath,
          if_neg (by rw [validatePath_valid hval_e]; simp), hnorm_e, mapHas] at hex
        have habs : mapGet (joinParts (ps1 ++ [p])) t.files = none := by
          cases hg : mapGet (joinParts (ps1 ++ [p])) t.files with
          | none => rfl
          | some id =>
            rw [hg] at hex
            exact absurd rfl hex
        obtain ⟨t2, hcd, hf2, hobsk, hframe⟩ :=
          createDirectory_success_effect hpre.1 hval_e hnorm_e habs hpid hpiddir
        rw [hcd]
        simp only [Res.ok_bind]
        have hext_t2 : obsExtends t t2 := by
          intro pp
          by_cases hpp : pp = joinParts (ps1 ++ [p])
          · subst hpp
            right
            rw [VFS.obs, habs]
            rfl
          · left
            exact hframe pp hpp
        have hpre2 : DesPre s t2 := by
          refine ⟨hf2, ?_, ?_⟩
          · obtain ⟨v, hobs, hv1⟩ := hpre.2.1
            exact ⟨v, by rw [hframe ['/'] (Ne.symm hne_root_e)]; exact hobs, hv1⟩
          · intro pp v hv
            by_cases hpp : pp = joinParts (ps1 ++ [p])
            · subst hpp
              rw [hobsk, Option.some.injEq] at hv
              obtain ⟨id2, hid2, hty2⟩ := kindAt_some_elim hkey_e
              refine ⟨((s.node id2).type, (s.node id2).content), ?_, ?_, ?_⟩
              · rw [VFS.obs, hid2, Option.map_some']
              · rw [← hv]
                exact hty2.symm
              · intro hfile
                rw [← hv] at hfile
                exact absurd hfile (by decide)
            · rw [hframe pp hpp] at hv
              exact hpre.2.2 pp v hv
        obtain ⟨t1, hrun, hpre1, hext1, hall⟩ := ih (ps1 ++ [p]) t2 hpre2 hgood2
          (Or.inr ⟨(NodeType.directory, []), hobsk, rfl⟩) hkeys2
        refine ⟨t1, hrun, hpre1, obsExtends_trans hext_t2 hext1, ?_⟩
        intro q hq
        rcases List.mem_cons.mp hq with h2 | h2
        · subst h2
          rcases hext1 (joinParts (ps1 ++ [p])) with h3 | h3
          · exact ⟨(NodeType.directory, []), by rw [h3, hobsk], rfl⟩
          · rw [hobsk] at h3
            exact Option.noConfusion h3
        · exact hall q h2

end UIGen

namespace UIGen

theorem validateContent_ok {c : Str} (h : c.length ≤ MAX_FILE_SIZE) :
    validateContent c = Res.ok () := by
  rw [validateContent, if_neg (by omega)]

theorem serNodeOf_type (s : VFS) (id : Nat) :
    (serNodeOf s id).type = (s.node id).type := by
  rw [serNodeOf]
  split <;> rfl

theorem serNodeOf_content_file {s : VFS} {id : Nat}
    (h : (s.node id).type = NodeType.file) :
    (serNodeOf s id).content = some (s.node id).content := by
  rw [serNodeOf, if_neg (by rw [h]; exact fun hc => NodeType.noConfusion hc)]

theorem createDirectory_noop_present {t : VFS} {k : Str}
    (hval : validatePath k = Res.ok ()) (hnorm : normalizePath k = k)
    {id2 : Nat} (hpresent : mapGet k t.files = some id2) :
    t.createDirectory k = Res.ok (none, t) := by
  rw [VFS.createDirectory, hval]
  simp only [Res.ok_bind, Res.pure_eq_ok, hnorm]
  rw [mapHas, hpresent]
  exact if_pos rfl

theorem createFile_noop_present {t : VFS} {k c : Str}
    (hval : validatePath k = Res.ok ()) (hcont : validateContent c = Res.ok ())
    (hnorm : normalizePath k = k)
    {id2 : Nat} (hpresent : mapGet k t.files = some id2) :
    t.createFile k c = Res.ok (none, t) := by
  rw [VFS.createFile, hval, hcont]
  simp only [Res.ok_bind, Res.pure_eq_ok, hnorm]
  rw [mapHas, hpresent]
  exact if_pos rfl

theorem step_parent_dir {s t1 : VFS} (hpre1 : DesPre s t1)
    {ps : List Str} (hne : ps ≠ []) (hgoodps : ∀ p ∈ ps, goodPart p = true)
    (hall : ∀ q ∈ dirChainAux ([] : Str) ps,
      ∃ v, t1.obs q = some v ∧ v.1 = NodeType.directory) :
    ∃ pid, mapGet (getParentPath (joinParts ps)) t1.files = some pid ∧
      (t1.node pid).type = NodeType.directory := by
  obtain ⟨psl, plast, rfl⟩ := exists_concat_of_ne_nil hne
  rw [getParentPath_joinParts hgoodps]
  by_cases hl : psl = []
  · rw [if_pos hl]
    obtain ⟨v, hobs, hv1⟩ := hpre1.2.1
    obtain ⟨pid, hpid, hty, _⟩ := obs_some_elim hobs
    exact ⟨pid, hpid, by rw [hty, hv1]⟩
  · rw [if_neg hl]
    have hmem := dirChain_mem (psl ++ [plast]) [] psl.length
      (List.length_pos.mpr hl) (by simp)
    rw [joinParts_nil, List.nil_append, List.take_left] at hmem
    obtain ⟨v, hobs, hv1⟩ := hall _ hmem
    obtain ⟨pid, hpid, hty, _⟩ := obs_some_elim hobs
    exact ⟨pid, hpid, by rw [hty, hv1]⟩

theorem chain_exists {t1 : VFS} {ps : List Str}
    (hgoodps : ∀ p ∈ ps, goodPart p = true)
    (hvalchain : ∀ q ∈ dirChainAux ([] : Str) ps, validatePath q = Res.ok ())
    (hall : ∀ q ∈ dirChainAux ([] : Str) ps,
      ∃ v, t1.obs q = some v ∧ v.1 = NodeType.directory) :
    ∀ q ∈ dirChainAux ([] : Str) ps, t1.existsPath q = true := by
  intro q hq
  obtain ⟨v, hobs, _⟩ := hall q hq
  obtain ⟨pid, hpid, _, _⟩ := obs_some_elim hobs
  have hshape := dirChain_shape ps [] q
  rw [joinParts_nil] at hshape
  obtain ⟨j, hj1, hj2, hqe⟩ := hshape hq
  rw [List.nil_append] at hqe
  have hnormq : normalizePath q = q := by
    rw [hqe]
    refine normalizePath_joinParts ?_ (fun p hp => hgoodps p (List.take_subset _ _ hp))
    intro hc
    have h0 : (ps.take j).length = 0 := by rw [hc]; rfl
    rw [List.length_take] at h0
    omega
  rw [VFS.existsPath,
    if_neg (by rw [validatePath_valid (hvalchain q hq)]; simp), hnormq, mapHas, hpid]
  rfl

end UIGen

namespace UIGen

theorem deserializeStep_spec {s : VFS} (hWF : VfsWF s) {k : Str}
    (hk : ∃ id, mapGet k s.files = some id) {t : VFS} (hpre : DesPre s t) :
    ∃ t1, t.deserializeStep s.serialize k = Res.ok t1 ∧ DesPre s t1 ∧
      obsExtends t t1 ∧ t1.obs k ≠ none := by
  rw [VFS.deserializeStep]
  by_cases hroot : k = ['/']
  · rw [if_pos hroot]
    refine ⟨t, rfl, hpre, obsExtends_refl t, ?_⟩
    obtain ⟨v, hobs, _⟩ := hpre.2.1
    rw [hroot, hobs]
    exact fun hc => Option.noConfusion hc
  · rw [if_neg hroot]
    obtain ⟨id, hid⟩ := hk
    have hser : mapGet k s.serialize = some (serNodeOf s id) := by
      rw [mapGet_serialize, hid, Option.map_some']
    rw [hser]
    dsimp only
    obtain ⟨hv, hlen, hcanon, hparentk, hcontk⟩ := hWF.2.2.2 _ (mapGet_mem hid) hroot
    dsimp only at hv hlen hcanon hparentk hcontk
    obtain ⟨ps, hsplit, hpsne, hgoodps, hkjoin⟩ := canonicalKey_spec hcanon
    have hnormk : normalizePath k = k := by
      rw [hkjoin]
      exact normalizePath_joinParts hpsne hgoodps
    have hvalk : validatePath k = Res.ok () := validatePath_ok hv hlen
    have hparts : (k.splitOn '/').filter (fun x => !x.isEmpty) = ps := by
      rw [hsplit, List.filter_cons, if_neg (by decide)]
      exact List.filter_eq_self.mpr (fun a ha => by
        have h2 := hgoodps a ha
        rw [goodPart, Bool.and_eq_true] at h2
        exact h2.1)
    rw [hparts]
    have hvalchain : ∀ q ∈ dirChainAux ([] : Str) ps, validatePath q = Res.ok () := by
      have hcv := chain_valid hv hlen
      rw [hnormk, createDirectoryPath, hnormk, hparts] at hcv
      exact hcv
    have hkindchain : ∀ q ∈ dirChainAux ([] : Str) ps,
        s.kindAt q = some NodeType.directory := by
      intro q hq
      have hshape := dirChain_shape ps [] q
      rw [joinParts_nil] at hshape
      obtain ⟨j, hj1, hj2, hqe⟩ := hshape hq
      rw [List.nil_append] at hqe
      rw [hqe]
      exact ancestors_dir_keys hWF ps.length ps le_rfl hgoodps
        ⟨id, by rw [← hkjoin]; exact hid⟩ j hj1 hj2
    have hjp : joinParts ([] : List Str) = ([] : Str) := joinParts_nil
    obtain ⟨t1, hrunChain, hpre1, hext1, hall⟩ :=
      ensureChain ps [] t hpre (by rw [List.nil_append]; exact hgoodps) (Or.inl rfl)
        (by rw [hjp]; exact fun q hq => ⟨hkindchain q hq, hvalchain q hq⟩)
    rw [hjp] at hrunChain hall
    rw [hrunChain]
    simp only [Res.ok_bind]
    rw [serNodeOf_type]
    cases hty : (s.node id).type with
    | file =>
      dsimp only
      have hcont : (serNodeOf s id).content.getD [] = (s.node id).content := by
        rw [serNodeOf_content_file hty]
        rfl
      rw [hcont]
      have hcvok : validateContent (s.node id).content = Res.ok () :=
        validateContent_ok (hcontk hty)
      cases hg : mapGet k t1.files with
      | some id2 =>
        rw [createFile_noop_present hvalk hcvok hnormk hg]
        simp only [Res.ok_bind, Res.pure_eq_ok]
        refine ⟨t1, rfl, hpre1, hext1, ?_⟩
        rw [VFS.obs, hg]
        exact fun hc => Option.noConfusion hc
      | none =>
        have hensid : t1.ensureParentDirectories k = Res.ok t1 := by
          rw [VFS.ensureParentDirectories, createDirectoryPath, hnormk, hparts]
          exact ensureParentAux_id (chain_exists hgoodps hvalchain hall)
        obtain ⟨pid, hpid, hpiddir⟩ := step_parent_dir hpre1 hpsne hgoodps hall
        rw [← hkjoin] at hpid
        obtain ⟨t2, hcf, hf2, hobsk, hframe⟩ :=
          createFile_success_effect hpre1.1 hvalk hcvok hnormk hg hensid hpid hpiddir
        rw [hcf]
        simp only [Res.ok_bind, Res.pure_eq_ok]
        refine ⟨t2, rfl, ?_, ?_, ?_⟩
        · refine ⟨hf2, ?_, ?_⟩
          · obtain ⟨v, hobs, hv1⟩ := hpre1.2.1
            exact ⟨v, by rw [hframe ['/'] (fun hc => hroot hc.symm)]; exact hobs, hv1⟩
          · intro pp v hvv
            by_cases hpp : pp = k
            · subst hpp
              rw [hobsk, Option.some.injEq] at hvv
              refine ⟨((s.node id).type, (s.node id).content), ?_, ?_, ?_⟩
              · rw [VFS.obs, hid, Option.map_some']
              · rw [← hvv, hty]
              · intro _
                rw [← hvv]
            · rw [hframe pp hpp] at hvv
              exact hpre1.2.2 pp v hvv
        · refine obsExtends_trans hext1 ?_
          intro pp
          by_cases hpp : pp = k
          · subst hpp
            right
            rw [VFS.obs, hg]
            rfl
          · left
            exact hframe pp hpp
        · rw [hobsk]
          exact fun hc => Option.noConfusion hc
    | directory =>
      dsimp only
      cases hg : mapGet k t1.files with
      | some id2 =>
        rw [createDirectory_noop_present hvalk hnormk hg]
        simp only [Res.ok_bind, Res.pure_eq_ok]
        refine ⟨t1, rfl, hpre1, hext1, ?_⟩
        rw [VFS.obs, hg]
        exact fun hc => Option.noConfusion hc
      | none =>
        obtain ⟨pid, hpid, hpiddir⟩ := step_parent_dir hpre1 hpsne hgoodps hall
        rw [← hkjoin] at hpid
        obtain ⟨t2, hcd, hf2, hobsk, hframe⟩ :=
          createDirectory_success_effect hpre1.1 hvalk hnormk hg hpid hpiddir
        rw [hcd]
        simp only [Res.ok_bind, Res.pure_eq_ok]
        refine ⟨t2, rfl, ?_, ?_, ?_⟩
        · refine ⟨hf2, ?_, ?_⟩
          · obtain ⟨v, hobs, hv1⟩ := hpre1.2.1
            exact ⟨v, by rw [hframe ['/'] (fun hc => hroot hc.symm)]; exact hobs, hv1⟩
          · intro pp v hvv
            by_cases hpp : pp = k
            · subst hpp
              rw [hobsk, Option.some.injEq] at hvv
              refine ⟨((s.node id).type, (s.node id).content), ?_, ?_, ?_⟩
              · rw [VFS.obs, hid, Option.map_some']
              · rw [← hvv, hty]
              · intro hfile
                rw [← hvv] at hfile
                exact absurd hfile (by decide)
            · rw [hframe pp hpp] at hvv
              exact hpre1.2.2 pp v hvv
        · refine obsExtends_trans hext1 ?_
          intro pp
          by_cases hpp : pp = k
          · subst hpp
            right
            rw [VFS.obs, hg]
            rfl
          · left
            exact hframe pp hpp
        · rw [hobsk]
          exact fun hc => Option.noConfusion hc

end UIGen

namespace UIGen

theorem deserializeFold_spec {s : VFS} (hWF : VfsWF s) :
    ∀ (L : List Str), (∀ k ∈ L, ∃ id, mapGet k s.files = some id) →
    ∀ t, DesPre s t →
    ∃ t2, t.deserializeFold s.serialize L = Res.ok t2 ∧ DesPre s t2 ∧
      obsExtends t t2 ∧ ∀ k ∈ L, t2.obs k ≠ none := by
  intro L
  induction L with
  | nil =>
    intro _ t hpre
    exact ⟨t, rfl, hpre, obsExtends_refl t, fun k hk => absurd hk (List.not_mem_nil k)⟩
  | cons k rest ih =>
    intro hkeys t hpre
    rw [VFS.deserializeFold]
    obtain ⟨t1, hstep, hpre1, hext1, hobs1⟩ :=
      deserializeStep_spec hWF (hkeys k (List.mem_cons_self _ _)) hpre
    rw [hstep]
    simp only [Res.ok_bind]
    obtain ⟨t2, hfold, hpre2, hext2, hobs2⟩ :=
      ih (fun q hq => hkeys q (List.mem_cons_of_mem _ hq)) t1 hpre1
    refine ⟨t2, hfold, hpre2, obsExtends_trans hext1 hext2, ?_⟩
    intro q hq
    rcases List.mem_cons.mp hq with h2 | h2
    · subst h2
      rcases hext2 q with h3 | h3
      · rw [h3]
        exact hobs1
      · exact absurd h3 hobs1
    · exact hobs2 q h2

theorem mem_insertSorted_of_mem {x p : Str} : ∀ {L : List Str},
    p = x ∨ p ∈ L → p ∈ insertSorted x L := by
  intro L
  induction L with
  | nil =>
    intro h
    rw [insertSorted]
    rcases h with h2 | h2
    · exact h2 ▸ List.mem_cons_self _ _
    · cases h2
  | cons y rest ih =>
    intro h
    rw [insertSorted]
    by_cases h2 : strLe x y
    · rw [if_pos h2]
      rcases h with h3 | h3
      · exact h3 ▸ List.mem_cons_self _ _
      · exact List.mem_cons_of_mem _ h3
    · rw [if_neg h2]
      rcases h with h3 | h3
      · exact List.mem_cons_of_mem _ (ih (Or.inl h3))
      · rcases List.mem_cons.mp h3 with h4 | h4
        · exact h4 ▸ List.mem_cons_self _ _
        · exact List.mem_cons_of_mem _ (ih (Or.inr h4))

theorem mem_sortStr_of_mem {p : Str} : ∀ {l : List Str}, p ∈ l → p ∈ sortStr l := by
  intro l
  induction l with
  | nil => intro h; cases h
  | cons x rest ih =>
    intro h
    rcases List.mem_cons.mp h with h2 | h2
    · exact mem_insertSorted_of_mem (Or.inl h2)
    · exact mem_insertSorted_of_mem (Or.inr (ih h2))

theorem deserializeFromNodes_unfold (s : VFS) (data : List (Str × SerNode)) :
    s.deserializeFromNodes data = VFS.deserializeFold
      { heap := mapSet s.root { s.node s.root with children := [] } s.heap,
        files := [(['/'], s.root)], root := s.root, nextId := s.nextId } data
      (sortStr (data.map Prod.fst)) := rfl

/-- **C5, amended.** On states whose index is canonically keyed — every
non-root key canonical and valid, its parent indexed as a directory,
file contents within bounds, ids fresh — `deserializeFromNodes` applied
to `serialize` succeeds and reproduces exactly the same set of index
paths with the same kind at every path and the same content for every
file. Reachable states violating canonical keying break this (see the
counterexample). -/
theorem serialize_roundtrip_of_wf (s : VFS) (hWF : VfsWF s) :
    ∃ t, s.deserializeFromNodes s.serialize = Res.ok t ∧
      ∀ p, t.kindAt p = s.kindAt p ∧ t.fileAt p = s.fileAt p := by
  obtain ⟨hfresh, hrootget, hrootdir, hrest⟩ := hWF
  have hrootheap : ∃ rn, mapGet s.root s.heap = some rn := by
    cases hmg : mapGet s.root s.heap with
    | none =>
      rw [VFS.node, hmg] at hrootdir
      exact absurd hrootdir (by decide)
    | some rn => exact ⟨rn, rfl⟩
  obtain ⟨rn, hrn⟩ := hrootheap
  have hrootlt : s.root < s.nextId := hfresh.2 _ (mapGet_mem hrn)
  have hpre0 : DesPre s
      { heap := mapSet s.root { s.node s.root with children := [] } s.heap,
        files := [(['/'], s.root)], root := s.root, nextId := s.nextId } := by
    refine ⟨⟨?_, ?_⟩, ?_, ?_⟩
    · intro e he
      rcases List.mem_cons.mp he with h2 | h2
      · rw [h2]
        exact hrootlt
      · cases h2
    · intro e he
      rcases mem_mapSet he with h2 | h2
      · exact hfresh.2 _ h2
      · rw [h2]
        exact hrootlt
    · refine ⟨((s.node s.root).type, (s.node s.root).content), ?_, hrootdir⟩
      rw [VFS.obs]
      rw [show mapGet ['/'] [(['/'], s.root)] = some s.root from by rw [mapGet, if_pos rfl]]
      rw [Option.map_some', Option.some.injEq]
      rw [show (VFS.node
          { heap := mapSet s.root { s.node s.root with children := [] } s.heap,
            files := [(['/'], s.root)], root := s.root, nextId := s.nextId } s.root)
          = { s.node s.root with children := [] } from by
        rw [VFS.node, mapGet_set_self, Option.getD_some]]
    · intro p v hv
      rw [VFS.obs] at hv
      rw [show mapGet p [(['/'], s.root)]
          = if ['/'] = p then some s.root else none from by rw [mapGet, mapGet]] at hv
      by_cases hp : ['/'] = p
      · rw [if_pos hp] at hv
        rw [Option.map_some', Option.some.injEq] at hv
        refine ⟨((s.node s.root).type, (s.node s.root).content), ?_, ?_, ?_⟩
        · rw [VFS.obs, ← hp, hrootget, Option.map_some']
        · rw [← hv]
          rw [show (VFS.node
              { heap := mapSet s.root { s.node s.root with children := [] } s.heap,
                files := [(['/'], s.root)], root := s.root, nextId := s.nextId } s.root)
              = { s.node s.root with children := [] } from by
            rw [VFS.node, mapGet_set_self, Option.getD_some]]
        · intro _
          rw [← hv]
          rw [show (VFS.node
              { heap := mapSet s.root { s.node s.root with children := [] } s.heap,
                files := [(['/'], s.root)], root := s.root, nextId := s.nextId } s.root)
              = { s.node s.root with children := [] } from by
            rw [VFS.node, mapGet_set_self, Option.getD_some]]
      · rw [if_neg hp] at hv
        exact Option.noConfusion hv
  have hWF2 : VfsWF s := ⟨hfresh, hrootget, hrootdir, hrest⟩
  have hLkeys : ∀ k ∈ sortStr (s.serialize.map Prod.fst),
      ∃ id, mapGet k s.files = some id := by
    intro k hk
    have hk2 := mem_sortStr hk
    obtain ⟨nd, hnd⟩ := mapGet_isSome_of_mem_keys hk2
    rw [mapGet_serialize] at hnd
    obtain ⟨id, hid, _⟩ := Option.map_eq_some'.mp hnd
    exact ⟨id, hid⟩
  obtain ⟨t, hfold, hpre2, _, hobs2⟩ :=
    deserializeFold_spec hWF2 (sortStr (s.serialize.map Prod.fst)) hLkeys _ hpre0
  refine ⟨t, by rw [deserializeFromNodes_unfold]; exact hfold, ?_⟩
  intro p
  cases hso : s.obs p with
  | none =>
    have htnone : t.obs p = none := by
      cases hto : t.obs p with
      | none => rfl
      | some w =>
        obtain ⟨v2, hv2, _, _⟩ := hpre2.2.2 p w hto
        rw [hso] at hv2
        exact Option.noConfusion hv2
    constructor
    · rw [kindAt_obs, kindAt_obs, hso, htnone]
    · rw [fileAt_obs, fileAt_obs, hso, htnone]
  | some v2 =>
    obtain ⟨id, hid, _, _⟩ := obs_some_elim hso
    have hkeymem : p ∈ s.serialize.map Prod.fst := by
      have hsget : mapGet p s.serialize = some (serNodeOf s id) := by
        rw [mapGet_serialize, hid, Option.map_some']
      exact List.mem_map_of_mem Prod.fst (mapGet_mem hsget)
    have htp := hobs2 p (mem_sortStr_of_mem hkeymem)
    cases hto : t.obs p with
    | none => exact absurd hto htp
    | some w =>
      obtain ⟨v2b, hv2b, hw1, hw2⟩ := hpre2.2.2 p w hto
      rw [hso, Option.some.injEq] at hv2b
      subst hv2b
      obtain ⟨w1, w2⟩ := w
      obtain ⟨v21, v22⟩ := v2
      dsimp only at hw1 hw2
      subst hw1
      constructor
      · rw [kindAt_obs, kindAt_obs, hso, hto]
        rfl
      · rw [fileAt_obs, fileAt_obs, hso, hto]
        cases w1 with
        | file =>
          rw [hw2 rfl]
        | directory => rfl

end UIGen

namespace UIGen

theorem serialize_roundtrip_of_wf_witness :
    VfsWF cFiveS1 ∧
      (∃ t, cFiveS1.deserializeFromNodes cFiveS1.serialize = Res.ok t ∧
        ∀ p, t.kindAt p = cFiveS1.kindAt p ∧ t.fileAt p = cFiveS1.fileAt p) :=
  ⟨by decide, serialize_roundtrip_of_wf cFiveS1 (by decide)⟩

end UIGen

namespace UIGen

/-! ### Claim C6: rename propagation to descendants -/

/-- Two creates whose second key normalizes to `"/dir/x.txt/"`: the
parent's children entry for the name `"x.txt"` is overwritten, leaving
the first file indexed but no longer linked in the tree. -/
def cSixOpsPre : List VfsOp :=
  [VfsOp.createFile (str "/dir/x.txt") (str "hi"),
   VfsOp.createFile (str "/dir/x.txt//") (str "yo")]

def cSixT1 : VFS :=
  { heap := [(0, { type := NodeType.directory, name := ['/'], path := ['/'],
                   children := [(str "dir", 1)] }),
             (1, { type := NodeType.directory, name := str "dir", path := str "/dir",
                   children := [(str "x.txt", 2)] }),
             (2, { type := NodeType.file, name := str "x.txt", path := str "/dir/x.txt",
                   content := str "hi" })],
    files := [(['/'], 0), (str "/dir", 1), (str "/dir/x.txt", 2)],
    root := 0, nextId := 3 }

def cSixT2 : VFS :=
  { heap := [(0, { type := NodeType.directory, name := ['/'], path := ['/'],
                   children := [(str "dir", 1)] }),
             (1, { type := NodeType.directory, name := str "dir", path := str "/dir",
                   children := [(str "x.txt", 3)] }),
             (2, { type := NodeType.file, name := str "x.txt", path := str "/dir/x.txt",
                   content := str "hi" }),
             (3, { type := NodeType.file, name := str "x.txt", path := str "/dir/x.txt/",
                   content := str "yo" })],
    files := [(['/'], 0), (str "/dir", 1), (str "/dir/x.txt", 2), (str "/dir/x.txt/", 3)],
    root := 0, nextId := 4 }

/-- The state `rename("/dir", "/dir2")` on `cSixT2` reaches right before
`updateChildrenPaths`. -/
def cSixT5 : VFS :=
  { heap := [(0, { type := NodeType.directory, name := ['/'], path := ['/'],
                   children := [(str "dir2", 1)] }),
             (1, { type := NodeType.directory, name := str "dir2", path := str "/dir2",
                   children := [(str "x.txt", 3)] }),
             (2, { type := NodeType.file, name := str "x.txt", path := str "/dir/x.txt",
                   content := str "hi" }),
             (3, { type := NodeType.file, name := str "x.txt", path := str "/dir/x.txt/",
                   content := str "yo" })],
    files := [(['/'], 0), (str "/dir/x.txt", 2), (str "/dir/x.txt/", 3), (str "/dir2", 1)],
    root := 0, nextId := 4 }

def cSixT : VFS :=
  { heap := [(0, { type := NodeType.directory, name := ['/'], path := ['/'],
                   children := [(str "dir2", 1)] }),
             (1, { type := NodeType.directory, name := str "dir2", path := str "/dir2",
                   children := [(str "x.txt", 3)] }),
             (2, { type := NodeType.file, name := str "x.txt", path := str "/dir/x.txt",
                   content := str "hi" }),
             (3, { type := NodeType.file, name := str "x.txt", path := str "/dir2/x.txt",
                   content := str "yo" })],
    files := [(['/'], 0), (str "/dir/x.txt", 2), (str "/dir2", 1), (str "/dir2/x.txt", 3)],
    root := 0, nextId := 4 }

theorem cSix_step1 :
    VFS.applyOp 10 freshVFS (VfsOp.createFile (str "/dir/x.txt") (str "hi"))
      = Res.ok cSixT1 := by decide

theorem cSix_step2 :
    VFS.applyOp 10 cSixT1 (VfsOp.createFile (str "/dir/x.txt//") (str "yo"))
      = Res.ok cSixT2 := by decide

theorem cSix_run2 : VFS.runOps 10 freshVFS cSixOpsPre = Res.ok cSixT2 := by
  rw [cSixOpsPre]
  simp only [VFS.runOps]
  rw [cSix_step1]
  simp only [Res.ok_bind]
  rw [cSix_step2]
  rfl

theorem cSix_renameBridge (f : Nat) :
    VFS.rename f cSixT2 (str "/dir") (str "/dir2")
      = (VFS.updateChildrenPaths f cSixT5 1 >>= fun s6 => Res.ok (true, s6)) := rfl

theorem cSix_ucp : VFS.updateChildrenPaths 10 cSixT5 1 = Res.ok cSixT := by decide

/-- **C6, counterexample.** A reachable state where `"/dir"` is a
directory and `"/dir/x.txt"` an indexed file: `rename("/dir", "/dir2")`
succeeds (returns `true`), `exists("/dir")` becomes `false` and
`exists("/dir2/x.txt")` `true`, yet the descendant stays indexed under
its old path — `exists("/dir/x.txt")` is still `true` afterwards,
because a second `createFile("/dir/x.txt//")` had overwritten the
parent's child entry, so `updateChildrenPaths` never visits the orphaned
node. -/
theorem rename_propagation_counterexample :
    VFS.runOps 10 freshVFS cSixOpsPre = Res.ok cSixT2 ∧
    cSixT2.existsPath (str "/dir") = true ∧
    cSixT2.getNodeAt (str "/dir") = some (cSixT2.node 1) ∧
    (cSixT2.node 1).type = NodeType.directory ∧
    cSixT2.existsPath (str "/dir/x.txt") = true ∧
    VFS.rename 10 cSixT2 (str "/dir") (str "/dir2") = Res.ok (true, cSixT) ∧
    cSixT.existsPath (str "/dir") = false ∧
    cSixT.existsPath (str "/dir2/x.txt") = true ∧
    cSixT.existsPath (str "/dir/x.txt") = true :=
  ⟨cSix_run2, by decide, by decide, by decide, by decide,
   by rw [cSix_renameBridge 10, cSix_ucp]; rfl, by decide, by decide, by decide⟩

end UIGen

namespace UIGen

/-- State after `createFile("/dir/sub/x.txt", c)` on a fresh system. -/
def cSixS1 (c : Str) : VFS :=
  { heap := [(0, { type := NodeType.directory, name := ['/'], path := ['/'],
                   children := [(str "dir", 1)] }),
             (1, { type := NodeType.directory, name := str "dir", path := str "/dir",
                   children := [(str "sub", 2)] }),
             (2, { type := NodeType.directory, name := str "sub", path := str "/dir/sub",
                   children := [(str "x.txt", 3)] }),
             (3, { type := NodeType.file, name := str "x.txt",
                   path := str "/dir/sub/x.txt", content := c })],
    files := [(['/'], 0), (str "/dir", 1), (str "/dir/sub", 2), (str "/dir/sub/x.txt", 3)],
    root := 0, nextId := 4 }

/-- The pre-`updateChildrenPaths` state of `rename("/dir", "/dir2")`. -/
def cSixS5 (c : Str) : VFS :=
  { heap := [(0, { type := NodeType.directory, name := ['/'], path := ['/'],
                   children := [(str "dir2", 1)] }),
             (1, { type := NodeType.directory, name := str "dir2", path := str "/dir2",
                   children := [(str "sub", 2)] }),
             (2, { type := NodeType.directory, name := str "sub", path := str "/dir/sub",
                   children := [(str "x.txt", 3)] }),
             (3, { type := NodeType.file, name := str "x.txt",
                   path := str "/dir/sub/x.txt", content := c })],
    files := [(['/'], 0), (str "/dir/sub", 2), (str "/dir/sub/x.txt", 3), (str "/dir2", 1)],
    root := 0, nextId := 4 }

/-- Final state: both descendants re-pathed transitively. -/
def cSixS2 (c : Str) : VFS :=
  { heap := [(0, { type := NodeType.directory, name := ['/'], path := ['/'],
                   children := [(str "dir2", 1)] }),
             (1, { type := NodeType.directory, name := str "dir2", path := str "/dir2",
                   children := [(str "sub", 2)] }),
             (2, { type := NodeType.directory, name := str "sub", path := str "/dir2/sub",
                   children := [(str "x.txt", 3)] }),
             (3, { type := NodeType.file, name := str "x.txt",
                   path := str "/dir2/sub/x.txt", content := c })],
    files := [(['/'], 0), (str "/dir2", 1), (str "/dir2/sub", 2), (str "/dir2/sub/x.txt", 3)],
    root := 0, nextId := 4 }

theorem cSix_create (f : Nat) (c : Str) (hc : validateContent c = Res.ok ()) :
    VFS.applyOp f freshVFS (VfsOp.createFile (str "/dir/sub/x.txt") c)
      = Res.ok (cSixS1 c) := by
  have h1 : freshVFS.createFile (str "/dir/sub/x.txt") c = Res.ok (some 3, cSixS1 c) := by
    rw [VFS.createFile,
      show validatePath (str "/dir/sub/x.txt") = Res.ok () from by decide, hc]
    rfl
  simp only [VFS.applyOp]
  rw [h1]
  rfl

theorem cSix_renameBridgeA (f : Nat) (c : Str) :
    VFS.rename f (cSixS1 c) (str "/dir") (str "/dir2")
      = (VFS.updateChildrenPaths f (cSixS5 c) 1 >>= fun s6 => Res.ok (true, s6)) := rfl

theorem cSix_ucpA (c : Str) :
    VFS.updateChildrenPaths 10 (cSixS5 c) 1 = Res.ok (cSixS2 c) := rfl

/-- **C6, amended.** The spec's rename-propagation property holds for
the canonical construction: creating `/dir/sub/x.txt` (any valid
content) on a fresh system and renaming `/dir` to `/dir2` succeeds,
`exists` reports every descendant under its new path — transitively
through the nested directory — no descendant remains under its old
path, and the file's content is readable at the new path. The fully
general claim over reachable states is refuted by the counterexample
(orphaned index entries escape `updateChildrenPaths`). -/
theorem rename_propagation_amended (c : Str) (hc : validateContent c = Res.ok ()) :
    VFS.runOps 10 freshVFS
        [VfsOp.createFile (str "/dir/sub/x.txt") c,
         VfsOp.rename (str "/dir") (str "/dir2")]
      = Res.ok (cSixS2 c) ∧
    (cSixS2 c).existsPath (str "/dir2/sub/x.txt") = true ∧
    (cSixS2 c).existsPath (str "/dir2/sub") = true ∧
    (cSixS2 c).existsPath (str "/dir") = false ∧
    (cSixS2 c).existsPath (str "/dir/sub") = false ∧
    (cSixS2 c).existsPath (str "/dir/sub/x.txt") = false ∧
    (cSixS2 c).readFile (str "/dir2/sub/x.txt") = Res.ok (some c) := by
  refine ⟨?_, rfl, rfl, rfl, rfl, rfl, ?_⟩
  · simp only [VFS.runOps]
    rw [cSix_create 10 c hc]
    simp only [Res.ok_bind, VFS.applyOp]
    rw [cSix_renameBridgeA 10 c, cSix_ucpA c]
    rfl
  · rw [VFS.readFile,
      show validatePath (str "/dir2/sub/x.txt") = Res.ok () from by decide]
    rfl

theorem rename_propagation_amended_witness :
    validateContent (str "hello") = Res.ok () ∧
      (VFS.runOps 10 freshVFS
          [VfsOp.createFile (str "/dir/sub/x.txt") (str "hello"),
           VfsOp.rename (str "/dir") (str "/dir2")]
        = Res.ok (cSixS2 (str "hello")) ∧
      (cSixS2 (str "hello")).existsPath (str "/dir2/sub/x.txt") = true ∧
      (cSixS2 (str "hello")).existsPath (str "/dir2/sub") = true ∧
      (cSixS2 (str "hello")).existsPath (str "/dir") = false ∧
      (cSixS2 (str "hello")).existsPath (str "/dir/sub") = false ∧
      (cSixS2 (str "hello")).existsPath (str "/dir/sub/x.txt") = false ∧
      (cSixS2 (str "hello")).readFile (str "/dir2/sub/x.txt") = Res.ok (some (str "hello"))) :=
  ⟨by decide, rename_propagation_amended (str "hello") (by decide)⟩

end UIGen

namespace UIGen

/-! ## A small backtracking regular-expression engine

JavaScript `RegExp` semantics for the patterns the pipeline uses:
ordered alternation, greedy quantifiers with backtracking, one capture
group, word boundaries, leftmost-first matching and `lastIndex`-style
global scanning. -/

inductive Rx
  | eps
  | chr (p : Char → Bool)
  | seq (a b : Rx)
  | alt (a b : Rx)
  | star (a : Rx)
  | grp (a : Rx)
  | bound
  | eos

/-- `\w` for the word-boundary assertion. -/
def isWordChar (c : Char) : Bool :=
  ('a' ≤ c && c ≤ 'z') || ('A' ≤ c && c ≤ 'Z') || ('0' ≤ c && c ≤ '9') || c = '_'

def optIsWord : Option Char → Bool
  | none => false
  | some c => isWordChar c

/-- The character preceding position `n` of `s`, given the character
`prev` preceding `s` itself. -/
def prevAt (prev : Option Char) (s : Str) (n : Nat) : Option Char :=
  if n = 0 then prev else (s.take n).getLast?

/-- Greedy iteration of a sub-matcher: try consuming iterations first
(longest first), then the empty match, never iterating on a zero-width
match. The fuel only decreases along consumed input. -/
def starLoop (ms : Option Char → Str → List (Nat × Option Str)) :
    Nat → Option Char → Str → List (Nat × Option Str)
  | 0, _, _ => [(0, none)]
  | fuel + 1, prev, s =>
    ((ms prev s).filter (fun e => e.1 ≠ 0)).flatMap (fun e =>
      (starLoop ms fuel (prevAt prev s e.1) (s.drop e.1)).map (fun e2 =>
        (e.1 + e2.1, e.2 <|> e2.2))) ++ [(0, none)]

/-- All ways the pattern can match a prefix of `s`, as pairs of consumed
length and capture, highest backtracking priority first. `prev` is the
character before `s` (for `\b`). -/
def rxMs : Rx → Option Char → Str → List (Nat × Option Str)
  | .eps, _, _ => [(0, none)]
  | .chr _, _, [] => []
  | .chr p, _, c :: _ => if p c then [(1, none)] else []
  | .seq a b, prev, s =>
    (rxMs a prev s).flatMap (fun e =>
      (rxMs b (prevAt prev s e.1) (s.drop e.1)).map (fun e2 =>
        (e.1 + e2.1, e.2 <|> e2.2)))
  | .alt a b, prev, s => rxMs a prev s ++ rxMs b prev s
  | .star a, prev, s => starLoop (rxMs a) (s.length + 1) prev s
  | .grp a, prev, s => (rxMs a prev s).map (fun e => (e.1, some (s.take e.1)))
  | .bound, prev, s =>
    if optIsWord prev ≠ optIsWord s.head? then [(0, none)] else []
  | .eos, _, s => if s.isEmpty then [(0, none)] else []

/-- The preferred match of the pattern at the very start of `s`. -/
def rxAt (r : Rx) (prev : Option Char) (s : Str) : Option (Nat × Option Str) :=
  (rxMs r prev s).head?

/-- `exec` from a given suffix: the leftmost match, returning its
offset, length and capture. -/
def rxExec (r : Rx) : Option Char → Str → Option (Nat × Nat × Option Str)
  | prev, s =>
    match rxAt r prev s with
    | some e => some (0, e.1, e.2)
    | none =>
      match s with
      | [] => none
      | c :: rest =>
        match rxExec r (some c) rest with
        | some e => some (e.1 + 1, e.2.1, e.2.2)
        | none => none

/-- `test`. -/
def rxTest (r : Rx) (s : Str) : Bool := (rxExec r none s).isSome

/-- The global `exec` loop: all non-overlapping leftmost matches with
their absolute start offsets. -/
def rxScanGo (r : Rx) : Nat → Nat → Option Char → Str → List (Nat × Nat × Option Str)
  | 0, _, _, _ => []
  | fuel + 1, base, prev, s =>
    match rxExec r prev s with
    | none => []
    | some (off, len, cap) =>
      (base + off, len, cap) ::
        rxScanGo r fuel (base + off + (if len = 0 then 1 else len))
          (prevAt prev s (off + (if len = 0 then 1 else len)))
          (s.drop (off + (if len = 0 then 1 else len)))

def rxScan (r : Rx) (s : Str) : List (Nat × Nat × Option Str) :=
  rxScanGo r (s.length + 1) 0 none s

/-- Rebuild a string from which every scanned match has been removed
(global `replace` with the empty replacement). -/
def rxStripGo (s : Str) : List (Nat × Nat × Option Str) → Nat → Str
  | [], pos => s.drop pos
  | (off, len, _) :: rest, pos =>
    (s.drop pos).take (off - pos) ++ rxStripGo s rest (off + len)

def rxReplaceAllEmpty (r : Rx) (s : Str) : Str :=
  rxStripGo s (rxScan r s) 0

/-- Non-global `replace` with the empty replacement. -/
def rxReplaceFirstEmpty (r : Rx) (s : Str) : Str :=
  match rxExec r none s with
  | none => s
  | some (off, len, _) => s.take off ++ s.drop (off + len)

/-! ### The concrete patterns -/

/-- A literal character. -/
def rlit (c : Char) : Rx := .chr (fun x => x = c)

/-- A case-insensitive literal character. -/
def rilit (c : Char) : Rx := .chr (fun x => x.toLower = c.toLower)

def rstr : Str → Rx
  | [] => .eps
  | [c] => rlit c
  | c :: rest => .seq (rlit c) (rstr rest)

def ristr : Str → Rx
  | [] => .eps
  | [c] => rilit c
  | c :: rest => .seq (rilit c) (ristr rest)

/-- `\s`. -/
def rws : Rx := .chr (fun c =>
  c = ' ' || c = '\t' || c = '\n' || c = '\x0d' || c = Char.ofNat 11 || c = Char.ofNat 12)

def rplus (a : Rx) : Rx := .seq a (.star a)

def ropt (a : Rx) : Rx := .alt a .eps

/-- `/import\s+(?:{[^}]+}|[^,\s]+)?\s*(?:,\s*{[^}]+})?\s+from\s+['"]([^'"]+)['"]/g` -/
def importRx : Rx :=
  .seq (rstr (str "import"))
    (.seq (rplus rws)
      (.seq (ropt (.alt
          (.seq (rlit '{') (.seq (rplus (.chr (fun c => c ≠ '}'))) (rlit '}')))
          (rplus (.chr (fun c =>
            !(c = ',' || c = ' ' || c = '\t' || c = '\n' || c = '\x0d' ||
              c = Char.ofNat 11 || c = Char.ofNat 12))))))
        (.seq (.star rws)
          (.seq (ropt (.seq (rlit ',')
              (.seq (.star rws)
                (.seq (rlit '{') (.seq (rplus (.chr (fun c => c ≠ '}'))) (rlit '}'))))))
            (.seq (rplus rws)
              (.seq (rstr (str "from"))
                (.seq (rplus rws)
                  (.seq (.chr (fun c => c = '\'' || c = '"'))
                    (.seq (.grp (rplus (.chr (fun c => !(c = '\'' || c = '"')))))
                      (.chr (fun c => c = '\'' || c = '"')))))))))))

/-- `/import\s+['"]([^'"]+\.css)['"]/g` -/
def cssImportRx : Rx :=
  .seq (rstr (str "import"))
    (.seq (rplus rws)
      (.seq (.chr (fun c => c = '\'' || c = '"'))
        (.seq (.grp (.seq (rplus (.chr (fun c => !(c = '\'' || c = '"'))))
            (rstr (str ".css"))))
          (.chr (fun c => c = '\'' || c = '"')))))

end UIGen

namespace UIGen

/-! ## The transform pipeline (`jsx-transformer` / `import-map-builder`)

`Babel.transform` and `URL.createObjectURL` are external effects: they
enter the embedding as the oracle parameters `babel` (returning the
emitted code or the caught error message) and `mkUrl` (the blob URL
minted for a given code string). -/

inductive BabelRes
  | ok (code : Str)
  | thrown (msg : Str)

structure TransformResult where
  code : Str
  error : Option Str := none
  missingImports : Option (List Str) := none
  cssImports : Option (List Str) := none

/-- JS `Set<string>.add`: deduplicating, insertion-ordered. -/
def setAdd (x : Str) (l : List Str) : List Str := if x ∈ l then l else l ++ [x]

/-- JS string truthiness of a record lookup (`undefined` and `""` are
falsy). -/
def strTruthy : Option Str → Bool
  | none => false
  | some s => !s.isEmpty

def strStarts : Str → Str → Bool
  | [], _ => true
  | _ :: _, [] => false
  | a :: as, b :: bs => a = b && strStarts as bs

def strEnds (suff s : Str) : Bool := strStarts suff.reverse s.reverse

/-- `String.replace("@/", rep)`: replaces the first occurrence only. -/
def stripAliasWith (rep : Str) : Str → Str
  | '@' :: '/' :: rest => rep ++ rest
  | c :: rest => c :: stripAliasWith rep rest
  | [] => []

/-- `transformJSX`: CSS-import detection and removal, import-specifier
collection (skipping `.css` specifiers), then the Babel transform; a
throw is caught into the `error` field. -/
def transformJSX (babel : Str → Str → BabelRes) (code filename : Str)
    (existingFiles : List Str) : TransformResult :=
  let cssImports := ((rxScan cssImportRx code).filterMap (fun m => m.2.2)).foldl
    (fun acc x => setAdd x acc) []
  let processedCode := rxReplaceAllEmpty cssImportRx code
  let imports := ((rxScan importRx code).filterMap (fun m => m.2.2)).foldl
    (fun acc sp => if strEnds (str ".css") sp then acc else setAdd sp acc) []
  match babel processedCode filename with
  | .ok out => { code := out, missingImports := some imports, cssImports := some cssImports }
  | .thrown msg => { code := [], error := some msg }

def allowedMimeTypes : List Str :=
  [str "application/javascript", str "text/javascript",
   str "application/json", str "text/css"]

/-- The `dangerousPatterns` list, each with its `source` text. -/
def dangerousPatterns : List (Rx × Str) :=
  [(.seq (ristr (str "<script")) (.seq (.star (.chr (fun c => c ≠ '>'))) (rlit '>')),
    str "<script[^>]*>"),
   (ristr (str "javascript:"), str "javascript:"),
   (ristr (str "data:"), str "data:"),
   (ristr (str "vbscript:"), str "vbscript:"),
   (.seq .bound (.seq (ristr (str "on"))
      (.seq (rplus (.chr (fun c => 'a' ≤ c.toLower && c.toLower ≤ 'z')))
        (.seq (.star rws) (rlit '=')))),
    str "\\bon[a-z]+\\s*="),
   (.seq (ristr (str "eval")) (.seq (.star rws) (rlit '(')), str "eval\\s*\\("),
   (.seq (ristr (str "new")) (.seq (rplus rws)
      (.seq (ristr (str "Function")) (.seq (.star rws) (rlit '(')))),
    str "new\\s+Function\\s*\\("),
   (.seq (ristr (str "setTimeout")) (.seq (.star rws) (rlit '(')), str "setTimeout\\s*\\("),
   (.seq (ristr (str "setInterval")) (.seq (.star rws) (rlit '(')), str "setInterval\\s*\\(")]

/-- `createBlobURL`: MIME allow-list, dangerous-pattern filter, then the
minting of a blob URL; `.error` models the throw. -/
def createBlobURL (mkUrl : Str → Str) (code mimeType : Str) : Except Str Str :=
  if ¬ mimeType ∈ allowedMimeTypes then
    .error (str "Unsafe MIME type: " ++ mimeType)
  else
    match dangerousPatterns.find? (fun pr => rxTest pr.1 code) with
    | some pr => .error (str "Code contains potentially dangerous patterns: " ++ pr.2)
    | none => .ok (mkUrl code)

def CDN_BASE : Str := str "https://esm.sh"

def DEFAULT_IMPORTS : List (Str × Str) :=
  [(str "react", str "https://esm.sh/react@19"),
   (str "react-dom", str "https://esm.sh/react-dom@19"),
   (str "react-dom/client", str "https://esm.sh/react-dom@19/client"),
   (str "react/jsx-runtime", str "https://esm.sh/react@19/jsx-runtime"),
   (str "react/jsx-dev-runtime", str "https://esm.sh/react@19/jsx-dev-runtime")]

structure Builder where
  imports : List (Str × Str)
  styles : Str
  errors : List (Str × Str)
  transformedFiles : List (Str × Str)
  allImports : List Str
  allCssImports : List (Str × Str)
deriving DecidableEq, Repr

def initBuilder : Builder :=
  { imports := DEFAULT_IMPORTS, styles := [], errors := [],
    transformedFiles := [], allImports := [], allCssImports := [] }

def isJavaScriptFile (path : Str) : Bool :=
  strEnds (str ".js") path || strEnds (str ".jsx") path ||
  strEnds (str ".ts") path || strEnds (str ".tsx") path

/-- `path.replace(/\.(jsx?|tsx?)$/, "")`. -/
def stripJsExt (p : Str) : Str :=
  if strEnds (str ".jsx") p then p.take (p.length - 4)
  else if strEnds (str ".tsx") p then p.take (p.length - 4)
  else if strEnds (str ".js") p then p.take (p.length - 3)
  else if strEnds (str ".ts") p then p.take (p.length - 3)
  else p

def startsWithSep : Str → Bool
  | '/' :: _ => true
  | _ => false

def addImportVariations (path blobUrl : Str) (m0 : List (Str × Str)) : List (Str × Str) :=
  let m1 := mapSet path blobUrl m0
  let m2 := if startsWithSep path then mapSet (path.drop 1) blobUrl m1 else m1
  let m3 := if startsWithSep path then
      mapSet (str "@/" ++ path.drop 1) blobUrl (mapSet ('@' :: path) blobUrl m2)
    else m2
  let pwe := stripJsExt path
  let m4 := mapSet pwe blobUrl m3
  if startsWithSep path then
    mapSet (str "@/" ++ pwe.drop 1) blobUrl
      (mapSet ('@' :: pwe) blobUrl (mapSet (pwe.drop 1) blobUrl m4))
  else m4

def isPackageSpecifier (imp : Str) : Bool :=
  !(strStarts (str ".") imp) && !(strStarts (str "/") imp) && !(strStarts (str "@/") imp)

def processJavaScriptFile (babel : Str → Str → BabelRes) (mkUrl : Str → Str)
    (existingFiles : List Str) (b : Builder) (path content : Str) : Builder :=
  let r := transformJSX babel content path existingFiles
  if strTruthy r.error then
    { b with errors := b.errors ++ [(path, r.error.getD [])] }
  else
    match createBlobURL mkUrl r.code (str "application/javascript") with
    | .error msg => { b with errors := b.errors ++ [(path, msg)] }
    | .ok blobUrl =>
      let b1 := { b with
        transformedFiles := mapSet path blobUrl b.transformedFiles,
        imports := addImportVariations path blobUrl b.imports }
      let b2 := match r.missingImports with
        | none => b1
        | some imps => imps.foldl (fun bb imp =>
            if isPackageSpecifier imp then
              { bb with imports := mapSet imp (CDN_BASE ++ '/' :: imp) bb.imports }
            else
              { bb with allImports := setAdd imp bb.allImports }) b1
      match r.cssImports with
      | none => b2
      | some csss =>
        { b2 with allCssImports := b2.allCssImports ++ csss.map (fun cp => (path, cp)) }

def processFiles (babel : Str → Str → BabelRes) (mkUrl : Str → Str)
    (files : List (Str × Str)) (b : Builder) : Builder :=
  files.foldl (fun bb e =>
    if isJavaScriptFile e.1 then
      processJavaScriptFile babel mkUrl (files.map Prod.fst) bb e.1 e.2
    else if strEnds (str ".css") e.1 then
      { bb with styles := bb.styles ++ str "/* " ++ e.1 ++ str " */\n" ++ e.2 ++ str "\n\n" }
    else bb) b

def lastSlashIdx (s : Str) : Option Nat :=
  match s.reverse.findIdx? (fun c => c = '/') with
  | none => none
  | some j => some (s.length - 1 - j)

def processCssImports (files : List (Str × Str)) (b : Builder) : Builder :=
  b.allCssImports.foldl (fun bb fc =>
    let resolvedPath :=
      if strStarts (str "@/") fc.2 then stripAliasWith ['/'] fc.2
      else if strStarts (str "./") fc.2 || strStarts (str "../") fc.2 then
        let fromDir := match lastSlashIdx fc.1 with
          | some i => fc.1.take i
          | none => []
        resolveRelativePath fromDir fc.2
      else fc.2
    if mapHas resolvedPath files then bb
    else { bb with styles := bb.styles ++ str "/* " ++ fc.2 ++ str " not found */\n" }) b

def placeholderVariations (importPath : Str) : List Str :=
  [importPath,
   importPath ++ str ".jsx",
   importPath ++ str ".tsx",
   importPath ++ str ".js",
   importPath ++ str ".ts",
   stripAliasWith ['/'] importPath,
   stripAliasWith ['/'] importPath ++ str ".jsx",
   stripAliasWith ['/'] importPath ++ str ".tsx"]

/-- The capture of `/\/([^\/]+)$/`. -/
def lastSegRx : Rx :=
  .seq (rlit '/') (.seq (.grp (rplus (.chr (fun c => c ≠ '/')))) .eos)

def componentNameOf (importPath : Str) : Str :=
  match rxExec lastSegRx none importPath with
  | some (_, _, some name) => name
  | _ => importPath.filter (fun c =>
      ('a' ≤ c && c ≤ 'z') || ('A' ≤ c && c ≤ 'Z') || ('0' ≤ c && c ≤ '9'))

def createPlaceholderModule (componentName : Str) : Str :=
  str "\nimport React from 'react';\nconst " ++ componentName ++
  str " = function() \x7b\n  return React.createElement('div', \x7b\x7d, null);\n\x7d\nexport default " ++
  componentName ++ str ";\nexport \x7b " ++ componentName ++ str " \x7d;\n"

/-- `createPlaceholderModules`: the loop over collected specifiers. The
`createBlobURL` call here is NOT wrapped in try/catch in the source, so
a throw aborts the whole build: `.error`. Alongside the updated builder
it returns the list of specifiers for which a placeholder was
synthesized. -/
def phStep (mkUrl : Str → Str) (files : List (Str × Str))
    (acc : Except Str (Builder × List Str)) (importPath : Str) :
    Except Str (Builder × List Str) :=
  match acc with
  | .error e => .error e
  | .ok (bb, phs) =>
    if strTruthy (mapGet importPath bb.imports) || strStarts (str "react") importPath then
      .ok (bb, phs)
    else if isPackageSpecifier importPath then
      .ok ({ bb with imports := mapSet importPath (CDN_BASE ++ '/' :: importPath) bb.imports },
        phs)
    else
      let found := (placeholderVariations importPath).any (fun v =>
        strTruthy (mapGet v bb.imports) || mapHas v files)
      if found then .ok (bb, phs)
      else
        match createBlobURL mkUrl (createPlaceholderModule (componentNameOf importPath))
            (str "application/javascript") with
        | .error msg => .error msg
        | .ok url =>
          let m1 := mapSet importPath url bb.imports
          let m2 := if strStarts (str "@/") importPath then
              mapSet (stripAliasWith [] importPath) url
                (mapSet (stripAliasWith ['/'] importPath) url m1)
            else m1
          .ok ({ bb with imports := m2 }, phs ++ [importPath])

def createPlaceholderModules (mkUrl : Str → Str) (files : List (Str × Str))
    (b : Builder) : Except Str (Builder × List Str) :=
  b.allImports.foldl (phStep mkUrl files) (.ok (b, []))

/-- `build` / `createImportMap` up to the final `JSON.stringify`: the
processing phases in order, with the uncaught placeholder-phase throw
surfacing as `.error`. -/
def buildState (babel : Str → Str → BabelRes) (mkUrl : Str → Str)
    (files : List (Str × Str)) : Except Str (Builder × List Str) :=
  createPlaceholderModules mkUrl files
    (processCssImports files (processFiles babel mkUrl files initBuilder))

end UIGen

namespace UIGen

/-! ### Claim C9: placeholder resilience for dangling imports -/

/-- A syntactically valid component importing the nonexistent local path
`./onclick`. -/
def cNineApp : Str :=
  str "import X from './onclick';\nexport default function App() \x7b return null; \x7d"

/-- The builder state after processing `/App.jsx` (blob URL `u`). -/
def cNineB1 (u : Str) : Builder :=
  { imports := DEFAULT_IMPORTS ++
      [(str "/App.jsx", u), (str "App.jsx", u), (str "@/App.jsx", u),
       (str "/App", u), (str "App", u), (str "@/App", u)],
    styles := [], errors := [],
    transformedFiles := [(str "/App.jsx", u)],
    allImports := [str "./onclick"],
    allCssImports := [] }

theorem cNine_transform (babel : Str → Str → BabelRes) (out : Str)
    (hb : babel (rxReplaceAllEmpty cssImportRx cNineApp) (str "/App.jsx") = BabelRes.ok out) :
    transformJSX babel cNineApp (str "/App.jsx") [str "/App.jsx"]
      = { code := out, missingImports := some [str "./onclick"], cssImports := some [] } := by
  simp only [transformJSX]
  rw [hb]
  rfl

theorem find_none_of_all_safe {out : Str}
    (hsafe : dangerousPatterns.all (fun pr => !rxTest pr.1 out) = true) :
    dangerousPatterns.find? (fun pr => rxTest pr.1 out) = none := by
  rw [List.find?_eq_none]
  intro x hx
  have h2 := List.all_eq_true.mp hsafe x hx
  rw [Bool.not_eq_true'] at h2
  rw [h2]
  exact Bool.false_ne_true

theorem blob_ok_of_safe (mkUrl : Str → Str) {out : Str}
    (hsafe : dangerousPatterns.all (fun pr => !rxTest pr.1 out) = true) :
    createBlobURL mkUrl out (str "application/javascript") = Except.ok (mkUrl out) := by
  rw [createBlobURL, if_neg (by decide), find_none_of_all_safe hsafe]

theorem cNine_processFile (babel : Str → Str → BabelRes) (mkUrl : Str → Str) (out : Str)
    (hb : babel (rxReplaceAllEmpty cssImportRx cNineApp) (str "/App.jsx") = BabelRes.ok out)
    (hsafe : dangerousPatterns.all (fun pr => !rxTest pr.1 out) = true) :
    processFiles babel mkUrl [(str "/App.jsx", cNineApp)] initBuilder
      = cNineB1 (mkUrl out) := by
  rw [show processFiles babel mkUrl [(str "/App.jsx", cNineApp)] initBuilder
      = processJavaScriptFile babel mkUrl [str "/App.jsx"] initBuilder (str "/App.jsx") cNineApp
    from rfl]
  unfold processJavaScriptFile
  rw [cNine_transform babel out hb]
  dsimp only
  rw [if_neg (by decide)]
  rw [blob_ok_of_safe mkUrl hsafe]
  rfl

set_option maxRecDepth 100000 in
/-- **C9.** The spec promises that a file importing a nonexistent local
path still builds with zero transform errors and a synthesized
placeholder module for the specifier. In the code, the placeholder path
is the one place where `createBlobURL` is *not* wrapped in try/catch,
and the synthesized stub `const <name> = function() ...` trips the
`\bon[a-z]+\s*=` dangerous-pattern filter whenever the imported file
name starts with `on`, so building `import X from './onclick'` throws
uncaught instead of producing a placeholder: the dangling import fails
the whole build. -/
theorem dangling_import_breaks_build (babel : Str → Str → BabelRes) (mkUrl : Str → Str)
    (out : Str)
    (hb : babel (rxReplaceAllEmpty cssImportRx cNineApp) (str "/App.jsx") = BabelRes.ok out)
    (hsafe : dangerousPatterns.all (fun pr => !rxTest pr.1 out) = true) :
    buildState babel mkUrl [(str "/App.jsx", cNineApp)]
      = Except.error (str "Code contains potentially dangerous patterns: \\bon[a-z]+\\s*=") := by
  unfold buildState
  rw [cNine_processFile babel mkUrl out hb hsafe]
  rfl

/-- An identity Babel oracle and a concrete URL minter, used to
instantiate the oracle-parameterized pipeline theorems. -/
def babelId : Str → Str → BabelRes := fun c _ => .ok c

def mkUrlLen : Str → Str := fun c => str "blob:u" ++ str (toString c.length)

theorem dangling_import_breaks_build_witness :
    babelId (rxReplaceAllEmpty cssImportRx cNineApp) (str "/App.jsx")
        = BabelRes.ok (rxReplaceAllEmpty cssImportRx cNineApp) ∧
    dangerousPatterns.all
        (fun pr => !rxTest pr.1 (rxReplaceAllEmpty cssImportRx cNineApp)) = true ∧
    buildState babelId mkUrlLen [(str "/App.jsx", cNineApp)]
      = Except.error (str "Code contains potentially dangerous patterns: \\bon[a-z]+\\s*=") :=
  ⟨rfl, by decide,
    dangling_import_breaks_build babelId mkUrlLen _ rfl (by decide)⟩

end UIGen

namespace UIGen

/-! ### Claim C4: transform errors versus syntax validity -/

/-- A syntactically valid module whose code contains `setTimeout(`. -/
def cFourCode : Str := str "export const t = setTimeout(tick, 100);"

theorem cFour_transform (babel : Str → Str → BabelRes) (out : Str)
    (hb : babel (rxReplaceAllEmpty cssImportRx cFourCode) (str "/timer.js") = BabelRes.ok out) :
    transformJSX babel cFourCode (str "/timer.js") [str "/timer.js"]
      = { code := out, missingImports := some [], cssImports := some [] } := by
  simp only [transformJSX]
  rw [hb]
  rfl

/-- **C4, counterexample.** A file whose source is syntactically valid
(the parser succeeds, the transform step reports no parse error) still
contributes an error entry: `processJavaScriptFile` pipes the emitted
code through `createBlobURL`, whose dangerous-pattern filter rejects any
occurrence of `setTimeout(`, and records that throw in the same error
list. Errors are not equivalent to invalid syntax, and their messages
are not parser messages. -/
theorem valid_syntax_error_recorded (babel : Str → Str → BabelRes) (mkUrl : Str → Str)
    (out : Str)
    (hb : babel (rxReplaceAllEmpty cssImportRx cFourCode) (str "/timer.js") = BabelRes.ok out)
    (hdanger : dangerousPatterns.any (fun pr => rxTest pr.1 out) = true) :
    (transformJSX babel cFourCode (str "/timer.js") [str "/timer.js"]).error = none ∧
    (processFiles babel mkUrl [(str "/timer.js", cFourCode)] initBuilder).errors ≠ [] := by
  refine ⟨by rw [cFour_transform babel out hb], ?_⟩
  rw [show processFiles babel mkUrl [(str "/timer.js", cFourCode)] initBuilder
      = processJavaScriptFile babel mkUrl [str "/timer.js"] initBuilder (str "/timer.js") cFourCode
    from rfl]
  unfold processJavaScriptFile
  rw [cFour_transform babel out hb]
  dsimp only
  rw [if_neg (by decide)]
  cases hf : dangerousPatterns.find? (fun pr => rxTest pr.1 out) with
  | none =>
    obtain ⟨x, hx, hpx⟩ := List.any_eq_true.mp hdanger
    have h2 := List.find?_eq_none.mp hf x hx
    exact absurd hpx h2
  | some pr =>
    rw [show createBlobURL mkUrl out (str "application/javascript")
        = Except.error (str "Code contains potentially dangerous patterns: " ++ pr.2) from by
      rw [createBlobURL, if_neg (by decide), hf]]
    simp

theorem valid_syntax_error_recorded_witness :
    babelId (rxReplaceAllEmpty cssImportRx cFourCode) (str "/timer.js")
        = BabelRes.ok (rxReplaceAllEmpty cssImportRx cFourCode) ∧
    dangerousPatterns.any
        (fun pr => rxTest pr.1 (rxReplaceAllEmpty cssImportRx cFourCode)) = true ∧
    ((transformJSX babelId cFourCode (str "/timer.js") [str "/timer.js"]).error = none ∧
      (processFiles babelId mkUrlLen [(str "/timer.js", cFourCode)] initBuilder).errors ≠ []) :=
  ⟨rfl, by decide, valid_syntax_error_recorded babelId mkUrlLen _ rfl (by decide)⟩

/-- The package-import collection pass never touches the error list. -/
theorem foldPkg_errors (imps : List Str) :
    ∀ b : Builder,
      (imps.foldl (fun bb imp =>
        if isPackageSpecifier imp then
          { bb with imports := mapSet imp (CDN_BASE ++ '/' :: imp) bb.imports }
        else
          { bb with allImports := setAdd imp bb.allImports }) b).errors = b.errors := by
  induction imps with
  | nil => intro b; rfl
  | cons imp rest ih =>
    intro b
    rw [List.foldl_cons]
    by_cases h : isPackageSpecifier imp = true
    · rw [if_pos h]
      exact ih _
    · rw [if_neg h]
      exact ih _

/-- **C4, amended.** The exact error discipline of the per-file step:
processing one JavaScript file records an error entry precisely when the
parser throws (then the entry carries the parser's message — unless the
thrown message is the empty string, which the code's truthiness test
silently swallows), or else when the *emitted* code matches one of the
blob-URL dangerous patterns (then the entry carries the filter's
message, not a parser message). Valid-syntax files with filter-clean
output contribute no entry. -/
theorem transform_error_characterization (babel : Str → Str → BabelRes) (mkUrl : Str → Str)
    (path content : Str) (hjs : isJavaScriptFile path = true) :
    (processFiles babel mkUrl [(path, content)] initBuilder).errors
      = match babel (rxReplaceAllEmpty cssImportRx content) path with
        | .thrown msg => if msg.isEmpty then [] else [(path, msg)]
        | .ok out =>
          match dangerousPatterns.find? (fun pr => rxTest pr.1 out) with
          | some pr => [(path, str "Code contains potentially dangerous patterns: " ++ pr.2)]
          | none => [] := by
  rw [processFiles, List.foldl_cons, List.foldl_nil]
  dsimp only
  rw [if_pos hjs]
  unfold processJavaScriptFile
  simp only [transformJSX]
  cases hbr : babel (rxReplaceAllEmpty cssImportRx content) path with
  | thrown msg =>
    dsimp only
    by_cases hm : msg.isEmpty
    · rw [if_pos hm]
      rw [show strTruthy (some msg) = false from by simp [strTruthy, hm]]
      rw [if_neg (by simp)]
      rw [show createBlobURL mkUrl [] (str "application/javascript")
          = Except.ok (mkUrl []) from by rw [createBlobURL, if_neg (by decide)]; rfl]
      rfl
    · rw [if_neg hm]
      have hm2 : msg.isEmpty = false := by
        rwa [Bool.not_eq_true] at hm
      rw [show strTruthy (some msg) = true from by simp [strTruthy, hm2]]
      rw [if_pos rfl]
      rfl
  | ok out =>
    dsimp only
    rw [if_neg (by decide)]
    cases hf : dangerousPatterns.find? (fun pr => rxTest pr.1 out) with
    | some pr =>
      rw [show createBlobURL mkUrl out (str "application/javascript")
          = Except.error (str "Code contains potentially dangerous patterns: " ++ pr.2) from by
        rw [createBlobURL, if_neg (by decide), hf]]
      rfl
    | none =>
      rw [show createBlobURL mkUrl out (str "application/javascript")
          = Except.ok (mkUrl out) from by
        rw [createBlobURL, if_neg (by decide), hf]]
      dsimp only
      rw [foldPkg_errors]
      rfl

theorem transform_error_characterization_witness :
    isJavaScriptFile (str "/a.jsx") = true ∧
    (processFiles (fun _ _ => BabelRes.thrown (str "Unexpected token (1:3)")) mkUrlLen
        [(str "/a.jsx", str "let = ;")] initBuilder).errors
      = match (fun (_ _ : Str) => BabelRes.thrown (str "Unexpected token (1:3)"))
            (rxReplaceAllEmpty cssImportRx (str "let = ;")) (str "/a.jsx") with
        | .thrown msg => if msg.isEmpty then [] else [(str "/a.jsx", msg)]
        | .ok out =>
          match dangerousPatterns.find? (fun pr => rxTest pr.1 out) with
          | some pr => [(str "/a.jsx", str "Code contains potentially dangerous patterns: " ++ pr.2)]
          | none => [] :=
  ⟨by decide,
    transform_error_characterization (fun _ _ => BabelRes.thrown (str "Unexpected token (1:3)"))
      mkUrlLen (str "/a.jsx") (str "let = ;") (by decide)⟩

end UIGen

namespace UIGen

/-! ### Claim C3: real files versus placeholder synthesis -/

def cThreeApp : Str := str "import B from './Button';\nexport default B;"

def cThreeBtn : Str := str "export default function Button() \x7b return null; \x7d"

def cThreeFiles : List (Str × Str) :=
  [(str "/App.jsx", cThreeApp), (str "/Button.jsx", cThreeBtn)]

/-- The builder after processing `/App.jsx` only. -/
def cThreeB1 (u1 : Str) : Builder :=
  { imports := DEFAULT_IMPORTS ++
      [(str "/App.jsx", u1), (str "App.jsx", u1), (str "@/App.jsx", u1),
       (str "/App", u1), (str "App", u1), (str "@/App", u1)],
    styles := [], errors := [],
    transformedFiles := [(str "/App.jsx", u1)],
    allImports := [str "./Button"],
    allCssImports := [] }

/-- The builder after processing both files. -/
def cThreeB2 (u1 u2 : Str) : Builder :=
  { imports := DEFAULT_IMPORTS ++
      [(str "/App.jsx", u1), (str "App.jsx", u1), (str "@/App.jsx", u1),
       (str "/App", u1), (str "App", u1), (str "@/App", u1),
       (str "/Button.jsx", u2), (str "Button.jsx", u2), (str "@/Button.jsx", u2),
       (str "/Button", u2), (str "Button", u2), (str "@/Button", u2)],
    styles := [], errors := [],
    transformedFiles := [(str "/App.jsx", u1), (str "/Button.jsx", u2)],
    allImports := [str "./Button"],
    allCssImports := [] }

/-- The final builder: the relative specifier got a placeholder. -/
def cThreeB3 (u1 u2 u3 : Str) : Builder :=
  { cThreeB2 u1 u2 with imports := (cThreeB2 u1 u2).imports ++ [(str "./Button", u3)] }

theorem cThree_t1 (babel : Str → Str → BabelRes) (out1 : Str)
    (hb1 : babel (rxReplaceAllEmpty cssImportRx cThreeApp) (str "/App.jsx") = BabelRes.ok out1) :
    transformJSX babel cThreeApp (str "/App.jsx") (cThreeFiles.map Prod.fst)
      = { code := out1, missingImports := some [str "./Button"], cssImports := some [] } := by
  simp only [transformJSX]
  rw [hb1]
  rfl

theorem cThree_t2 (babel : Str → Str → BabelRes) (out2 : Str)
    (hb2 : babel (rxReplaceAllEmpty cssImportRx cThreeBtn) (str "/Button.jsx") = BabelRes.ok out2) :
    transformJSX babel cThreeBtn (str "/Button.jsx") (cThreeFiles.map Prod.fst)
      = { code := out2, missingImports := some [], cssImports := some [] } := by
  simp only [transformJSX]
  rw [hb2]
  rfl

theorem cThree_pf (babel : Str → Str → BabelRes) (mkUrl : Str → Str) (out1 out2 : Str)
    (hb1 : babel (rxReplaceAllEmpty cssImportRx cThreeApp) (str "/App.jsx") = BabelRes.ok out1)
    (hb2 : babel (rxReplaceAllEmpty cssImportRx cThreeBtn) (str "/Button.jsx") = BabelRes.ok out2)
    (hs1 : dangerousPatterns.all (fun pr => !rxTest pr.1 out1) = true)
    (hs2 : dangerousPatterns.all (fun pr => !rxTest pr.1 out2) = true) :
    processFiles babel mkUrl cThreeFiles initBuilder = cThreeB2 (mkUrl out1) (mkUrl out2) := by
  rw [show processFiles babel mkUrl cThreeFiles initBuilder
      = processJavaScriptFile babel mkUrl (cThreeFiles.map Prod.fst)
          (processJavaScriptFile babel mkUrl (cThreeFiles.map Prod.fst) initBuilder
            (str "/App.jsx") cThreeApp)
          (str "/Button.jsx") cThreeBtn from rfl]
  rw [show processJavaScriptFile babel mkUrl (cThreeFiles.map Prod.fst) initBuilder
        (str "/App.jsx") cThreeApp = cThreeB1 (mkUrl out1) from by
    unfold processJavaScriptFile
    rw [cThree_t1 babel out1 hb1]
    dsimp only
    rw [if_neg (by decide)]
    rw [blob_ok_of_safe mkUrl hs1]
    rfl]
  unfold processJavaScriptFile
  rw [cThree_t2 babel out2 hb2]
  dsimp only
  rw [if_neg (by decide)]
  rw [blob_ok_of_safe mkUrl hs2]
  rfl

set_option maxRecDepth 100000 in
/-- **C3, counterexample.** `/Button.jsx` is a real local file and
`/App.jsx` imports it through the relative specifier `./Button` — which,
resolved against the importing file, denotes exactly that file. The
builder never resolves relative specifiers against the importer: none of
the checked variation forms matches, so a placeholder module is
synthesized for `./Button` and the import map sends the specifier to the
placeholder's blob URL instead of the real file's module. -/
theorem relative_specifier_gets_placeholder (babel : Str → Str → BabelRes)
    (mkUrl : Str → Str) (out1 out2 : Str)
    (hb1 : babel (rxReplaceAllEmpty cssImportRx cThreeApp) (str "/App.jsx") = BabelRes.ok out1)
    (hb2 : babel (rxReplaceAllEmpty cssImportRx cThreeBtn) (str "/Button.jsx") = BabelRes.ok out2)
    (hs1 : dangerousPatterns.all (fun pr => !rxTest pr.1 out1) = true)
    (hs2 : dangerousPatterns.all (fun pr => !rxTest pr.1 out2) = true) :
    buildState babel mkUrl cThreeFiles
      = Except.ok (cThreeB3 (mkUrl out1) (mkUrl out2)
          (mkUrl (createPlaceholderModule (str "Button"))), [str "./Button"]) ∧
    mapGet (str "./Button")
        (cThreeB3 (mkUrl out1) (mkUrl out2) (mkUrl (createPlaceholderModule (str "Button")))).imports
      = some (mkUrl (createPlaceholderModule (str "Button"))) ∧
    mapGet (str "/Button.jsx")
        (cThreeB3 (mkUrl out1) (mkUrl out2) (mkUrl (createPlaceholderModule (str "Button")))).imports
      = some (mkUrl out2) ∧
    (cThreeB3 (mkUrl out1) (mkUrl out2) (mkUrl (createPlaceholderModule (str "Button")))).errors
      = [] := by
  refine ⟨?_, rfl, rfl, rfl⟩
  unfold buildState
  rw [cThree_pf babel mkUrl out1 out2 hb1 hb2 hs1 hs2]
  rfl

theorem relative_specifier_gets_placeholder_witness :
    babelId (rxReplaceAllEmpty cssImportRx cThreeApp) (str "/App.jsx")
        = BabelRes.ok (rxReplaceAllEmpty cssImportRx cThreeApp) ∧
    babelId (rxReplaceAllEmpty cssImportRx cThreeBtn) (str "/Button.jsx")
        = BabelRes.ok (rxReplaceAllEmpty cssImportRx cThreeBtn) ∧
    dangerousPatterns.all
        (fun pr => !rxTest pr.1 (rxReplaceAllEmpty cssImportRx cThreeApp)) = true ∧
    dangerousPatterns.all
        (fun pr => !rxTest pr.1 (rxReplaceAllEmpty cssImportRx cThreeBtn)) = true ∧
    (buildState babelId mkUrlLen cThreeFiles
        = Except.ok (cThreeB3 (mkUrlLen (rxReplaceAllEmpty cssImportRx cThreeApp))
            (mkUrlLen (rxReplaceAllEmpty cssImportRx cThreeBtn))
            (mkUrlLen (createPlaceholderModule (str "Button"))), [str "./Button"]) ∧
      mapGet (str "./Button")
          (cThreeB3 (mkUrlLen (rxReplaceAllEmpty cssImportRx cThreeApp))
            (mkUrlLen (rxReplaceAllEmpty cssImportRx cThreeBtn))
            (mkUrlLen (createPlaceholderModule (str "Button")))).imports
        = some (mkUrlLen (createPlaceholderModule (str "Button"))) ∧
      mapGet (str "/Button.jsx")
          (cThreeB3 (mkUrlLen (rxReplaceAllEmpty cssImportRx cThreeApp))
            (mkUrlLen (rxReplaceAllEmpty cssImportRx cThreeBtn))
            (mkUrlLen (createPlaceholderModule (str "Button")))).imports
        = some (mkUrlLen (rxReplaceAllEmpty cssImportRx cThreeBtn)) ∧
      (cThreeB3 (mkUrlLen (rxReplaceAllEmpty cssImportRx cThreeApp))
          (mkUrlLen (rxReplaceAllEmpty cssImportRx cThreeBtn))
          (mkUrlLen (createPlaceholderModule (str "Button")))).errors = []) :=
  ⟨rfl, rfl, by decide, by decide,
    relative_specifier_gets_placeholder babelId mkUrlLen _ _ rfl rfl (by decide) (by decide)⟩

end UIGen

namespace UIGen

theorem stripAlias_of_starts {a : Str} (h : strStarts (str "@/") a = true) :
    ∃ rest, a = '@' :: '/' :: rest ∧ stripAliasWith [] a = rest ∧
      stripAliasWith ['/'] a = '/' :: rest := by
  match a with
  | [] => exact absurd h (by decide)
  | [c] =>
    exfalso
    simp only [str, strStarts, Bool.and_eq_true] at h
    exact absurd h.2 (by decide)
  | c1 :: c2 :: rest =>
    simp only [str, strStarts, Bool.and_eq_true, decide_eq_true_eq] at h
    obtain ⟨h1, h2, _⟩ := h
    subst h1
    subst h2
    exact ⟨rest, rfl, rfl, rfl⟩

set_option maxHeartbeats 4000000 in
theorem phFold_preserves (mkUrl : Str → Str) (files : List (Str × Str)) (imp u : Str)
    (hne : u ≠ []) :
    ∀ (L : List Str), (∀ a ∈ L, a ≠ str "@/" ++ imp) →
    ∀ (acc : Except Str (Builder × List Str)),
    (∀ b0 p0, acc = Except.ok (b0, p0) → mapGet imp b0.imports = some u ∧ imp ∉ p0) →
    ∀ bb phs, L.foldl (phStep mkUrl files) acc = Except.ok (bb, phs) →
      mapGet imp bb.imports = some u ∧ imp ∉ phs := by
  intro L
  induction L with
  | nil =>
    intro _ acc hInv bb phs hrun
    rw [List.foldl_nil] at hrun
    exact hInv bb phs hrun
  | cons a L2 ih =>
    intro hno acc hInv bb phs hrun
    rw [List.foldl_cons] at hrun
    refine ih (fun x hx => hno x (List.mem_cons_of_mem _ hx)) (phStep mkUrl files acc a)
      ?_ bb phs hrun
    intro b0 p0 hstep
    cases acc with
    | error e =>
      simp only [phStep] at hstep
      exact Except.noConfusion hstep
    | ok pr0 =>
      obtain ⟨b1, p1⟩ := pr0
      obtain ⟨hmap1, hph1⟩ := hInv b1 p1 rfl
      have htru : strTruthy (mapGet imp b1.imports) = true := by
        rw [hmap1, strTruthy, Bool.not_eq_true']
        cases u with
        | nil => exact absurd rfl hne
        | cons x xs => rfl
      simp only [phStep] at hstep
      by_cases hskip : (strTruthy (mapGet a b1.imports) || strStarts (str "react") a) = true
      · rw [if_pos hskip] at hstep
        rw [Except.ok.injEq, Prod.mk.injEq] at hstep
        exact ⟨hstep.1 ▸ hmap1, hstep.2 ▸ hph1⟩
      · rw [if_neg hskip] at hstep
        have hane : a ≠ imp := by
          intro hc
          subst hc
          rw [htru] at hskip
          exact hskip rfl
        by_cases hpkg : isPackageSpecifier a = true
        · rw [if_pos hpkg] at hstep
          rw [Except.ok.injEq, Prod.mk.injEq] at hstep
          obtain ⟨hb0, hp0⟩ := hstep
          refine ⟨?_, hp0 ▸ hph1⟩
          rw [← hb0]
          rw [show ({ b1 with
              imports := mapSet a (CDN_BASE ++ '/' :: a) b1.imports } : Builder).imports
            = mapSet a (CDN_BASE ++ '/' :: a) b1.imports from rfl]
          rw [mapGet_set_ne _ _ hane]
          exact hmap1
        · rw [if_neg hpkg] at hstep
          by_cases hfound : ((placeholderVariations a).any (fun v =>
              strTruthy (mapGet v b1.imports) || mapHas v files)) = true
          · rw [if_pos hfound] at hstep
            rw [Except.ok.injEq, Prod.mk.injEq] at hstep
            exact ⟨hstep.1 ▸ hmap1, hstep.2 ▸ hph1⟩
          · rw [if_neg hfound] at hstep
            cases hcb : createBlobURL mkUrl (createPlaceholderModule (componentNameOf a))
                (str "application/javascript") with
            | error msg =>
              rw [hcb] at hstep
              exact Except.noConfusion hstep
            | ok url =>
              rw [hcb] at hstep
              dsimp only at hstep
              rw [Except.ok.injEq, Prod.mk.injEq] at hstep
              obtain ⟨hb0, hp0⟩ := hstep
              constructor
              · rw [← hb0]
                by_cases hat : strStarts (str "@/") a = true
                · rw [if_pos hat]
                  obtain ⟨rest, harest, hstrip0, hstrip1⟩ := stripAlias_of_starts hat
                  have h1 : stripAliasWith [] a ≠ imp := by
                    intro hc
                    refine hno a (List.mem_cons_self _ _) ?_
                    rw [harest]
                    rw [hstrip0] at hc
                    rw [← hc]
                    rfl
                  have h2 : stripAliasWith ['/'] a ≠ imp := by
                    intro hc
                    have hfound2 : ((placeholderVariations a).any (fun v =>
                        strTruthy (mapGet v b1.imports) || mapHas v files)) = false := by
                      rwa [Bool.not_eq_true] at hfound
                    have hv := List.any_eq_false.mp hfound2 (stripAliasWith ['/'] a) (by
                      rw [placeholderVariations]
                      exact List.mem_cons_of_mem _ (List.mem_cons_of_mem _
                        (List.mem_cons_of_mem _ (List.mem_cons_of_mem _
                          (List.mem_cons_of_mem _ (List.mem_cons_self _ _))))))
                    rw [hc, htru] at hv
                    exact hv (by rfl)
                  rw [mapGet_set_ne _ _ h1, mapGet_set_ne _ _ h2, mapGet_set_ne _ _ hane]
                  exact hmap1
                · rw [if_neg hat]
                  rw [mapGet_set_ne _ _ hane]
                  exact hmap1
              · rw [← hp0]
                intro hc
                rcases List.mem_append.mp hc with h3 | h3
                · exact hph1 h3
                · rw [List.mem_singleton] at h3
                  exact hane h3.symm

/-- **C3, amended.** The tie-break policy as it actually holds: once a
specifier is indexed to a module URL when the placeholder phase starts
(as every variation key of a real transformed file is), the phase never
synthesizes a placeholder for it and its mapping survives unchanged —
provided no *other* collected specifier is literally `"@/" + specifier`
(whose placeholder write-back would clobber the entry, an edge the
variation check does not guard). Relative `./`-specifiers are never
indexed (see the counterexample), so the policy holds only for the
exact/extension-stripped/alias forms. -/
theorem placeholder_preserves_resolved (mkUrl : Str → Str) (files : List (Str × Str))
    (b : Builder) (imp u : Str)
    (hu : mapGet imp b.imports = some u) (hne : u ≠ [])
    (hno : ∀ a ∈ b.allImports, a ≠ str "@/" ++ imp) :
    ∀ bb phs, createPlaceholderModules mkUrl files b = Except.ok (bb, phs) →
      mapGet imp bb.imports = some u ∧ imp ∉ phs := by
  intro bb phs hrun
  rw [createPlaceholderModules] at hrun
  refine phFold_preserves mkUrl files imp u hne b.allImports hno (Except.ok (b, []))
    ?_ bb phs hrun
  intro b0 p0 h
  rw [Except.ok.injEq, Prod.mk.injEq] at h
  exact ⟨h.1 ▸ hu, h.2 ▸ List.not_mem_nil imp⟩

set_option maxRecDepth 100000 in
set_option maxHeartbeats 4000000 in
theorem placeholder_preserves_resolved_witness :
    mapGet (str "/Button") (cThreeB2 (str "u1") (str "u2")).imports = some (str "u2") ∧
    (str "u2") ≠ [] ∧
    (∀ a ∈ (cThreeB2 (str "u1") (str "u2")).allImports,
      a ≠ str "@/" ++ str "/Button") ∧
    (∀ bb phs, createPlaceholderModules mkUrlLen cThreeFiles
          (cThreeB2 (str "u1") (str "u2")) = Except.ok (bb, phs) →
      mapGet (str "/Button") bb.imports = some (str "u2") ∧ str "/Button" ∉ phs) :=
  ⟨by decide, by decide, by decide,
    placeholder_preserves_resolved mkUrlLen cThreeFiles (cThreeB2 (str "u1") (str "u2"))
      (str "/Button") (str "u2") (by decide) (by decide) (by decide)⟩

end UIGen

namespace UIGen

/-! ## `src/lib/transform/html-template.ts` (preview HTML generation)

The template strings are transcribed byte for byte from the source; the
`JSON.parse(importMap).imports[entryPoint]` lookup of `createPreviewHTML`
is abstracted as an oracle parameter `imports`, exactly as Babel is for
the transform step. -/

/-- `PreviewHTMLOptions`, after the destructuring defaults
(`styles = ""`, `errors = []`) have been applied. -/
structure PreviewHTMLOptions where
  entryPoint : Str
  importMap : Str
  styles : Str
  errors : List (Str × Str)

/-- Global single-character `replace`: every occurrence of the character
`c` is replaced by `rep`. -/
def replAllChar (c : Char) (rep : Str) : Str → Str
  | [] => []
  | a :: s => (if a = c then rep else [a]) ++ replAllChar c rep s

/-- `escapeHtml`: the source's chain of five global replaces, innermost
(`&`) first. -/
def escapeHtml (s : Str) : Str :=
  replAllChar '\'' (str "&#x27;")
    (replAllChar '"' (str "&quot;")
      (replAllChar '>' (str "&gt;")
        (replAllChar '<' (str "&lt;")
          (replAllChar '&' (str "&amp;") s))))

/-- `\d`. -/
def rdigit : Rx := .chr (fun c => '0' ≤ c && c ≤ '9')

/-- `/\((\d+:\d+)\)/` — the location extractor of `generateErrorDisplay`. -/
def locRx : Rx :=
  .seq (rlit '(')
    (.seq (.grp (.seq (rplus rdigit) (.seq (rlit ':') (rplus rdigit))))
      (rlit ')'))

/-- `/\(\d+:\d+\)/` — the pattern `cleanError` removes (no group). -/
def cleanRx : Rx :=
  .seq (rlit '(')
    (.seq (rplus rdigit) (.seq (rlit ':') (.seq (rplus rdigit) (rlit ')'))))

/-- `const location = locationMatch ? locationMatch[1] : ""`. -/
def locOf (e : Str) : Str :=
  match rxExec locRx none e with
  | some (_, _, some cap) => cap
  | _ => []

/-- The ASCII part of JavaScript `String.prototype.trim`'s whitespace set. -/
def jsWs (c : Char) : Bool :=
  c = ' ' || c = '\t' || c = '\n' || c = '\x0d' || c = Char.ofNat 11 || c = Char.ofNat 12

/-- `.trim()`. -/
def jsTrim (s : Str) : Str :=
  ((s.dropWhile jsWs).reverse.dropWhile jsWs).reverse

/-- `const cleanError = e.error.replace(/\(\d+:\d+\)/, "").trim()`. -/
def cleanErrOf (e : Str) : Str := jsTrim (rxReplaceFirstEmpty cleanRx e)

/-- A decimal digit character. -/
def digitChar (n : Nat) : Char := Char.ofNat (48 + n)

/-- Decimal rendering of a `Nat` (fuel-structural). -/
def natStrAux : Nat → Nat → Str
  | 0, _ => []
  | fuel + 1, n =>
    if n < 10 then [digitChar n]
    else natStrAux fuel (n / 10) ++ [digitChar (n % 10)]

/-- `${errors.length}`: the decimal rendering interpolated into the
template. -/
def natStr (n : Nat) : Str := natStrAux (n + 1) n

/-- The static segments of one error item's template. -/
def errI0 : Str := str "\n      <div class=\"error-item\">\n        <div class=\"error-path\">\n          "

def errI1 : Str := str "\n          "

def errI2 : Str := str "\n        </div>\n        <div class=\"error-message\">"

def errI3 : Str := str "</div>\n      </div>\n    "

/-- The location tag around an extracted `line:column`. -/
def spanO : Str := str "<span class=\"error-location\">"

def spanC : Str := str "</span>"

/-- One entry of `errors.map(e => ...)` inside `generateErrorDisplay`. -/
def errItem (e : Str × Str) : Str :=
  let location := locOf e.2
  let cleanError := cleanErrOf e.2
  errI0 ++ escapeHtml e.1 ++ errI1
    ++ (if location ≠ [] then spanO ++ escapeHtml location ++ spanC else [])
    ++ errI2 ++ escapeHtml cleanError ++ errI3

/-- The static segments of `generateErrorDisplay`'s outer template. -/
def errD0 : Str := str "\n    <div class=\"syntax-errors\">\n      <h3>\n        <svg width=\"20\" height=\"20\" viewBox=\"0 0 20 20\" fill=\"none\" style=\"flex-shrink: 0;\">\n          <path d=\"M10 0C4.48 0 0 4.48 0 10s4.48 10 10 10 10-4.48 10-10S15.52 0 10 0zm1 15h-2v-2h2v2zm0-4h-2V5h2v6z\" fill=\"#dc2626\"/>\n        </svg>\n        Syntax Error"

def errD1 : Str := str " ("

def errD2 : Str := str ")\n      </h3>\n      "

def errD3 : Str := str "\n    </div>\n  "

/-- `generateErrorDisplay`. -/
def generateErrorDisplay (errors : List (Str × Str)) : Str :=
  if errors.length = 0 then []
  else
    let errorItems := (errors.map errItem).flatten
    errD0 ++ (if 1 < errors.length then str "s" else []) ++ errD1
      ++ natStr errors.length ++ errD2 ++ errorItems ++ errD3

/-- A hexadecimal digit character (lower case, as `JSON.stringify` prints
control escapes). -/
def hexChar (n : Nat) : Char :=
  if n < 10 then Char.ofNat (48 + n) else Char.ofNat (87 + n)

/-- How `JSON.stringify` escapes one character of a string. -/
def jsonEscChar (c : Char) : Str :=
  if c = '"' then str "\\\""
  else if c = '\\' then str "\\\\"
  else if c = '\x08' then str "\\b"
  else if c = '\x0c' then str "\\f"
  else if c = '\n' then str "\\n"
  else if c = '\x0d' then str "\\r"
  else if c = '\t' then str "\\t"
  else if c.toNat < 32 then
    str "\\u00" ++ [hexChar (c.toNat / 16), hexChar (c.toNat % 16)]
  else [c]

/-- `JSON.stringify` of a string value. -/
def jsonQuote (s : Str) : Str :=
  '"' :: ((s.map jsonEscChar).flatten ++ ['"'])

/-- The five static segments of `generateAppScript`'s template, in
order, around the interpolations `entryPointUrl` (three times),
`entryPoint` and `JSON.stringify(importMap)`. -/
def appA0 : Str := str "\n    <script type=\"module\">\n      import React from 'react';\n      import ReactDOM from 'react-dom/client';\n      \n      class ErrorBoundary extends React.Component \x7b\n        constructor(props) \x7b\n          super(props);\n          this.state = \x7b hasError: false, error: null \x7d;\n        \x7d\n\n        static getDerivedStateFromError(error) \x7b\n          return \x7b hasError: true, error \x7d;\n        \x7d\n\n        componentDidCatch(error, errorInfo) \x7b\n          console.error('Error caught by boundary:', error, errorInfo);\n        \x7d\n\n        render() \x7b\n          if (this.state.hasError) \x7b\n            return React.createElement('div', \x7b className: 'error-boundary' \x7d,\n              React.createElement('h2', null, 'Something went wrong'),\n              React.createElement('pre', null, this.state.error?.toString())\n            );\n          \x7d\n\n          return this.props.children;\n        \x7d\n      \x7d\n\n      async function loadApp() \x7b\n        try \x7b\n          if (!('"

def appA1 : Str := str "'.startsWith('blob:') || '"

def appA2 : Str := str "'.startsWith('https://esm.sh/'))) \x7b\n            throw new Error('Invalid entry point URL: Only blob URLs and esm.sh URLs are allowed');\n          \x7d\n          \n          const module = await import('"

def appA3 : Str := str "');\n          const App = module.default || module.App;\n          \n          if (!App) \x7b\n            throw new Error('No default export or App export found in "

def appA4 : Str := str "');\n          \x7d\n\n          const root = ReactDOM.createRoot(document.getElementById('root'));\n          root.render(\n            React.createElement(ErrorBoundary, null,\n              React.createElement(App)\n            )\n          );\n        \x7d catch (error) \x7b\n          console.error('Failed to load app:', error);\n          console.error('Import map:', "

def appA5 : Str := str ");\n          \n          const rootElement = document.getElementById('root');\n          if (rootElement) \x7b\n            rootElement.textContent = '';\n            \n            const errorDiv = document.createElement('div');\n            errorDiv.className = 'error-boundary';\n            \n            const heading = document.createElement('h2');\n            heading.textContent = 'Failed to load app';\n            \n            const pre = document.createElement('pre');\n            pre.textContent = error.toString();\n            \n            errorDiv.appendChild(heading);\n            errorDiv.appendChild(pre);\n            rootElement.appendChild(errorDiv);\n          \x7d\n        \x7d\n      \x7d\n\n      loadApp();\n    </script>\n  "

/-- `generateAppScript`. -/
def generateAppScript (entryPointUrl entryPoint importMap : Str) : Str :=
  appA0 ++ entryPointUrl ++ appA1 ++ entryPointUrl ++ appA2 ++ entryPointUrl
    ++ appA3 ++ entryPoint ++ appA4 ++ jsonQuote importMap ++ appA5

/-- `BASE_STYLES`. -/
def BASE_STYLES : Str := str "\n  body \x7b\n    margin: 0;\n    padding: 0;\n    font-family: -apple-system, BlinkMacSystemFont, 'Segoe UI', Roboto, sans-serif;\n  \x7d\n  #root \x7b\n    width: 100vw;\n    height: 100vh;\n  \x7d\n  .error-boundary \x7b\n    color: red;\n    padding: 1rem;\n    border: 2px solid red;\n    margin: 1rem;\n    border-radius: 4px;\n    background: #fee;\n  \x7d\n  .syntax-errors \x7b\n    background: #fef5f5;\n    border: 2px solid #ff6b6b;\n    border-radius: 12px;\n    padding: 32px;\n    margin: 24px;\n    font-family: 'SF Mono', Monaco, Consolas, 'Courier New', monospace;\n    font-size: 14px;\n    box-shadow: 0 4px 6px rgba(0, 0, 0, 0.1);\n  \x7d\n  .syntax-errors h3 \x7b\n    color: #dc2626;\n    margin: 0 0 20px 0;\n    font-size: 18px;\n    font-weight: 600;\n    display: flex;\n    align-items: center;\n    gap: 8px;\n  \x7d\n  .syntax-errors .error-item \x7b\n    margin: 16px 0;\n    padding: 16px;\n    background: #fff;\n    border-radius: 8px;\n    border-left: 4px solid #ff6b6b;\n    box-shadow: 0 2px 4px rgba(0, 0, 0, 0.05);\n  \x7d\n  .syntax-errors .error-path \x7b\n    font-weight: 600;\n    color: #991b1b;\n    font-size: 15px;\n    margin-bottom: 8px;\n  \x7d\n  .syntax-errors .error-message \x7b\n    color: #7c2d12;\n    margin-top: 8px;\n    white-space: pre-wrap;\n    line-height: 1.5;\n    font-size: 13px;\n  \x7d\n  .syntax-errors .error-location \x7b\n    display: inline-block;\n    background: #fee0e0;\n    padding: 2px 6px;\n    border-radius: 4px;\n    font-size: 12px;\n    margin-left: 8px;\n    color: #991b1b;\n  \x7d\n"

/-- The entry-point URL resolution at the top of `createPreviewHTML`:
`entryPointUrl` starts as `entryPoint` and is replaced by
`importMapObj.imports[entryPoint]` when the parse succeeds and that
value is truthy; `imports` is the JSON-parse oracle (`none` models both
a parse failure and a missing key). -/
def entryUrlOf (imports : Str → Str → Option Str) (importMap entryPoint : Str) : Str :=
  match imports importMap entryPoint with
  | some u => if u ≠ [] then u else entryPoint
  | none => entryPoint

/-- The user `<style>` block's tags. -/
def styleO : Str := str "<style>\n"

def styleC : Str := str "</style>"

/-- The six static segments of `createPreviewHTML`'s template. -/
def prevH0 : Str := str "<!DOCTYPE html>\n<html lang=\"en\">\n<head>\n  <meta charset=\"UTF-8\">\n  <meta name=\"viewport\" content=\"width=device-width, initial-scale=1.0\">\n  <title>Preview</title>\n  <script src=\"https://cdn.tailwindcss.com\"></script>\n  <style>\n    "

def prevH1 : Str := str "\n  </style>\n  "

def prevH2 : Str := str "\n  <script type=\"importmap\">\n    "

def prevH3 : Str := str "\n  </script>\n</head>\n<body>\n  "

def prevH4 : Str := str "\n  <div id=\"root\"></div>\n  "

def prevH5 : Str := str "\n</body>\n</html>"

/-- `createPreviewHTML`. -/
def createPreviewHTML (imports : Str → Str → Option Str)
    (o : PreviewHTMLOptions) : Str :=
  let entryPointUrl := entryUrlOf imports o.importMap o.entryPoint
  let hasErrors : Bool := decide (0 < o.errors.length)
  prevH0 ++ BASE_STYLES ++ prevH1
    ++ (if o.styles ≠ [] then styleO ++ o.styles ++ styleC else [])
    ++ prevH2 ++ o.importMap ++ prevH3
    ++ (if hasErrors then generateErrorDisplay o.errors else [])
    ++ prevH4
    ++ (if !hasErrors then
          generateAppScript entryPointUrl o.entryPoint o.importMap
        else [])
    ++ prevH5

/-- The opening tag of the bootstrap module script. -/
def scriptMarker : Str := str "<script type=\"module\""

/-- The opening tag of the error report. -/
def errMarker : Str := str "<div class=\"syntax-errors\""

/-! ### Substring occurrence: executable checks and decomposition -/

/-- Executable prefix test. -/
def isPre : Str → Str → Bool
  | [], _ => true
  | _ :: _, [] => false
  | a :: m, b :: s => if a = b then isPre m s else false

/-- Executable substring (infix) test. -/
def isSub (m : Str) : Str → Bool
  | [] => isPre m []
  | b :: t => isPre m (b :: t) || isSub m t

/-- Executable suffix test. -/
def isSuf (m s : Str) : Bool := isPre m.reverse s.reverse

theorem isPre_iff : ∀ {m s : Str}, isPre m s = true ↔ m <+: s := by
  intro m
  induction m with
  | nil =>
    intro s
    refine ⟨fun _ => ⟨s, rfl⟩, fun _ => ?_⟩
    simp [isPre]
  | cons a m ih =>
    intro s
    cases s with
    | nil =>
      simp only [isPre]
      constructor
      · intro h; simp at h
      · rintro ⟨t, ht⟩; simp at ht
    | cons b s =>
      simp only [isPre]
      by_cases hab : a = b
      · subst hab
        rw [if_pos rfl]
        constructor
        · intro h
          obtain ⟨t, ht⟩ := (ih (s := s)).mp h
          exact ⟨t, by rw [List.cons_append, ht]⟩
        · rintro ⟨t, ht⟩
          rw [List.cons_append] at ht
          injection ht with _ h2
          exact (ih (s := s)).mpr ⟨t, h2⟩
      · rw [if_neg hab]
        constructor
        · intro h; simp at h
        · rintro ⟨t, ht⟩
          rw [List.cons_append] at ht
          injection ht with h1 _
          exact absurd h1 hab

theorem isSub_iff : ∀ {m s : Str}, isSub m s = true ↔ m <:+: s := by
  intro m s
  induction s with
  | nil =>
    simp only [isSub]
    rw [isPre_iff]
    constructor
    · rintro ⟨t, ht⟩; exact ⟨[], t, by rw [List.nil_append, ht]⟩
    · rintro ⟨u, v, huv⟩
      rcases List.append_eq_nil.mp huv with ⟨hu, hv⟩
      rcases List.append_eq_nil.mp hu with ⟨_, hm⟩
      subst hm; exact ⟨[], rfl⟩
  | cons b t ih =>
    simp only [isSub, Bool.or_eq_true]
    rw [isPre_iff, ih]
    constructor
    · rintro (h | h)
      · obtain ⟨u, hu⟩ := h
        exact ⟨[], u, by rw [List.nil_append, hu]⟩
      · obtain ⟨u, v, huv⟩ := h
        exact ⟨b :: u, v, by rw [← huv]; rfl⟩
    · rintro ⟨u, v, huv⟩
      cases u with
      | nil => left; exact ⟨v, by simpa using huv⟩
      | cons u0 u =>
        right
        rw [List.cons_append, List.cons_append] at huv
        injection huv with _ h2
        exact ⟨u, v, h2⟩

theorem isSuf_iff {m s : Str} : isSuf m s = true ↔ m <:+ s := by
  rw [isSuf, isPre_iff]
  constructor
  · rintro ⟨t, ht⟩
    refine ⟨t.reverse, ?_⟩
    have h2 := congrArg List.reverse ht
    simpa [List.reverse_append] using h2
  · rintro ⟨u, hu⟩
    refine ⟨u.reverse, ?_⟩
    rw [← hu, List.reverse_append]

/-- A prefix of `X ++ Y` is a prefix of `X` or is `X` extended by a
prefix of `Y`. -/
theorem preSplit {p X Y : Str} (h : p <+: X ++ Y) :
    p <+: X ∨ ∃ q, p = X ++ q ∧ q <+: Y := by
  obtain ⟨t, ht⟩ := h
  have hp : p = (X ++ Y).take p.length := by
    rw [← ht, List.take_left]
  by_cases hl : p.length ≤ X.length
  · left
    rw [List.take_append_eq_append_take, Nat.sub_eq_zero_of_le hl,
      List.take_zero, List.append_nil] at hp
    rw [hp]
    exact ⟨X.drop p.length, List.take_append_drop _ _⟩
  · right
    push_neg at hl
    rw [List.take_append_eq_append_take, List.take_of_length_le (le_of_lt hl)] at hp
    exact ⟨Y.take (p.length - X.length), hp, Y.drop _, List.take_append_drop _ _⟩

/-- An infix of `X ++ Y` lies in `X`, lies in `Y`, or crosses the
boundary: a nonempty suffix of `X` followed by a nonempty prefix of `Y`. -/
theorem appendSplit {m X Y : Str} (h : m <:+: X ++ Y) :
    m <:+: X ∨ m <:+: Y ∨
      ∃ p q, p ++ q = m ∧ p ≠ [] ∧ q ≠ [] ∧ p <:+ X ∧ q <+: Y := by
  obtain ⟨u, v, huv⟩ := h
  have hu : u <+: X ++ Y := ⟨m ++ v, by rw [← huv]; simp [List.append_assoc]⟩
  rcases preSplit hu with hux | ⟨q, hq, hqY⟩
  · obtain ⟨w, hw⟩ := hux
    have hmv : m ++ v = w ++ Y := by
      have h1 : u ++ (m ++ v) = u ++ (w ++ Y) := by
        rw [← List.append_assoc, huv, ← List.append_assoc, hw]
      exact List.append_cancel_left h1
    have hm : m <+: w ++ Y := ⟨v, hmv⟩
    rcases preSplit hm with hmw | ⟨r, hr, hrY⟩
    · left
      obtain ⟨z, hz⟩ := hmw
      exact ⟨u, z, by rw [← hw, ← hz]; simp [List.append_assoc]⟩
    · by_cases hw0 : w = []
      · subst hw0
        rw [List.nil_append] at hr
        right; left
        obtain ⟨z, hz⟩ := hrY
        exact ⟨[], z, by rw [List.nil_append, hr, hz]⟩
      · by_cases hr0 : r = []
        · left
          rw [hr0, List.append_nil] at hr
          subst hr
          exact ⟨u, [], by rw [List.append_nil, hw]⟩
        · right; right
          exact ⟨w, r, hr.symm, hw0, hr0, ⟨u, hw⟩, hrY⟩
  · right; left
    have h1 : X ++ (q ++ (m ++ v)) = X ++ Y := by
      rw [← List.append_assoc, ← hq]
      rw [← huv]; simp [List.append_assoc]
    have h2 := List.append_cancel_left h1
    exact ⟨q, v, by rw [← h2]; simp [List.append_assoc]⟩

/-- Transitivity of the substring relation. -/
theorem infixTrans {a b c : Str} (h1 : a <:+: b) (h2 : b <:+: c) : a <:+: c := by
  obtain ⟨u, v, huv⟩ := h1
  obtain ⟨s, t, hst⟩ := h2
  exact ⟨s ++ u, v ++ t, by rw [← hst, ← huv]; simp [List.append_assoc]⟩

/-- A member of a list of strings is a substring of its concatenation. -/
theorem subOfMemFlatten {l : Str} : ∀ {L : List Str}, l ∈ L → l <:+: L.flatten := by
  intro L
  induction L with
  | nil => intro h; simp at h
  | cons a L ih =>
    intro h
    rcases List.mem_cons.mp h with h | h
    · subst h
      exact ⟨[], L.flatten, by rw [List.nil_append]; rfl⟩
    · obtain ⟨u, v, huv⟩ := ih h
      refine ⟨a ++ u, v, ?_⟩
      show (a ++ u) ++ l ++ v = a ++ L.flatten
      rw [← huv]
      simp [List.append_assoc]

/-! ### Occurrence exclusion by segments

`SegCond m S` says the marker `m` neither occurs inside `S` nor starts
inside `S` (no nonempty proper prefix of `m` is a suffix of `S`). It is
closed under concatenation, so a marker is excluded from a document by
excluding it from each segment. -/

def SegCond (m S : Str) : Prop :=
  ¬ m <:+: S ∧ ∀ k, 0 < k → k < m.length → ¬ (m.take k <:+ S)

theorem SegCond_nil {m : Str} (hm : m ≠ []) : SegCond m [] := by
  constructor
  · rintro ⟨u, v, huv⟩
    rcases List.append_eq_nil.mp huv with ⟨hu, _⟩
    rcases List.append_eq_nil.mp hu with ⟨_, h2⟩
    exact hm h2
  · intro k hk hkm
    rintro ⟨u, hu⟩
    rcases List.append_eq_nil.mp hu with ⟨_, h2⟩
    have h3 := congrArg List.length h2
    rw [List.length_take] at h3
    simp only [List.length_nil] at h3
    omega

theorem SegCond_append {m A B : Str} (hA : SegCond m A) (hB : SegCond m B) :
    SegCond m (A ++ B) := by
  constructor
  · intro h
    rcases appendSplit h with h1 | h2 | ⟨p, q, hpq, hp0, hq0, hpA, hqB⟩
    · exact hA.1 h1
    · exact hB.1 h2
    · have hpl : p.length < m.length := by
        rw [← hpq, List.length_append]
        have hq1 : 0 < q.length := List.length_pos.mpr hq0
        omega
      have hptake : m.take p.length = p := by rw [← hpq, List.take_left]
      refine hA.2 p.length (List.length_pos.mpr hp0) hpl ?_
      rw [hptake]
      exact hpA
  · intro k hk hkm hsuf
    obtain ⟨u, hu⟩ := hsuf
    have hrev : (m.take k).reverse <+: B.reverse ++ A.reverse := by
      refine ⟨u.reverse, ?_⟩
      have h2 := congrArg List.reverse hu
      simpa [List.reverse_append] using h2
    rcases preSplit hrev with h1 | ⟨r, hr, hrA⟩
    · have h2 : m.take k <:+ B := by
        obtain ⟨t, ht⟩ := h1
        refine ⟨t.reverse, ?_⟩
        have h3 := congrArg List.reverse ht
        simpa [List.reverse_append] using h3
      exact hB.2 k hk hkm h2
    · have hq : m.take k = r.reverse ++ B := by
        have h2 := congrArg List.reverse hr
        simpa [List.reverse_append] using h2
      by_cases hr0 : r = []
      · subst hr0
        rw [List.reverse_nil, List.nil_append] at hq
        exact hB.2 k hk hkm ⟨[], by rw [List.nil_append, hq]⟩
      · have hrA2 : r.reverse <:+ A := by
          obtain ⟨t, ht⟩ := hrA
          refine ⟨t.reverse, ?_⟩
          have h3 := congrArg List.reverse ht
          simpa [List.reverse_append] using h3
        have hlen : r.length ≤ k := by
          have h2 := congrArg List.length hq
          rw [List.length_take, List.length_append, List.length_reverse] at h2
          omega
        have htk : m.take r.length = r.reverse := by
          have h1 : (m.take k).take r.reverse.length = r.reverse := by
            rw [hq, List.take_left]
          rw [List.take_take, List.length_reverse, min_eq_left hlen] at h1
          exact h1
        refine hA.2 r.length (by simpa [List.length_pos] using hr0)
          (lt_of_le_of_lt hlen hkm) ?_
        rw [htk]
        exact hrA2

theorem SegCond_flatten {m : Str} (hm : m ≠ []) :
    ∀ {L : List Str}, (∀ x ∈ L, SegCond m x) → SegCond m L.flatten := by
  intro L
  induction L with
  | nil => intro _; exact SegCond_nil hm
  | cons a L ih =>
    intro h
    show SegCond m (a ++ L.flatten)
    exact SegCond_append (h a (by simp)) (ih fun x hx => h x (by simp [hx]))

/-- A marker that starts with a character absent from `D` cannot occur
in `D` or start inside it. -/
theorem segCond_dyn {m D : Str} {c : Char} {r : Str} (hm : m = c :: r)
    (hD : c ∉ D) : SegCond m D := by
  constructor
  · rintro ⟨u, v, huv⟩
    apply hD
    rw [← huv]
    subst hm
    simp
  · intro k hk hkm
    rintro ⟨u, hu⟩
    apply hD
    rw [← hu]
    subst hm
    cases k with
    | zero => omega
    | succ k =>
      rw [List.take_succ_cons]
      simp

/-- Executable check of `SegCond` for concrete marker and segment. -/
def segOk (m S : Str) : Bool :=
  !(isSub m S) &&
    (List.range m.length).all (fun k => decide (k = 0) || !(isSuf (m.take k) S))

theorem segOk_spec {m S : Str} (h : segOk m S = true) : SegCond m S := by
  rw [segOk, Bool.and_eq_true] at h
  obtain ⟨h1, h2⟩ := h
  rw [Bool.not_eq_true'] at h1
  constructor
  · intro hin
    have ht := isSub_iff.mpr hin
    rw [h1] at ht
    exact Bool.false_ne_true ht
  · intro k hk hkm hsuf
    have hmem : k ∈ List.range m.length := List.mem_range.mpr hkm
    have h3 := (List.all_eq_true.mp h2) k hmem
    simp only [Bool.or_eq_true] at h3
    rcases h3 with h4 | h4
    · exact absurd (of_decide_eq_true h4) (by omega)
    · rw [Bool.not_eq_true'] at h4
      have ht := isSuf_iff.mpr hsuf
      rw [h4] at ht
      exact Bool.false_ne_true ht

/-! ### The dynamic interpolations contain no `<` -/

theorem replAllChar_not_mem_self {c : Char} {rep : Str} (hrep : c ∉ rep) :
    ∀ s : Str, c ∉ replAllChar c rep s := by
  intro s
  induction s with
  | nil => simp [replAllChar]
  | cons a s ih =>
    rw [replAllChar]
    intro hmem
    rcases List.mem_append.mp hmem with h | h
    · by_cases hac : a = c
      · rw [if_pos hac] at h; exact hrep h
      · rw [if_neg hac] at h
        exact hac (List.mem_singleton.mp h).symm
    · exact ih h

theorem replAllChar_not_mem {x c : Char} {rep : Str} (hrep : x ∉ rep) :
    ∀ s : Str, x ∉ s → x ∉ replAllChar c rep s := by
  intro s
  induction s with
  | nil => intro _; simp [replAllChar]
  | cons a s ih =>
    intro hs
    rw [replAllChar]
    intro hmem
    rcases List.mem_append.mp hmem with h | h
    · by_cases hac : a = c
      · rw [if_pos hac] at h; exact hrep h
      · rw [if_neg hac] at h
        exact hs ((List.mem_singleton.mp h) ▸ List.mem_cons_self a s)
    · exact ih (fun h2 => hs (List.mem_cons_of_mem a h2)) h

/-- `escapeHtml` output never contains a literal `<`. -/
theorem escapeHtml_no_lt (s : Str) : '<' ∉ escapeHtml s := by
  rw [escapeHtml]
  apply replAllChar_not_mem (by decide)
  apply replAllChar_not_mem (by decide)
  apply replAllChar_not_mem (by decide)
  exact replAllChar_not_mem_self (by decide) _

theorem digitChar_ne_lt : ∀ n, n < 10 → digitChar n ≠ '<' := by decide

theorem hexChar_ne_lt : ∀ n, n < 16 → hexChar n ≠ '<' := by decide

theorem natStrAux_no_lt : ∀ fuel n, '<' ∉ natStrAux fuel n := by
  intro fuel
  induction fuel with
  | zero => intro n; simp [natStrAux]
  | succ fuel ih =>
    intro n
    rw [natStrAux]
    by_cases h : n < 10
    · rw [if_pos h]
      intro hmem
      exact digitChar_ne_lt n h (List.mem_singleton.mp hmem).symm
    · rw [if_neg h]
      intro hmem
      rcases List.mem_append.mp hmem with h1 | h1
      · exact ih (n / 10) h1
      · exact digitChar_ne_lt (n % 10) (Nat.mod_lt n (by omega))
          (List.mem_singleton.mp h1).symm

theorem natStr_no_lt (n : Nat) : '<' ∉ natStr n := natStrAux_no_lt _ _

theorem jsonEscChar_no_lt {c : Char} (hc : c ≠ '<') : '<' ∉ jsonEscChar c := by
  rw [jsonEscChar]
  split_ifs with h1 h2 h3 h4 h5 h6 h7 h8
  · decide
  · decide
  · decide
  · decide
  · decide
  · decide
  · decide
  · intro hmem
    rcases List.mem_append.mp hmem with h | h
    · revert h; decide
    · rcases List.mem_cons.mp h with h | h
      · exact hexChar_ne_lt _ ((Nat.div_lt_iff_lt_mul (by norm_num)).mpr (by omega)) h.symm
      · rcases List.mem_cons.mp h with h | h
        · exact hexChar_ne_lt _ (Nat.mod_lt _ (by norm_num)) h.symm
        · simp at h
  · intro hmem
    exact hc (List.mem_singleton.mp hmem).symm

theorem jsonQuote_no_lt {s : Str} (hs : '<' ∉ s) : '<' ∉ jsonQuote s := by
  rw [jsonQuote]
  intro hmem
  rcases List.mem_cons.mp hmem with h | h
  · exact absurd h (by decide)
  · rcases List.mem_append.mp h with h | h
    · rcases List.mem_flatten.mp h with ⟨l, hl, hmem2⟩
      rcases List.mem_map.mp hl with ⟨c, hcs, rfl⟩
      exact jsonEscChar_no_lt (fun heq => hs (heq ▸ hcs)) hmem2
    · simp at h

/-! ### The markers, and the static segments cleared of them -/

theorem sm_head : scriptMarker = '<' :: str "script type=\"module\"" := by decide

theorem em_head : errMarker = '<' :: str "div class=\"syntax-errors\"" := by decide

set_option maxRecDepth 100000 in
theorem scSM_prevH0 : SegCond scriptMarker prevH0 := segOk_spec (by decide)

set_option maxRecDepth 100000 in
set_option maxHeartbeats 1000000 in
theorem scSM_base : SegCond scriptMarker BASE_STYLES := segOk_spec (by decide)

theorem scSM_prevH1 : SegCond scriptMarker prevH1 := segOk_spec (by decide)

theorem scSM_styleO : SegCond scriptMarker styleO := segOk_spec (by decide)

theorem scSM_styleC : SegCond scriptMarker styleC := segOk_spec (by decide)

theorem scSM_prevH2 : SegCond scriptMarker prevH2 := segOk_spec (by decide)

theorem scSM_prevH3 : SegCond scriptMarker prevH3 := segOk_spec (by decide)

set_option maxRecDepth 100000 in
theorem scSM_errD0 : SegCond scriptMarker errD0 := segOk_spec (by decide)

theorem scSM_s : SegCond scriptMarker (str "s") := segOk_spec (by decide)

theorem scSM_errD1 : SegCond scriptMarker errD1 := segOk_spec (by decide)

theorem scSM_errD2 : SegCond scriptMarker errD2 := segOk_spec (by decide)

theorem scSM_errD3 : SegCond scriptMarker errD3 := segOk_spec (by decide)

theorem scSM_errI0 : SegCond scriptMarker errI0 := segOk_spec (by decide)

theorem scSM_errI1 : SegCond scriptMarker errI1 := segOk_spec (by decide)

theorem scSM_errI2 : SegCond scriptMarker errI2 := segOk_spec (by decide)

theorem scSM_errI3 : SegCond scriptMarker errI3 := segOk_spec (by decide)

theorem scSM_spanO : SegCond scriptMarker spanO := segOk_spec (by decide)

theorem scSM_spanC : SegCond scriptMarker spanC := segOk_spec (by decide)

theorem scSM_prevH4 : SegCond scriptMarker prevH4 := segOk_spec (by decide)

theorem scSM_prevH5 : SegCond scriptMarker prevH5 := segOk_spec (by decide)

set_option maxRecDepth 100000 in
theorem scEM_prevH0 : SegCond errMarker prevH0 := segOk_spec (by decide)

set_option maxRecDepth 100000 in
set_option maxHeartbeats 1000000 in
theorem scEM_base : SegCond errMarker BASE_STYLES := segOk_spec (by decide)

theorem scEM_prevH1 : SegCond errMarker prevH1 := segOk_spec (by decide)

theorem scEM_styleO : SegCond errMarker styleO := segOk_spec (by decide)

theorem scEM_styleC : SegCond errMarker styleC := segOk_spec (by decide)

theorem scEM_prevH2 : SegCond errMarker prevH2 := segOk_spec (by decide)

theorem scEM_prevH3 : SegCond errMarker prevH3 := segOk_spec (by decide)

theorem scEM_prevH4 : SegCond errMarker prevH4 := segOk_spec (by decide)

theorem scEM_prevH5 : SegCond errMarker prevH5 := segOk_spec (by decide)

set_option maxRecDepth 100000 in
set_option maxHeartbeats 2000000 in
theorem scEM_appA0 : SegCond errMarker appA0 := segOk_spec (by decide)

theorem scEM_appA1 : SegCond errMarker appA1 := segOk_spec (by decide)

set_option maxRecDepth 100000 in
theorem scEM_appA2 : SegCond errMarker appA2 := segOk_spec (by decide)

set_option maxRecDepth 100000 in
theorem scEM_appA3 : SegCond errMarker appA3 := segOk_spec (by decide)

set_option maxRecDepth 100000 in
theorem scEM_appA4 : SegCond errMarker appA4 := segOk_spec (by decide)

set_option maxRecDepth 100000 in
set_option maxHeartbeats 2000000 in
theorem scEM_appA5 : SegCond errMarker appA5 := segOk_spec (by decide)

theorem scSM_dyn {D : Str} (h : '<' ∉ D) : SegCond scriptMarker D :=
  segCond_dyn sm_head h

theorem scEM_dyn {D : Str} (h : '<' ∉ D) : SegCond errMarker D :=
  segCond_dyn em_head h

theorem scSM_errItem (e : Str × Str) : SegCond scriptMarker (errItem e) := by
  simp only [errItem]
  refine SegCond_append (SegCond_append (SegCond_append (SegCond_append
    (SegCond_append (SegCond_append scSM_errI0 (scSM_dyn (escapeHtml_no_lt _)))
      scSM_errI1) ?_) scSM_errI2) (scSM_dyn (escapeHtml_no_lt _))) scSM_errI3
  by_cases hl : locOf e.2 ≠ []
  · rw [if_pos hl]
    exact SegCond_append (SegCond_append scSM_spanO (scSM_dyn (escapeHtml_no_lt _)))
      scSM_spanC
  · rw [if_neg hl]
    exact SegCond_nil (by decide)

theorem scSM_errDisplay (errors : List (Str × Str)) :
    SegCond scriptMarker (generateErrorDisplay errors) := by
  simp only [generateErrorDisplay]
  by_cases h : errors.length = 0
  · rw [if_pos h]
    exact SegCond_nil (by decide)
  · rw [if_neg h]
    refine SegCond_append (SegCond_append (SegCond_append (SegCond_append
      (SegCond_append (SegCond_append scSM_errD0 ?_) scSM_errD1)
        (scSM_dyn (natStr_no_lt _))) scSM_errD2) ?_) scSM_errD3
    · by_cases h1 : 1 < errors.length
      · rw [if_pos h1]; exact scSM_s
      · rw [if_neg h1]; exact SegCond_nil (by decide)
    · refine SegCond_flatten (by decide) ?_
      intro x hx
      rcases List.mem_map.mp hx with ⟨e, _, rfl⟩
      exact scSM_errItem e

theorem createPreviewHTML_shape_err (imports : Str → Str → Option Str)
    (o : PreviewHTMLOptions) (he : o.errors ≠ []) :
    createPreviewHTML imports o =
      prevH0 ++ BASE_STYLES ++ prevH1
        ++ (if o.styles ≠ [] then styleO ++ o.styles ++ styleC else [])
        ++ prevH2 ++ o.importMap ++ prevH3
        ++ generateErrorDisplay o.errors ++ prevH4 ++ prevH5 := by
  have hz : 0 < o.errors.length := List.length_pos.mpr he
  simp [createPreviewHTML, decide_eq_true hz, List.append_assoc]

theorem createPreviewHTML_shape_app (imports : Str → Str → Option Str)
    (o : PreviewHTMLOptions) (he : o.errors = []) :
    createPreviewHTML imports o =
      prevH0 ++ BASE_STYLES ++ prevH1
        ++ (if o.styles ≠ [] then styleO ++ o.styles ++ styleC else [])
        ++ prevH2 ++ o.importMap ++ prevH3 ++ prevH4
        ++ generateAppScript (entryUrlOf imports o.importMap o.entryPoint)
            o.entryPoint o.importMap
        ++ prevH5 := by
  simp [createPreviewHTML, he, List.append_assoc]

/-- **C2.** Error precedence of the preview document: when the per-file
transform-error list is non-empty, `createPreviewHTML` renders the
structured, HTML-escaped error report (each file path, each cleaned
message, and the extracted `line:column` tag when present) and contains
no `<script type="module">` bootstrap script anywhere; when the list is
empty, it renders the bootstrap script and no `syntax-errors` report.
The side conditions say the interpolated strings (user styles, the
import-map JSON, the entry point and its resolved URL) contain no
literal `<`, which every pipeline-produced value satisfies; the escaped
error paths and messages need no such hypothesis. -/
theorem preview_error_precedence (imports : Str → Str → Option Str)
    (o : PreviewHTMLOptions)
    (hstyles : '<' ∉ o.styles) (hmap : '<' ∉ o.importMap)
    (hentry : '<' ∉ o.entryPoint)
    (hurl : '<' ∉ entryUrlOf imports o.importMap o.entryPoint) :
    (o.errors ≠ [] →
      isSub (generateErrorDisplay o.errors) (createPreviewHTML imports o) = true ∧
      (∀ e ∈ o.errors,
        isSub (escapeHtml e.1) (createPreviewHTML imports o) = true ∧
        isSub (escapeHtml (cleanErrOf e.2)) (createPreviewHTML imports o) = true ∧
        (locOf e.2 ≠ [] →
          isSub (spanO ++ escapeHtml (locOf e.2) ++ spanC)
            (createPreviewHTML imports o) = true)) ∧
      isSub scriptMarker (createPreviewHTML imports o) = false) ∧
    (o.errors = [] →
      isSub (generateAppScript (entryUrlOf imports o.importMap o.entryPoint)
          o.entryPoint o.importMap) (createPreviewHTML imports o) = true ∧
      isSub errMarker (createPreviewHTML imports o) = false) := by
  constructor
  · intro he
    have hshape := createPreviewHTML_shape_err imports o he
    have hsb : SegCond scriptMarker
        (if o.styles ≠ [] then styleO ++ o.styles ++ styleC else []) := by
      by_cases hs : o.styles ≠ []
      · rw [if_pos hs]
        exact SegCond_append (SegCond_append scSM_styleO (scSM_dyn hstyles)) scSM_styleC
      · rw [if_neg hs]
        exact SegCond_nil (by decide)
    have hdocSC : SegCond scriptMarker (createPreviewHTML imports o) := by
      rw [hshape]
      exact SegCond_append (SegCond_append (SegCond_append (SegCond_append
        (SegCond_append (SegCond_append (SegCond_append (SegCond_append
          (SegCond_append scSM_prevH0 scSM_base) scSM_prevH1) hsb) scSM_prevH2)
            (scSM_dyn hmap)) scSM_prevH3) (scSM_errDisplay o.errors)) scSM_prevH4)
        scSM_prevH5
    have hED : generateErrorDisplay o.errors <:+: createPreviewHTML imports o := by
      rw [hshape]
      exact ⟨prevH0 ++ BASE_STYLES ++ prevH1
          ++ (if o.styles ≠ [] then styleO ++ o.styles ++ styleC else [])
          ++ prevH2 ++ o.importMap ++ prevH3,
        prevH4 ++ prevH5, by simp [List.append_assoc]⟩
    refine ⟨isSub_iff.mpr hED, ?_, ?_⟩
    · intro e hemem
      have hitem : errItem e <:+: generateErrorDisplay o.errors := by
        simp only [generateErrorDisplay]
        rw [if_neg (fun h0 => he (List.length_eq_zero.mp h0))]
        refine infixTrans (subOfMemFlatten (List.mem_map_of_mem errItem hemem)) ?_
        exact ⟨errD0 ++ (if 1 < o.errors.length then str "s" else []) ++ errD1
            ++ natStr o.errors.length ++ errD2, errD3, by simp [List.append_assoc]⟩
      have hdoc : errItem e <:+: createPreviewHTML imports o := infixTrans hitem hED
      refine ⟨?_, ?_, ?_⟩
      · refine isSub_iff.mpr (infixTrans ?_ hdoc)
        simp only [errItem]
        exact ⟨errI0,
          errI1 ++ (if locOf e.2 ≠ [] then spanO ++ escapeHtml (locOf e.2) ++ spanC
              else []) ++ errI2 ++ escapeHtml (cleanErrOf e.2) ++ errI3,
          by simp [List.append_assoc]⟩
      · refine isSub_iff.mpr (infixTrans ?_ hdoc)
        simp only [errItem]
        exact ⟨errI0 ++ escapeHtml e.1 ++ errI1
            ++ (if locOf e.2 ≠ [] then spanO ++ escapeHtml (locOf e.2) ++ spanC
              else []) ++ errI2,
          errI3, by simp [List.append_assoc]⟩
      · intro hl
        refine isSub_iff.mpr (infixTrans ?_ hdoc)
        simp only [errItem]
        rw [if_pos hl]
        exact ⟨errI0 ++ escapeHtml e.1 ++ errI1,
          errI2 ++ escapeHtml (cleanErrOf e.2) ++ errI3,
          by simp [List.append_assoc]⟩
    · cases hval : isSub scriptMarker (createPreviewHTML imports o) with
      | false => rfl
      | true => exact absurd (isSub_iff.mp hval) hdocSC.1
  · intro he
    have hshape := createPreviewHTML_shape_app imports o he
    have hsb : SegCond errMarker
        (if o.styles ≠ [] then styleO ++ o.styles ++ styleC else []) := by
      by_cases hs : o.styles ≠ []
      · rw [if_pos hs]
        exact SegCond_append (SegCond_append scEM_styleO (scEM_dyn hstyles)) scEM_styleC
      · rw [if_neg hs]
        exact SegCond_nil (by decide)
    have happ : SegCond errMarker
        (generateAppScript (entryUrlOf imports o.importMap o.entryPoint)
          o.entryPoint o.importMap) := by
      rw [generateAppScript]
      exact SegCond_append (SegCond_append (SegCond_append (SegCond_append
        (SegCond_append (SegCond_append (SegCond_append (SegCond_append
          (SegCond_append (SegCond_append scEM_appA0 (scEM_dyn hurl)) scEM_appA1)
            (scEM_dyn hurl)) scEM_appA2) (scEM_dyn hurl)) scEM_appA3)
              (scEM_dyn hentry)) scEM_appA4) (scEM_dyn (jsonQuote_no_lt hmap)))
        scEM_appA5
    have hdocSC : SegCond errMarker (createPreviewHTML imports o) := by
      rw [hshape]
      exact SegCond_append (SegCond_append (SegCond_append (SegCond_append
        (SegCond_append (SegCond_append (SegCond_append (SegCond_append
          (SegCond_append scEM_prevH0 scEM_base) scEM_prevH1) hsb) scEM_prevH2)
            (scEM_dyn hmap)) scEM_prevH3) scEM_prevH4) happ) scEM_prevH5
    constructor
    · refine isSub_iff.mpr ?_
      rw [hshape]
      exact ⟨prevH0 ++ BASE_STYLES ++ prevH1
          ++ (if o.styles ≠ [] then styleO ++ o.styles ++ styleC else [])
          ++ prevH2 ++ o.importMap ++ prevH3 ++ prevH4,
        prevH5, by simp [List.append_assoc]⟩
    · cases hval : isSub errMarker (createPreviewHTML imports o) with
      | false => rfl
      | true => exact absurd (isSub_iff.mp hval) hdocSC.1

/-- A concrete input for the C2 witness: one syntax error. -/
def cTwoOpts : PreviewHTMLOptions :=
  { entryPoint := str "/App.jsx"
    importMap := str "\x7b\"imports\":\x7b\x7d\x7d"
    styles := []
    errors := [(str "/App.jsx", str "Unexpected token (1:3)")] }

/-- The JSON-parse oracle of the witness: the lookup finds nothing. -/
def cTwoImports : Str → Str → Option Str := fun _ _ => none

set_option maxRecDepth 100000 in
/-- The C2 theorem applied at `cTwoOpts`, all hypotheses discharged. -/
theorem preview_error_precedence_witness :
    ('<' ∉ cTwoOpts.styles) ∧ ('<' ∉ cTwoOpts.importMap) ∧
      ('<' ∉ cTwoOpts.entryPoint) ∧
      ('<' ∉ entryUrlOf cTwoImports cTwoOpts.importMap cTwoOpts.entryPoint) ∧
      ((cTwoOpts.errors ≠ [] →
        isSub (generateErrorDisplay cTwoOpts.errors)
          (createPreviewHTML cTwoImports cTwoOpts) = true ∧
        (∀ e ∈ cTwoOpts.errors,
          isSub (escapeHtml e.1) (createPreviewHTML cTwoImports cTwoOpts) = true ∧
          isSub (escapeHtml (cleanErrOf e.2))
            (createPreviewHTML cTwoImports cTwoOpts) = true ∧
          (locOf e.2 ≠ [] →
            isSub (spanO ++ escapeHtml (locOf e.2) ++ spanC)
              (createPreviewHTML cTwoImports cTwoOpts) = true)) ∧
        isSub scriptMarker (createPreviewHTML cTwoImports cTwoOpts) = false) ∧
      (cTwoOpts.errors = [] →
        isSub (generateAppScript
            (entryUrlOf cTwoImports cTwoOpts.importMap cTwoOpts.entryPoint)
            cTwoOpts.entryPoint cTwoOpts.importMap)
          (createPreviewHTML cTwoImports cTwoOpts) = true ∧
        isSub errMarker (createPreviewHTML cTwoImports cTwoOpts) = false)) :=
  ⟨by decide, by decide, by decide, by decide,
    preview_error_precedence cTwoImports cTwoOpts (by decide) (by decide)
      (by decide) (by decide)⟩

end UIGen
